import Mathlib

/-!
# Fuzzy substring matching of `pick` (`src/levenshtein.c`)

A shallow embedding of `levenshtein_substring_match` and of the functions it is
built from, followed by a verification of its contract.

* Values of C type `unsigned` are natural numbers below `2 ^ 32`; every
  `unsigned` addition and subtraction of the source is written with `uadd` and
  `usub`, which reduce modulo `2 ^ 32`.  Values of type `int` are integers;
  `to_int` and `of_int` are the conversions between the two.
* The two global rows `storage0` and `storage1` are the two fields of `Mem`.
  A pointer into a row is a `Ptr`: the row it points into and an offset.  Every
  load and store checks the index against the `LEVENSHTEIN_MAX_LENGTH + 2`
  cells of a row and fails (`none`) outside of them.
* A pointer into the query or the text is the list of the bytes from the
  pointed byte to the end of the buffer; reading past the end fails (`none`).
* `LEVENSHTEIN_MAX_LENGTH` comes from `levenshtein.h`; it is a parameter, `L`.
* The recursion `process_range → process_subrange → process_range` is driven by
  a fuel argument; running out of fuel is `none`.

The verification has three layers.

1. `pscan` is the scan of `process_range` on rows that are functions of the column of
   the text, with no memory.  `process_range_spec` shows that `process_range`, on the
   two shared rows, returns `some` of what `pscan` returns and writes inside its window
   only; `match_eq_pmatch` is the same statement for the entry point.
2. `Dtab` is the matrix of the distances of the prefixes of the query to the substrings
   of the text that end at a column.  `pscan_correct` shows that every value of the scan
   is at least the cell of the matrix it stands for, and equal to it when the cell is
   within the threshold (`Approx`), and that the scan reaches every cell of the last row
   that is within the threshold; `ploop_spec` describes the bands that the loop finds.
3. `lev` is the edit distance and `dstar` its minimum over the contiguous substrings of
   the text; `Dtab_le_lev` and `Dtab_attained` link the matrix to them.

Two variants of the source are compared with it.

* `process_range_fresh` is `process_range` with a fresh pair of rows for every recursive
  call; `process_range_fresh_spec` shows that it returns what `pscan` returns as well
  (`pscan_shift`: the scan does not depend on where its window lies in the text).
* `process_range_log` is `process_range` with a record of its writes and of its calls
  (`Event`); `match_log_erase` shows that the record changes nothing on any input.
* `process_range_chk` is `process_range_log` with two checks: after every call that the
  loop makes, the child has written nothing at or after the column of the parent, and
  every later turn of the loop reads at or after that column only.
  `match_chk_sim` shows that the checks change nothing but for a failure, and
  `process_range_chk_spec` that it never fails: the checked scan returns what `pscan`
  returns, and every event of the record is one of the scan (`EventOK`): a write of the
  cell of the matrix (of `a_index` at the column `0` of a window), a call on the window
  of a band.
-/

namespace Pick

/-! ## Machine arithmetic -/

/-- The constant `UINT_MAX` of a 32 bit `unsigned`; it is the value "not found". -/
def UINT_MAX : Nat := 4294967295

/-- Addition of two `unsigned` values. -/
def uadd (x y : Nat) : Nat := (x + y) % 4294967296

/-- Subtraction of two `unsigned` values (both below `2 ^ 32`). -/
def usub (x y : Nat) : Nat := (x + 4294967296 - y) % 4294967296

/-- Conversion `unsigned → int` (two's complement). -/
def to_int (x : Nat) : Int := if x < 2147483648 then (x : Int) else (x : Int) - 4294967296

/-- Conversion `int → unsigned`. -/
def of_int (z : Int) : Nat := (z % 4294967296).toNat

/-- The function `tolower` of the C locale, on a byte. -/
def tolower (c : Nat) : Nat := if 65 ≤ c ∧ c ≤ 90 then c + 32 else c

/-! ## Memory -/

/-- A pointer into one of the two global rows: `bank = false` is `storage0`,
`bank = true` is `storage1`. -/
structure Ptr where
  bank : Bool
  off : Nat

/-- The contents of the two global rows `storage0` and `storage1`. -/
structure Mem where
  storage0 : Nat → Nat
  storage1 : Nat → Nat

/-- The row a pointer points into. -/
def Mem.cells (m : Mem) (bank : Bool) : Nat → Nat :=
  if bank then m.storage1 else m.storage0

/-- Overwrite one cell of a row. -/
def Mem.set (m : Mem) (bank : Bool) (j v : Nat) : Mem :=
  if bank then { storage0 := m.storage0, storage1 := fun x => if x = j then v else m.storage1 x }
  else { storage0 := fun x => if x = j then v else m.storage0 x, storage1 := m.storage1 }

/-- The read `p[i]`; it fails outside of the `L + 2` cells of the row. -/
def Mem.load (L : Nat) (m : Mem) (p : Ptr) (i : Nat) : Option Nat :=
  if p.off + i < L + 2 then some (m.cells p.bank (p.off + i)) else none

/-- The write `p[i] = v`; it fails outside of the `L + 2` cells of the row. -/
def Mem.store (L : Nat) (m : Mem) (p : Ptr) (i v : Nat) : Option Mem :=
  if p.off + i < L + 2 then some (m.set p.bank (p.off + i) v) else none

/-- The call `memset(p, 0, n * sizeof(unsigned))`. -/
def Mem.zero (L : Nat) (m : Mem) (p : Ptr) (n : Nat) : Option Mem :=
  if p.off + n ≤ L + 2 then
    some (if p.bank then
        { storage0 := m.storage0,
          storage1 := fun x => if p.off ≤ x ∧ x < p.off + n then 0 else m.storage1 x }
      else
        { storage0 := fun x => if p.off ≤ x ∧ x < p.off + n then 0 else m.storage0 x,
          storage1 := m.storage1 })
  else none

/-! ## The source -/

/-- The C structure `struct range`. -/
structure range where
  ch : Nat
  a : List Nat
  length_a : Nat
  b : List Nat
  length_b : Nat
  row : Ptr
  row_prev : Ptr
  max_distance : Nat
  a_index : Nat
  first_match : Nat
  last_match : Nat

/-- C function `has_subrange`. -/
def has_subrange (r : range) : Bool := decide (r.first_match ≤ r.length_b)

/-- C function `setup_no_subrange`. -/
def setup_no_subrange (r : range) : range :=
  { r with first_match := uadd r.length_b 1, last_match := uadd r.length_b 1 }

/-- C function `setup_initial_range`.  The test of `row` and `row_prev` against
`NULL` never fires on the two static arrays and is left out. -/
def setup_initial_range (L : Nat) (a : List Nat) (length_a : Nat) (b : List Nat)
    (length_b max_distance : Nat) (m : Mem) : Option (range × Mem) :=
  match a[0]? with
  | none => none
  | some c =>
    match m.zero L ⟨true, 0⟩ (length_b + 2) with
    | none => none
    | some m1 =>
      some (setup_no_subrange
        { ch := tolower c, a := a, length_a := length_a, b := b, length_b := length_b,
          row := ⟨false, 0⟩, row_prev := ⟨true, 0⟩, max_distance := max_distance,
          a_index := 1, first_match := 0, last_match := 0 }, m1)

/-- C function `min_of_three`. -/
def min_of_three (a b c : Int) : Int :=
  let t := if a < b then a else b
  if t < c then t else c

/-- C function `chars_match`. -/
def chars_match (data : range) (i : Nat) : Option Bool :=
  match data.b[usub i 1]? with
  | none => none
  | some c => some (decide (tolower c = data.ch))

/-- C function `levenshtein_value`. -/
def levenshtein_value (L : Nat) (m : Mem) (data : range) (i : Nat) : Option Nat :=
  match chars_match data i with
  | none => none
  | some true => m.load L data.row_prev (usub i 1)
  | some false =>
    match m.load L data.row_prev i, m.load L data.row (usub i 1),
        m.load L data.row_prev (usub i 1) with
    | some x, some y, some z =>
      some (of_int (min_of_three (to_int (uadd x 1)) (to_int (uadd y 1)) (to_int (uadd z 1))))
    | _, _, _ => none

/-- C function `process_subrange`; `call` is `process_range`.  The result passes
through the return type `int` on its way to the `unsigned` of the caller. -/
def process_subrange (call : range → Mem → Option (Nat × Mem)) (r : range) (m : Mem) :
    Option (Nat × Mem) :=
  let length_b0 := uadd (usub r.last_match r.first_match) r.length_a
  let length_b1 :=
    if length_b0 > uadd (usub r.length_b r.first_match) 1 then
      uadd (usub r.length_b r.first_match) 1
    else length_b0
  let a1 := r.a.drop 1
  match a1[0]? with
  | none => none
  | some c =>
    let subrange : range :=
      { ch := tolower c, a := a1, length_a := usub r.length_a 1,
        b := r.b.drop (r.first_match - 1), length_b := length_b1,
        row := ⟨r.row_prev.bank, r.row_prev.off + r.first_match - 1⟩,
        row_prev := ⟨r.row.bank, r.row.off + r.first_match - 1⟩,
        max_distance := r.max_distance, a_index := r.a_index + 1,
        first_match := 0, last_match := 0 }
    match call (setup_no_subrange subrange) m with
    | none => none
    | some (res, m1) => some (of_int (to_int res), m1)

/-- C function `is_beyond_subrange`. -/
def is_beyond_subrange (r : range) (i : Nat) : Bool :=
  decide (i > uadd r.last_match r.length_a)

/-- C function `update_subrange`. -/
def update_subrange (L : Nat) (m : Mem) (r : range) (i : Nat) : Option range :=
  match m.load L r.row i with
  | none => none
  | some v =>
    if v ≤ r.max_distance then
      some { (if has_subrange r then r else { r with first_match := i }) with last_match := i }
    else some r

/-- C function `is_in_last_row`. -/
def is_in_last_row (r : range) : Bool := decide (r.length_a = 1)

/-- The `for` loop of `process_range`, from column `i` on; `n` bounds the number
of iterations left and is `length_b + 1 - i` in `process_range`.  The state is
the range, `best_result` and the memory. -/
def process_range_loop (L : Nat) (call : range → Mem → Option (Nat × Mem)) :
    Nat → Nat → range → Nat → Mem → Option (range × Nat × Mem)
  | 0, _, r, best_result, m => some (r, best_result, m)
  | n + 1, i, r, best_result, m =>
    if i ≤ r.length_b ∧ best_result > 0 then
      match levenshtein_value L m r i with
      | none => none
      | some v =>
        match m.store L r.row i v with
        | none => none
        | some m1 =>
          if is_in_last_row r then
            match m1.load L r.row i with
            | none => none
            | some x =>
              process_range_loop L call n (uadd i 1) r
                (if x < best_result then x else best_result) m1
          else
            match update_subrange L m1 r i with
            | none => none
            | some r1 =>
              if is_beyond_subrange r1 i then
                match process_subrange call r1 m1 with
                | none => none
                | some (subresult, m2) =>
                  process_range_loop L call n (uadd i 1) (setup_no_subrange r1)
                    (if subresult < best_result then subresult else best_result) m2
              else process_range_loop L call n (uadd i 1) r1 best_result m1
    else some (r, best_result, m)

/-- C function `process_range`; the first argument is the fuel of the recursion. -/
def process_range (L : Nat) : Nat → range → Mem → Option (Nat × Mem)
  | 0, _, _ => none
  | fuel + 1, r, m =>
    match m.store L r.row 0 (of_int r.a_index) with
    | none => none
    | some m1 =>
      match process_range_loop L (process_range L fuel) r.length_b 1 r UINT_MAX m1 with
      | none => none
      | some (r1, best_result, m2) =>
        if has_subrange r1 then
          match process_subrange (process_range L fuel) r1 m2 with
          | none => none
          | some (subresult, m3) =>
            some (if subresult < best_result then subresult else best_result, m3)
        else some (best_result, m2)

/-- C function `levenshtein_substring_match`, with `LEVENSHTEIN_MAX_LENGTH = L`,
run with the given fuel on the given contents of the two global rows. -/
def levenshtein_substring_match (L fuel : Nat) (m : Mem) (a : List Nat) (length_a : Nat)
    (b : List Nat) (length_b max_distance : Nat) : Option Nat :=
  let length_a := if length_a > L then L else length_a
  let length_b := if length_b > L then L else length_b
  if length_a = 0 then
    if length_b ≤ max_distance then some length_b else some UINT_MAX
  else if length_b = 0 then some UINT_MAX
  else if length_a > uadd length_b max_distance then some UINT_MAX
  else
    match setup_initial_range L a length_a b length_b max_distance m with
    | none => none
    | some (initial, m1) =>
      match process_range L fuel initial m1 with
      | none => none
      | some (result, _) => some result


/-! ## The scan as a function of the rows -/

/-- One cell of the matrix from its three neighbours. -/
def cell (eq : Bool) (up left diag : Nat) : Nat :=
  if eq then diag else min (min (up + 1) (left + 1)) (diag + 1)

/-- The row that `process_range` computes on the window `(lo, hi]` of the text `t` for
the query byte `ch`, as a function of the column (column `c` is the byte `t[c - 1]`). -/
def prow (ch : Nat) (t : List Nat) (ai lo : Nat) (prev : Nat → Nat) : Nat → Nat
  | 0 => ai
  | c + 1 =>
    if c + 1 ≤ lo then ai
    else cell (decide (tolower (t.getD c 0) = ch)) (prev (c + 1)) (prow ch t ai lo prev c) (prev c)

/-- The loop of `process_range` in the last row. -/
def plast (hi : Nat) (W : Nat → Nat) : Nat → Nat → Nat → Nat
  | 0, _, best => best
  | n + 1, c, best =>
    if c ≤ hi ∧ best > 0 then plast hi W n (c + 1) (if W c < best then W c else best)
    else best

/-- The loop of `process_range` above the last row, with the call after the loop. -/
def ploop (k la hi : Nat) (W : Nat → Nat) (child : Nat → Nat → Nat) :
    Nat → Nat → Nat → Nat → Nat → Nat
  | 0, _, F, Lst, best =>
    if F ≤ hi then (if child F Lst < best then child F Lst else best) else best
  | n + 1, c, F, Lst, best =>
    if c ≤ hi ∧ best > 0 then
      let F1 := if W c ≤ k then (if F ≤ hi then F else c) else F
      let L1 := if W c ≤ k then c else Lst
      if c > L1 + la then
        ploop k la hi W child n (c + 1) (hi + 1) (hi + 1)
          (if child F1 L1 < best then child F1 L1 else best)
      else ploop k la hi W child n (c + 1) F1 L1 best
    else if F ≤ hi then (if child F Lst < best then child F Lst else best) else best

/-- The scan of `process_range` on fresh rows. -/
def pscan (q t : List Nat) (k : Nat) : Nat → Nat → Nat → Nat → (Nat → Nat) → Nat
  | 0, _, _, _, _ => UINT_MAX
  | la + 1, ai, lo, hi, prev =>
    let W := prow (tolower (q.getD (ai - 1) 0)) t ai lo prev
    if la = 0 then plast hi W (hi - lo) (lo + 1) UINT_MAX
    else
      ploop k (la + 1) hi W
        (fun F Lst => pscan q t k la (ai + 1) (F - 1) (min (Lst + la) hi) W)
        (hi - lo) (lo + 1) (hi + 1) (hi + 1) UINT_MAX

/-- The entry point on fresh rows. -/
def pmatch (L : Nat) (q : List Nat) (length_a : Nat) (t : List Nat) (length_b k : Nat) : Nat :=
  let la := if length_a > L then L else length_a
  let lb := if length_b > L then L else length_b
  if la = 0 then (if lb ≤ k then lb else UINT_MAX)
  else if lb = 0 then UINT_MAX
  else if la > uadd lb k then UINT_MAX
  else pscan q t k la 1 0 lb (fun _ => 0)


/-! ## The specification: edit distance to the nearest substring -/

/-- The cost of putting the byte `y` in the place of the byte `x`: nothing when the
two are equal after lower-casing, one otherwise. -/
def subst_cost (x y : Nat) : Nat := if tolower x = tolower y then 0 else 1

/-- The distance of `x :: xs` to the suffixes of a text, from the distance `up` of `xs`
to them; `n` is the length of `xs`. -/
def lev_row (x : Nat) (up : List Nat → Nat) (n : Nat) : List Nat → Nat
  | [] => n + 1
  | y :: ys =>
    min (min (up (y :: ys) + 1) (lev_row x up n ys + 1)) (up ys + subst_cost x y)

/-- The unit-cost Levenshtein distance of two byte strings, bytes compared after
lower-casing: the least number of insertions, deletions and substitutions of one byte
that turn the first string into the second. -/
def lev : List Nat → List Nat → Nat
  | [], ys => ys.length
  | x :: xs, ys => lev_row x (lev xs) xs.length ys

/-- The contiguous substrings of a text, the empty one included. -/
def substrings (t : List Nat) : List (List Nat) :=
  t.tails.flatMap List.inits

/-- The least element of a list of numbers, or `d` when the list has none below `d`. -/
def least (d : Nat) : List Nat → Nat
  | [] => d
  | x :: xs => min x (least d xs)

/-- The distance `d*(q, t)` of the query `q` to the nearest contiguous substring of the
text `t`. -/
def dstar (q t : List Nat) : Nat :=
  least (lev q []) ((substrings t).map (lev q))

/-- The row `i + 1` of the matrix of the distances, from the row `i`, which is `up`. -/
def Dtab_row (q t : List Nat) (i : Nat) (up : Nat → Nat) : Nat → Nat
  | 0 => i + 1
  | c + 1 =>
    min (min (up (c + 1) + 1) (Dtab_row q t i up c + 1))
      (up c + subst_cost (q.getD i 0) (t.getD c 0))

/-- The cell `(i, c)` of the matrix of the distances of the first `i` bytes of the
query to the substrings of the text that end at column `c`. -/
def Dtab (q t : List Nat) : Nat → Nat → Nat
  | 0 => fun _ => 0
  | i + 1 => Dtab_row q t i (Dtab q t i)

/-- An edit script: `Align xs ys n` holds when `ys` is obtained from `xs` by deletions,
insertions and substitutions of one byte of total cost `n`. -/
inductive Align : List Nat → List Nat → Nat → Prop
  | nil : Align [] [] 0
  | del (x : Nat) {xs ys : List Nat} {n : Nat} : Align xs ys n → Align (x :: xs) ys (n + 1)
  | ins (y : Nat) {xs ys : List Nat} {n : Nat} : Align xs ys n → Align xs (y :: ys) (n + 1)
  | sub (x y : Nat) {xs ys : List Nat} {n : Nat} :
    Align xs ys n → Align (x :: xs) (y :: ys) (n + subst_cost x y)

/-- The value `v` that the scan holds for a cell stands for the distance `d` of the
cell: it is not below it, and it is `d` when `d` is within the threshold `k`. -/
def Approx (k v d : Nat) : Prop := d ≤ v ∧ (d ≤ k → v = d)

/-- The same ASCII letter in the other case; a byte that is not an ASCII letter. -/
def swapcase (c : Nat) : Nat :=
  if 65 ≤ c ∧ c ≤ 90 then c + 32 else if 97 ≤ c ∧ c ≤ 122 then c - 32 else c

/-- The byte `y` is the byte `x`, or the same ASCII letter in the other case. -/
def CaseVariant (x y : Nat) : Prop := y = x ∨ y = swapcase x

/-- The costs of `lev` as a cost structure of the library: one for a deletion, one for
an insertion, `subst_cost` for a substitution. -/
def unit_cost : Levenshtein.Cost Nat Nat Nat :=
  { delete := fun _ => 1, insert := fun _ => 1, substitute := subst_cost }

/-! ## The link between the source and the scan on fresh rows -/

/-- The range of `process_range` at row `ai` of the matrix, on the window `(lo, hi]` of
the text `t`, with `la` bytes of the query `q` left, the current row in the row `bk` and
the band `[F, Lst]` (columns of the text). -/
def mkR (q t : List Nat) (k la ai lo hi : Nat) (bk : Bool) (F Lst : Nat) : range :=
  { ch := tolower (q.getD (ai - 1) 0), a := q.drop (ai - 1), length_a := la,
    b := t.drop lo, length_b := hi - lo, row := ⟨bk, lo⟩, row_prev := ⟨!bk, lo⟩,
    max_distance := k, a_index := ai, first_match := F - lo, last_match := Lst - lo }

/-- The memory `m1` differs from `m` in the cells `lo .. hi` of the two rows at most. -/
def Frame (lo hi : Nat) (m m1 : Mem) : Prop :=
  ∀ bank x, (x < lo ∨ hi < x) → m1.cells bank x = m.cells bank x

/-- What `process_range` does after its loop. -/
def after_loop (call : range → Mem → Option (Nat × Mem)) (st : range × Nat × Mem) :
    Option (Nat × Mem) :=
  if has_subrange st.1 then
    match process_subrange call st.1 st.2.2 with
    | none => none
    | some (subresult, m3) => some (if subresult < st.2.1 then subresult else st.2.1, m3)
  else some (st.2.1, st.2.2)

/-- The function `call` runs the scan with `la` bytes of the query left: on a range
whose previous row holds `prev` it returns the result of `pscan` and writes inside the
window only. -/
def CallSpec (L : Nat) (q t : List Nat) (k la : Nat)
    (call : range → Mem → Option (Nat × Mem)) : Prop :=
  ∀ (ai lo hi : Nat) (bk : Bool) (prev : Nat → Nat) (m : Mem),
    lo < hi → hi ≤ L → hi ≤ t.length → 1 ≤ ai → ai + la ≤ q.length + 1 → ai + la ≤ L + 1 →
    (∀ c, lo ≤ c → c ≤ hi → m.cells (!bk) c = prev c) →
    (∀ c, lo ≤ c → c ≤ hi → prev c < ai) →
    ∃ m1, call (mkR q t k la ai lo hi bk (hi + 1) (hi + 1)) m
        = some (pscan q t k la ai lo hi prev, m1) ∧ Frame lo hi m m1

/-! ## Bands -/

/-- The columns of the window within `la + 1` columns before the column `c` are all above
the threshold. -/
def DeadBefore (k la lo : Nat) (W : Nat → Nat) (c : Nat) : Prop :=
  ∀ x, lo < x → x < c → c ≤ x + la + 1 → k < W x

/-- The columns of the window within `la + 1` columns after the column `l` are all above
the threshold. -/
def DeadAfter (k la hi : Nat) (W : Nat → Nat) (l : Nat) : Prop :=
  ∀ x, l < x → x ≤ hi → x ≤ l + la + 1 → k < W x

/-- Every column of `[F, l]` is at most `la` columns after a column of `[F, l]` that is
within the threshold. -/
def Conn (k la : Nat) (W : Nat → Nat) (F l : Nat) : Prop :=
  ∀ x, F ≤ x → x ≤ l → ∃ y, F ≤ y ∧ y ≤ x ∧ x ≤ y + la ∧ W y ≤ k

/-- The band `[F, l]` of the row `W` on the window `(lo, hi]`: it starts and ends at a
column within the threshold `k`, its gaps are at most `la` columns long, and the `la + 1`
columns on each of its sides are above the threshold. -/
structure Band (k la lo hi : Nat) (W : Nat → Nat) (F l : Nat) : Prop where
  lo_lt : lo < F
  le : F ≤ l
  le_hi : l ≤ hi
  first : W F ≤ k
  last : W l ≤ k
  before : DeadBefore k la lo W F
  after : DeadAfter k la hi W l
  conn : Conn k la W F l

/-- The state of the loop of `process_range` before the column `c`: either no band is
open, or the band `[F, Lst]` is. -/
def LoopInv (k la lo hi : Nat) (W : Nat → Nat) (c F Lst best : Nat) : Prop :=
  (F = hi + 1 ∧ Lst = hi + 1 ∧ DeadBefore k la lo W c) ∨
  (lo < F ∧ F ≤ Lst ∧ Lst < c ∧ W F ≤ k ∧ W Lst ≤ k ∧ (∀ x, Lst < x → x < c → k < W x) ∧
    c ≤ Lst + la + 1 ∧ DeadBefore k la lo W F ∧ Conn k la W F Lst ∧ 0 < best)

/-- What the loop of `process_range` returns from the column `c` on: the result `R` is
the best result so far or the result of the scan of a band; no later band that holds a
column within the threshold gives less than `R`. -/
structure LoopRes (k la lo hi : Nat) (W : Nat → Nat) (child : Nat → Nat → Nat)
    (c F Lst best R : Nat) : Prop where
  shape : R = best ∨ ∃ F1 L1, Band k la lo hi W F1 L1 ∧ R = child F1 L1
  le_best : R ≤ best
  cover : ∀ x, c ≤ x → x ≤ hi → W x ≤ k →
    R = 0 ∨ ∃ F1 L1, Band k la lo hi W F1 L1 ∧ F1 ≤ x ∧ x ≤ L1 ∧ R ≤ child F1 L1
  cover_open : F ≤ hi → R = 0 ∨ ∃ L1, Band k la lo hi W F L1 ∧ Lst ≤ L1 ∧ R ≤ child F L1
/-- The value `v` is the cost of an edit script that turns the first `i` bytes of the
query into a contiguous substring of the text that ends at the column `c`. -/
def Scripted (q t : List Nat) (i c v : Nat) : Prop :=
  ∃ s, s ≤ c ∧ Align (q.take i) ((t.take c).drop s) v

/-! ## The scan with fresh rows for every call -/

/-- A call of the scan on rows of its own.  The callee `run` gets a fresh pair of rows:
its current row is new, its previous row holds a private copy of the cells
`row_prev[0 .. length_b]` of the range, which are the slice of the current row of the
parent, and nothing else of the memory of the caller.  What the callee writes is
dropped: the caller gets its memory back as it was. -/
def fresh_call (L : Nat) (run : range → Mem → Option (Nat × Mem)) (sub : range) (m : Mem) :
    Option (Nat × Mem) :=
  if sub.row_prev.off + sub.length_b < L + 2 then
    let copy : Mem :=
      { storage0 := fun _ => 0,
        storage1 := fun j =>
          if j ≤ sub.length_b then m.cells sub.row_prev.bank (sub.row_prev.off + j) else 0 }
    match run { sub with row := ⟨false, 0⟩, row_prev := ⟨true, 0⟩ } copy with
    | none => none
    | some (res, _) => some (res, m)
  else none

/-- The function `process_range` with fresh rows for every recursive call: the loop and
`process_subrange` are those of the source, the call of `process_range` inside
`process_subrange` goes through `fresh_call`. -/
def process_range_fresh (L : Nat) : Nat → range → Mem → Option (Nat × Mem)
  | 0, _, _ => none
  | fuel + 1, r, m =>
    match m.store L r.row 0 (of_int r.a_index) with
    | none => none
    | some m1 =>
      match process_range_loop L (fresh_call L (process_range_fresh L fuel)) r.length_b 1 r
          UINT_MAX m1 with
      | none => none
      | some (r1, best_result, m2) =>
        if has_subrange r1 then
          match process_subrange (fresh_call L (process_range_fresh L fuel)) r1 m2 with
          | none => none
          | some (subresult, m3) =>
            some (if subresult < best_result then subresult else best_result, m3)
        else some (best_result, m2)

/-- The entry point with fresh rows for every recursive call. -/
def levenshtein_substring_match_fresh (L fuel : Nat) (m : Mem) (a : List Nat) (length_a : Nat)
    (b : List Nat) (length_b max_distance : Nat) : Option Nat :=
  let length_a := if length_a > L then L else length_a
  let length_b := if length_b > L then L else length_b
  if length_a = 0 then
    if length_b ≤ max_distance then some length_b else some UINT_MAX
  else if length_b = 0 then some UINT_MAX
  else if length_a > uadd length_b max_distance then some UINT_MAX
  else
    match setup_initial_range L a length_a b length_b max_distance m with
    | none => none
    | some (initial, m1) =>
      match process_range_fresh L fuel initial m1 with
      | none => none
      | some (result, _) => some result

/-! ## The scan with a record of its writes and of its calls -/

/-- What the scan records: `store r i v` is the write `row[i] = v` of `process_range` on
the range `r`; `call parent child` is the call of `process_range` on the range `child`
that `process_subrange` makes for the range `parent`. -/
inductive Event where
  | store (r : range) (i v : Nat)
  | call (parent child : range)

/-- C function `process_subrange`, with the record: the call is recorded after what the
callee records (the record has the latest event first). -/
def process_subrange_log (call : range → Mem → Option (Nat × Mem × List Event)) (r : range)
    (m : Mem) : Option (Nat × Mem × List Event) :=
  let length_b0 := uadd (usub r.last_match r.first_match) r.length_a
  let length_b1 :=
    if length_b0 > uadd (usub r.length_b r.first_match) 1 then
      uadd (usub r.length_b r.first_match) 1
    else length_b0
  let a1 := r.a.drop 1
  match a1[0]? with
  | none => none
  | some c =>
    let subrange : range :=
      { ch := tolower c, a := a1, length_a := usub r.length_a 1,
        b := r.b.drop (r.first_match - 1), length_b := length_b1,
        row := ⟨r.row_prev.bank, r.row_prev.off + r.first_match - 1⟩,
        row_prev := ⟨r.row.bank, r.row.off + r.first_match - 1⟩,
        max_distance := r.max_distance, a_index := r.a_index + 1,
        first_match := 0, last_match := 0 }
    match call (setup_no_subrange subrange) m with
    | none => none
    | some (res, m1, log) =>
      some (of_int (to_int res), m1, log ++ [Event.call r (setup_no_subrange subrange)])

/-- The `for` loop of `process_range`, with the record; `log` is the record so far. -/
def process_range_loop_log (L : Nat)
    (call : range → Mem → Option (Nat × Mem × List Event)) :
    Nat → Nat → range → Nat → Mem → List Event → Option (range × Nat × Mem × List Event)
  | 0, _, r, best_result, m, log => some (r, best_result, m, log)
  | n + 1, i, r, best_result, m, log =>
    if i ≤ r.length_b ∧ best_result > 0 then
      match levenshtein_value L m r i with
      | none => none
      | some v =>
        match m.store L r.row i v with
        | none => none
        | some m1 =>
          if is_in_last_row r then
            match m1.load L r.row i with
            | none => none
            | some x =>
              process_range_loop_log L call n (uadd i 1) r
                (if x < best_result then x else best_result) m1 (Event.store r i v :: log)
          else
            match update_subrange L m1 r i with
            | none => none
            | some r1 =>
              if is_beyond_subrange r1 i then
                match process_subrange_log call r1 m1 with
                | none => none
                | some (subresult, m2, log2) =>
                  process_range_loop_log L call n (uadd i 1) (setup_no_subrange r1)
                    (if subresult < best_result then subresult else best_result) m2
                    (log2 ++ Event.store r i v :: log)
              else
                process_range_loop_log L call n (uadd i 1) r1 best_result m1
                  (Event.store r i v :: log)
    else some (r, best_result, m, log)

/-- C function `process_range`, with the record of its writes and of the calls below
it, the latest event first. -/
def process_range_log (L : Nat) : Nat → range → Mem → Option (Nat × Mem × List Event)
  | 0, _, _ => none
  | fuel + 1, r, m =>
    match m.store L r.row 0 (of_int r.a_index) with
    | none => none
    | some m1 =>
      match process_range_loop_log L (process_range_log L fuel) r.length_b 1 r UINT_MAX m1
          [Event.store r 0 (of_int r.a_index)] with
      | none => none
      | some (r1, best_result, m2, log) =>
        if has_subrange r1 then
          match process_subrange_log (process_range_log L fuel) r1 m2 with
          | none => none
          | some (subresult, m3, log3) =>
            some (if subresult < best_result then subresult else best_result, m3, log3 ++ log)
        else some (best_result, m2, log)

/-- C function `levenshtein_substring_match`, with the record of the scan. -/
def levenshtein_substring_match_log (L fuel : Nat) (m : Mem) (a : List Nat) (length_a : Nat)
    (b : List Nat) (length_b max_distance : Nat) : Option (Nat × List Event) :=
  let length_a := if length_a > L then L else length_a
  let length_b := if length_b > L then L else length_b
  if length_a = 0 then
    if length_b ≤ max_distance then some (length_b, []) else some (UINT_MAX, [])
  else if length_b = 0 then some (UINT_MAX, [])
  else if length_a > uadd length_b max_distance then some (UINT_MAX, [])
  else
    match setup_initial_range L a length_a b length_b max_distance m with
    | none => none
    | some (initial, m1) =>
      match process_range_log L fuel initial m1 with
      | none => none
      | some (result, _, log) => some (result, log)

/-- What `process_range_log` does after its loop. -/
def after_loop_log (call : range → Mem → Option (Nat × Mem × List Event))
    (st : range × Nat × Mem × List Event) : Option (Nat × Mem × List Event) :=
  if has_subrange st.1 then
    match process_subrange_log call st.1 st.2.2.1 with
    | none => none
    | some (subresult, m3, log3) =>
      some (if subresult < st.2.1 then subresult else st.2.1, m3, log3 ++ st.2.2.2)
  else some (st.2.1, st.2.2.1, st.2.2.2)

/-- The event `e` of a scan of the text `t` for the first `N` bytes of the query `q`, on
the first `H` columns of the text.  A write is of a range of the scan at a row `ai` of
the matrix and a window `(lo, hi]`, at a column of the window, of a value that stands
for the cell of the matrix at that column: it is `ai` at the column `0` of the window and
the cell of the matrix at every other column; in the last row no band is open.  A call is
for a band `[F, Lst]` of a range with at least two bytes of the query left, on the child
range of the next row and of the window `(F - 1, min (Lst + la - 1) hi]`, where `la` is
the number of the bytes that the parent has left. -/
def EventOK (q t : List Nat) (k N H : Nat) : Event → Prop
  | Event.store r i v =>
    ∃ la ai lo hi bk F Lst, r = mkR q t k la ai lo hi bk F Lst ∧ lo < hi ∧ hi ≤ H ∧
      1 ≤ la ∧ 1 ≤ ai ∧ ai + la = N + 1 ∧ i ≤ hi - lo ∧ Approx k v (Dtab q t ai (lo + i)) ∧
      (la = 1 → F = hi + 1 ∧ Lst = hi + 1) ∧
      (1 ≤ i → v = Dtab q t ai (lo + i)) ∧ (i = 0 → v = ai)
  | Event.call parent child =>
    ∃ la ai lo hi bk F Lst, parent = mkR q t k (la + 2) ai lo hi bk F Lst ∧
      child = mkR q t k (la + 1) (ai + 1) (F - 1) (min (Lst + (la + 1)) hi) (!bk)
        (min (Lst + (la + 1)) hi + 1) (min (Lst + (la + 1)) hi + 1) ∧
      lo < F ∧ F ≤ Lst ∧ Lst ≤ hi ∧ hi ≤ H ∧ 1 ≤ ai ∧ ai + (la + 2) = N + 1

/-- The function `call` runs the scan with `la` bytes of the query left and keeps a
record: on a range of a window `(lo, hi]` whose previous row holds `prev`, which is the
row above of the matrix, it returns the result of `pscan`, writes inside the window only,
and records events of the scan on the first `hi` columns only.  A window that does not
start at the column `0` starts at a band of the row above: the cell above its first
column is over the threshold and the cell above the next column is within it. -/
def CallSpecLog (q t : List Nat) (k N H la : Nat)
    (call : range → Mem → Option (Nat × Mem × List Event)) : Prop :=
  ∀ (ai lo hi : Nat) (bk : Bool) (prev : Nat → Nat) (m : Mem),
    lo < hi → hi ≤ H → 1 ≤ ai → ai + la = N + 1 →
    (∀ c, lo ≤ c → c ≤ hi → m.cells (!bk) c = prev c) →
    (∀ c, lo ≤ c → c ≤ hi → prev c < ai) →
    (∀ c, lo ≤ c → c ≤ hi → prev c = Dtab q t (ai - 1) c) →
    (0 < lo → k < Dtab q t (ai - 1) lo) →
    (0 < lo → prev (lo + 1) ≤ k) →
    (∀ i, ai ≤ i → i < ai + la → Approx k i (Dtab q t i lo)) →
    ∃ m1 log, call (mkR q t k la ai lo hi bk (hi + 1) (hi + 1)) m
        = some (pscan q t k la ai lo hi prev, m1, log) ∧ Frame lo hi m m1 ∧
      ∀ e, e ∈ log → EventOK q t k N hi e

/-- The least number of insertions, deletions and substitutions of one byte that turn
the first `i` bytes of the query into a contiguous substring of the text that ends at
the column `c`, which is after the first `c` bytes of the text; the substring starts at
any column `s ≤ c`. -/
def dist_ending (q t : List Nat) (i c : Nat) : Nat :=
  least (lev (q.take i) [])
    ((List.range (c + 1)).map (fun s => lev (q.take i) ((t.take c).drop s)))

/-- The row of the matrix, the column of the text and the value of a write of the record
of a scan of a text of `n` bytes; a range whose text pointer has `r.b.length` bytes left
starts at the column `n - r.b.length`. -/
def Event.cell (n : Nat) : Event → Option (Nat × Nat × Nat)
  | Event.store r i v => some (r.a_index, n - r.b.length + i, v)
  | Event.call _ _ => none

/-! ## The scan with a check of what a child leaves to its parent -/

/-- No write of the record is at the cell `bound` of a row or after it. -/
def writes_below (bound : Nat) (log : List Event) : Bool :=
  log.all (fun e =>
    match e with
    | Event.store r i _ => decide (r.row.off + i < bound)
    | Event.call _ _ => true)

/-- The memory `m1` holds what the memory `m` holds in every cell of the two rows from
the cell `bound` on. -/
def cells_kept (L bound : Nat) (m m1 : Mem) : Bool :=
  (List.range (L + 2)).all (fun x =>
    decide (x < bound ∨ (m1.cells false x = m.cells false x ∧ m1.cells true x = m.cells true x)))

/-- The `for` loop of `process_range` with the record and with two checks; the loop fails
when a check does.  After every call that the loop makes at a column `i`: the child and
the calls below it have written no cell of the two rows at or after the cell `i` of the
parent, and the two rows hold from there on what they held before the call; that cell
becomes the `mark`.  Before every turn of the loop at a column `i`: the cell `i - 1` of
the parent, the first of the cells `row_prev[i - 1]`, `row[i - 1]`, `row_prev[i]`,
`row[i]` that the turn reads, is not before the `mark`.  So what the parent reads after a
child has returned, the child has not written. -/
def process_range_loop_chk (L : Nat)
    (call : range → Mem → Option (Nat × Mem × List Event)) :
    Nat → Nat → range → Nat → Mem → List Event → Nat →
      Option (range × Nat × Mem × List Event)
  | 0, _, r, best_result, m, log, _ => some (r, best_result, m, log)
  | n + 1, i, r, best_result, m, log, mark =>
    if i ≤ r.length_b ∧ best_result > 0 then
      if mark ≤ r.row.off + usub i 1 then
        match levenshtein_value L m r i with
        | none => none
        | some v =>
          match m.store L r.row i v with
          | none => none
          | some m1 =>
            if is_in_last_row r then
              match m1.load L r.row i with
              | none => none
              | some x =>
                process_range_loop_chk L call n (uadd i 1) r
                  (if x < best_result then x else best_result) m1 (Event.store r i v :: log)
                  mark
            else
              match update_subrange L m1 r i with
              | none => none
              | some r1 =>
                if is_beyond_subrange r1 i then
                  match process_subrange_log call r1 m1 with
                  | none => none
                  | some (subresult, m2, log2) =>
                    if writes_below (r1.row.off + i) log2 ∧
                        cells_kept L (r1.row.off + i) m1 m2 then
                      process_range_loop_chk L call n (uadd i 1) (setup_no_subrange r1)
                        (if subresult < best_result then subresult else best_result) m2
                        (log2 ++ Event.store r i v :: log) (r1.row.off + i)
                    else none
                else
                  process_range_loop_chk L call n (uadd i 1) r1 best_result m1
                    (Event.store r i v :: log) mark
      else none
    else some (r, best_result, m, log)

/-- C function `process_range`, with the record and the checks, at every depth of the
recursion; no cell is marked when the loop starts. -/
def process_range_chk (L : Nat) : Nat → range → Mem → Option (Nat × Mem × List Event)
  | 0, _, _ => none
  | fuel + 1, r, m =>
    match m.store L r.row 0 (of_int r.a_index) with
    | none => none
    | some m1 =>
      match process_range_loop_chk L (process_range_chk L fuel) r.length_b 1 r UINT_MAX m1
          [Event.store r 0 (of_int r.a_index)] 0 with
      | none => none
      | some (r1, best_result, m2, log) =>
        if has_subrange r1 then
          match process_subrange_log (process_range_chk L fuel) r1 m2 with
          | none => none
          | some (subresult, m3, log3) =>
            some (if subresult < best_result then subresult else best_result, m3, log3 ++ log)
        else some (best_result, m2, log)

/-- C function `levenshtein_substring_match`, with the record and the checks. -/
def levenshtein_substring_match_chk (L fuel : Nat) (m : Mem) (a : List Nat) (length_a : Nat)
    (b : List Nat) (length_b max_distance : Nat) : Option (Nat × List Event) :=
  let length_a := if length_a > L then L else length_a
  let length_b := if length_b > L then L else length_b
  if length_a = 0 then
    if length_b ≤ max_distance then some (length_b, []) else some (UINT_MAX, [])
  else if length_b = 0 then some (UINT_MAX, [])
  else if length_a > uadd length_b max_distance then some (UINT_MAX, [])
  else
    match setup_initial_range L a length_a b length_b max_distance m with
    | none => none
    | some (initial, m1) =>
      match process_range_chk L fuel initial m1 with
      | none => none
      | some (result, _, log) => some (result, log)



/-! ## Lemmas on the machine arithmetic -/

theorem uadd_small {x y : Nat} (h : x + y < 4294967296) : uadd x y = x + y := by
  unfold uadd; omega

theorem usub_small {x y : Nat} (h1 : y ≤ x) (h2 : x < 4294967296) : usub x y = x - y := by
  unfold usub; omega

theorem to_int_small {x : Nat} (h : x < 2147483648) : to_int x = (x : Int) := by
  unfold to_int; simp [h]

theorem of_int_natCast {x : Nat} (h : x < 4294967296) : of_int (x : Int) = x := by
  unfold of_int; omega

theorem of_int_to_int {x : Nat} (h : x < 4294967296) : of_int (to_int x) = x := by
  unfold of_int to_int
  split <;> omega

theorem min_of_three_small {x y z : Nat} (hx : x < 2147483648) (hy : y < 2147483648)
    (hz : z < 2147483648) :
    of_int (min_of_three (to_int x) (to_int y) (to_int z)) = min (min x y) z := by
  rw [to_int_small hx, to_int_small hy, to_int_small hz]
  unfold min_of_three
  simp only
  split <;> split <;> rw [of_int_natCast (by omega)] <;> omega

/-! ## Lemmas on the memory -/

theorem cells_set (m : Mem) (bank : Bool) (j v : Nat) (bank1 : Bool) (x : Nat) :
    (m.set bank j v).cells bank1 x = if bank1 = bank ∧ x = j then v else m.cells bank1 x := by
  cases bank <;> cases bank1 <;> simp [Mem.set, Mem.cells]

theorem load_eq {L : Nat} (m : Mem) (p : Ptr) (i : Nat) (h : p.off + i < L + 2) :
    m.load L p i = some (m.cells p.bank (p.off + i)) := by
  simp [Mem.load, h]

theorem store_eq {L : Nat} (m : Mem) (p : Ptr) (i v : Nat) (h : p.off + i < L + 2) :
    m.store L p i v = some (m.set p.bank (p.off + i) v) := by
  simp [Mem.store, h]

theorem Frame.refl (lo hi : Nat) (m : Mem) : Frame lo hi m m := fun _ _ _ => rfl

theorem Frame.trans {lo hi : Nat} {m m1 m2 : Mem} (h1 : Frame lo hi m m1)
    (h2 : Frame lo hi m1 m2) : Frame lo hi m m2 :=
  fun bank x hx => (h2 bank x hx).trans (h1 bank x hx)

theorem Frame.mono {lo hi lo1 hi1 : Nat} {m m1 : Mem} (h : Frame lo1 hi1 m m1)
    (hlo : lo ≤ lo1) (hhi : hi1 ≤ hi) : Frame lo hi m m1 :=
  fun bank x hx => h bank x (by omega)

theorem Frame.set {lo hi : Nat} (m : Mem) (bank : Bool) (j v : Nat) (h1 : lo ≤ j)
    (h2 : j ≤ hi) : Frame lo hi m (m.set bank j v) := by
  intro bank1 x hx
  rw [cells_set]
  have : x ≠ j := by omega
  simp [this]


/-! ## The row on fresh storage -/

theorem prow_of_le (ch : Nat) (t : List Nat) (ai lo : Nat) (prev : Nat → Nat) {c : Nat}
    (h : c ≤ lo) : prow ch t ai lo prev c = ai := by
  cases c with
  | zero => rfl
  | succ c => simp [prow, h]

theorem prow_succ (ch : Nat) (t : List Nat) (ai lo : Nat) (prev : Nat → Nat) {c : Nat}
    (h : lo ≤ c) :
    prow ch t ai lo prev (c + 1)
      = cell (decide (tolower (t.getD c 0) = ch)) (prev (c + 1)) (prow ch t ai lo prev c)
          (prev c) := by
  have : ¬ (c + 1 ≤ lo) := by omega
  simp [prow, this]

theorem cell_le_up (eq : Bool) (up left diag : Nat) (h : diag ≤ up) :
    cell eq up left diag ≤ up + 1 := by
  unfold cell
  split <;> omega

theorem prow_le (ch : Nat) (t : List Nat) (ai lo hi : Nat) (prev : Nat → Nat)
    (hprev : ∀ c, lo ≤ c → c ≤ hi → prev c < ai) :
    ∀ c, c ≤ hi → prow ch t ai lo prev c ≤ ai := by
  intro c
  induction c with
  | zero => intro _; exact le_of_eq rfl
  | succ c ih =>
    intro hc
    by_cases h : c + 1 ≤ lo
    · rw [prow_of_le _ _ _ _ _ h]
    · rw [prow_succ _ _ _ _ _ (by omega)]
      have h1 := hprev c (by omega) (by omega)
      have h2 := hprev (c + 1) (by omega) hc
      unfold cell
      split <;> omega

/-! ## The functions of the source on `mkR` -/

theorem chars_match_mkR (q t : List Nat) (k la ai lo hi : Nat) (bk : Bool) (F Lst c : Nat)
    (hlo : lo < c) (hc : c ≤ hi) (ht : hi ≤ t.length) (hhi : hi < 4294967296) :
    chars_match (mkR q t k la ai lo hi bk F Lst) (c - lo)
      = some (decide (tolower (t.getD (c - 1) 0) = tolower (q.getD (ai - 1) 0))) := by
  unfold chars_match
  rw [usub_small (by omega) (by omega)]
  have h1 : (mkR q t k la ai lo hi bk F Lst).b[c - lo - 1]? = some (t.getD (c - 1) 0) := by
    simp only [mkR, List.getElem?_drop]
    have : lo + (c - lo - 1) = c - 1 := by omega
    rw [this, List.getD_eq_getElem?_getD]
    have h2 : c - 1 < t.length := by omega
    simp [List.getElem?_eq_getElem h2]
  rw [h1]
  rfl

theorem levenshtein_value_mkR (L : Nat) (m : Mem) (q t : List Nat) (k la ai lo hi : Nat)
    (bk : Bool) (F Lst c : Nat) (prev : Nat → Nat)
    (hlo : lo < c) (hc : c ≤ hi) (ht : hi ≤ t.length) (hL : hi ≤ L)
    (hL2 : L + 2 ≤ 2147483648) (hai : ai ≤ L)
    (hp1 : m.cells (!bk) (c - 1) = prev (c - 1)) (hp2 : m.cells (!bk) c = prev c)
    (hw : m.cells bk (c - 1) = prow (tolower (q.getD (ai - 1) 0)) t ai lo prev (c - 1))
    (hprev : ∀ x, lo ≤ x → x ≤ hi → prev x < ai) :
    levenshtein_value L m (mkR q t k la ai lo hi bk F Lst) (c - lo)
      = some (prow (tolower (q.getD (ai - 1) 0)) t ai lo prev c) := by
  unfold levenshtein_value
  rw [chars_match_mkR q t k la ai lo hi bk F Lst c hlo hc ht (by omega)]
  rw [usub_small (by omega) (by omega)]
  have e1 : lo + (c - lo - 1) = c - 1 := by omega
  have e2 : lo + (c - lo) = c := by omega
  have l1 : m.load L (mkR q t k la ai lo hi bk F Lst).row_prev (c - lo - 1)
      = some (prev (c - 1)) := by
    rw [load_eq _ _ _ (by simp only [mkR]; omega)]
    simp only [mkR, e1, hp1]
  have l2 : m.load L (mkR q t k la ai lo hi bk F Lst).row_prev (c - lo) = some (prev c) := by
    rw [load_eq _ _ _ (by simp only [mkR]; omega)]
    simp only [mkR, e2, hp2]
  have l3 : m.load L (mkR q t k la ai lo hi bk F Lst).row (c - lo - 1)
      = some (prow (tolower (q.getD (ai - 1) 0)) t ai lo prev (c - 1)) := by
    rw [load_eq _ _ _ (by simp only [mkR]; omega)]
    simp only [mkR, e1, hw]
  rw [l1, l2, l3]
  have hc1 : c = (c - 1) + 1 := by omega
  have hpw := prow_le (tolower (q.getD (ai - 1) 0)) t ai lo hi prev hprev (c - 1) (by omega)
  have h1 := hprev (c - 1) (by omega) (by omega)
  have h2 := hprev c (by omega) hc
  conv_rhs => rw [hc1, prow_succ _ _ _ _ _ (by omega : lo ≤ c - 1)]
  rw [← hc1]
  unfold cell
  by_cases hm : tolower (t.getD (c - 1) 0) = tolower (q.getD (ai - 1) 0)
  · simp only [hm, decide_True, if_true]
  · simp only [hm, decide_False]
    rw [uadd_small (by omega), uadd_small (by omega), uadd_small (by omega)]
    rw [min_of_three_small (by omega) (by omega) (by omega)]
    simp


theorem has_subrange_mkR (q t : List Nat) (k la ai lo hi : Nat) (bk : Bool) (F Lst : Nat)
    (h1 : lo ≤ hi) (h2 : lo ≤ F) :
    has_subrange (mkR q t k la ai lo hi bk F Lst) = decide (F ≤ hi) := by
  simp only [has_subrange, mkR, decide_eq_decide]
  omega

theorem setup_no_subrange_mkR (q t : List Nat) (k la ai lo hi : Nat) (bk : Bool) (F Lst : Nat)
    (h1 : lo ≤ hi) (h2 : hi < 4294967295) :
    setup_no_subrange (mkR q t k la ai lo hi bk F Lst)
      = mkR q t k la ai lo hi bk (hi + 1) (hi + 1) := by
  simp only [setup_no_subrange, mkR]
  rw [uadd_small (by omega)]
  have : hi - lo + 1 = hi + 1 - lo := by omega
  rw [this]

theorem is_beyond_subrange_mkR (q t : List Nat) (k la ai lo hi : Nat) (bk : Bool)
    (F Lst c : Nat) (h1 : lo ≤ Lst) (h2 : lo < c) (h3 : Lst + la < 4294967296) :
    is_beyond_subrange (mkR q t k la ai lo hi bk F Lst) (c - lo) = decide (c > Lst + la) := by
  have e : uadd (Lst - lo) la = Lst - lo + la := uadd_small (by omega)
  simp only [is_beyond_subrange, mkR, e, decide_eq_decide]
  omega

theorem update_subrange_mkR (L : Nat) (m : Mem) (q t : List Nat) (k la ai lo hi : Nat)
    (bk : Bool) (F Lst c w : Nat) (h1 : lo < c) (h2 : c ≤ hi) (h3 : hi ≤ L) (h4 : lo ≤ F)
    (hw : m.cells bk c = w) :
    update_subrange L m (mkR q t k la ai lo hi bk F Lst) (c - lo)
      = some (mkR q t k la ai lo hi bk
          (if w ≤ k then (if F ≤ hi then F else c) else F) (if w ≤ k then c else Lst)) := by
  unfold update_subrange
  rw [load_eq _ _ _ (by simp only [mkR]; omega)]
  have e2 : lo + (c - lo) = c := by omega
  simp only [mkR, e2, hw]
  rw [← mkR]
  by_cases hk : w ≤ k
  · simp only [hk, if_true]
    rw [has_subrange_mkR _ _ _ _ _ _ _ _ _ _ (by omega) h4]
    by_cases hF : F ≤ hi
    · simp [hF, mkR]
    · simp [hF, mkR]
  · simp only [hk, if_false]
    rfl

theorem process_subrange_mkR (call : range → Mem → Option (Nat × Mem)) (m : Mem)
    (q t : List Nat) (k la ai lo hi : Nat) (bk : Bool) (F Lst : Nat)
    (h1 : lo < F) (h2 : F ≤ Lst) (h3 : Lst ≤ hi) (h4 : hi + la + 2 < 4294967296)
    (h5 : ai < q.length) (h6 : 1 ≤ ai) :
    process_subrange call (mkR q t k (la + 1) ai lo hi bk F Lst) m
      = match call (mkR q t k la (ai + 1) (F - 1) (min (Lst + la) hi) (!bk)
            (min (Lst + la) hi + 1) (min (Lst + la) hi + 1)) m with
        | none => none
        | some (res, m1) => some (of_int (to_int res), m1) := by
  unfold process_subrange
  have ea : ((mkR q t k (la + 1) ai lo hi bk F Lst).a.drop 1)[0]? = some (q.getD ai 0) := by
    simp only [mkR, List.drop_drop, List.getElem?_drop]
    have : ai - 1 + 1 + 0 = ai := by omega
    rw [this, List.getD_eq_getElem?_getD, List.getElem?_eq_getElem h5]
    rfl
  simp only [ea]
  have e : setup_no_subrange
      { ch := tolower (q.getD ai 0), a := (mkR q t k (la + 1) ai lo hi bk F Lst).a.drop 1,
        length_a := usub (mkR q t k (la + 1) ai lo hi bk F Lst).length_a 1,
        b := (mkR q t k (la + 1) ai lo hi bk F Lst).b.drop
          ((mkR q t k (la + 1) ai lo hi bk F Lst).first_match - 1),
        length_b :=
          if uadd (usub (mkR q t k (la + 1) ai lo hi bk F Lst).last_match
                (mkR q t k (la + 1) ai lo hi bk F Lst).first_match)
              (mkR q t k (la + 1) ai lo hi bk F Lst).length_a
            > uadd (usub (mkR q t k (la + 1) ai lo hi bk F Lst).length_b
                (mkR q t k (la + 1) ai lo hi bk F Lst).first_match) 1 then
            uadd (usub (mkR q t k (la + 1) ai lo hi bk F Lst).length_b
                (mkR q t k (la + 1) ai lo hi bk F Lst).first_match) 1
          else uadd (usub (mkR q t k (la + 1) ai lo hi bk F Lst).last_match
                (mkR q t k (la + 1) ai lo hi bk F Lst).first_match)
              (mkR q t k (la + 1) ai lo hi bk F Lst).length_a,
        row := ⟨(mkR q t k (la + 1) ai lo hi bk F Lst).row_prev.bank,
          (mkR q t k (la + 1) ai lo hi bk F Lst).row_prev.off
            + (mkR q t k (la + 1) ai lo hi bk F Lst).first_match - 1⟩,
        row_prev := ⟨(mkR q t k (la + 1) ai lo hi bk F Lst).row.bank,
          (mkR q t k (la + 1) ai lo hi bk F Lst).row.off
            + (mkR q t k (la + 1) ai lo hi bk F Lst).first_match - 1⟩,
        max_distance := (mkR q t k (la + 1) ai lo hi bk F Lst).max_distance,
        a_index := (mkR q t k (la + 1) ai lo hi bk F Lst).a_index + 1,
        first_match := 0, last_match := 0 }
      = mkR q t k la (ai + 1) (F - 1) (min (Lst + la) hi) (!bk)
          (min (Lst + la) hi + 1) (min (Lst + la) hi + 1) := by
    simp only [mkR, setup_no_subrange]
    rw [usub_small (by omega) (by omega), usub_small (by omega) (by omega),
      usub_small (by omega) (by omega)]
    rw [uadd_small (by omega), uadd_small (by omega)]
    have e1 : (if Lst - lo - (F - lo) + (la + 1) > hi - lo - (F - lo) + 1 then
        hi - lo - (F - lo) + 1 else Lst - lo - (F - lo) + (la + 1))
        = min (Lst + la) hi - (F - 1) := by
      split <;> omega
    rw [e1, uadd_small (by omega)]
    simp only [List.drop_drop, Bool.not_not, Nat.add_sub_cancel]
    have e2 : lo + (F - lo - 1) = F - 1 := by omega
    have e3 : ai - 1 + 1 = ai := by omega
    have e4 : lo + (F - lo) - 1 = F - 1 := by omega
    have e5 : min (Lst + la) hi - (F - 1) + 1 = min (Lst + la) hi + 1 - (F - 1) := by omega
    rw [e2, e3, e4, e5]
  rw [e]


/-! ## The bands that the loop finds -/

theorem LoopInv.init (k la lo hi : Nat) (W : Nat → Nat) (best : Nat) :
    LoopInv k la lo hi W (lo + 1) (hi + 1) (hi + 1) best :=
  Or.inl ⟨rfl, rfl, fun x h1 h2 _ => by omega⟩

theorem LoopInv.first_le {k la lo hi : Nat} {W : Nat → Nat} {c F Lst best : Nat}
    (h : LoopInv k la lo hi W c F Lst best) (hF : F ≤ hi) :
    lo < F ∧ F ≤ Lst ∧ Lst < c ∧ 0 < best := by
  rcases h with ⟨h1, _, _⟩ | ⟨h1, h2, h3, _, _, _, _, _, _, h4⟩
  · omega
  · exact ⟨h1, h2, h3, h4⟩

theorem LoopInv.lo_le {k la lo hi : Nat} {W : Nat → Nat} {c F Lst best : Nat}
    (h : LoopInv k la lo hi W c F Lst best) (hlo : lo ≤ hi) : lo < F ∧ lo < Lst := by
  rcases h with ⟨h1, h2, _⟩ | ⟨h1, h2, h3, _, _, _, _, _, _, h4⟩ <;> omega

theorem LoopInv.last_le {k la lo hi : Nat} {W : Nat → Nat} {c F Lst best : Nat}
    (h : LoopInv k la lo hi W c F Lst best) (hc : c ≤ hi + 1) : Lst ≤ hi + 1 := by
  rcases h with ⟨h1, h2, _⟩ | ⟨h1, h2, h3, _, _, _, _, _, _, h4⟩ <;> omega

/-- The band that is open when the loop ends. -/
theorem LoopInv.exit {k la lo hi : Nat} {W : Nat → Nat} {c F Lst best : Nat}
    (h : LoopInv k la lo hi W c F Lst best) (hc : c = hi + 1) (hF : F ≤ hi) :
    Band k la lo hi W F Lst := by
  rcases h with ⟨h1, _, _⟩ | ⟨h1, h2, h3, h4, h5, h6, h7, h8, h9, _⟩
  · omega
  · exact ⟨h1, h2, by omega, h4, h5, h8, fun x hx1 hx2 _ => h6 x hx1 (by omega), h9⟩

/-- One turn of the loop on the column `c`, when the band is closed. -/
theorem LoopInv.step_close {k la lo hi : Nat} {W : Nat → Nat} {c F Lst best : Nat}
    (h : LoopInv k la lo hi W c F Lst best) (hlo : lo < c) (hc : c ≤ hi)
    (hcl : c > (if W c ≤ k then c else Lst) + la) (best1 : Nat) :
    Band k la lo hi W (if W c ≤ k then (if F ≤ hi then F else c) else F)
        (if W c ≤ k then c else Lst) ∧
      ¬ W c ≤ k ∧ F ≤ hi ∧
      LoopInv k la lo hi W (c + 1) (hi + 1) (hi + 1) best1 := by
  by_cases hw : W c ≤ k
  · simp only [hw, if_true] at hcl
    omega
  · simp only [hw, if_false] at hcl ⊢
    rcases h with ⟨h1, h2, _⟩ | ⟨h1, h2, h3, h4, h5, h6, h7, h8, h9, h10⟩
    · omega
    · refine ⟨⟨h1, h2, by omega, h4, h5, h8, ?_, h9⟩, not_false, by omega, Or.inl ⟨rfl, rfl, ?_⟩⟩
      · intro x hx1 hx2 hx3
        by_cases hxc : x < c
        · exact h6 x hx1 hxc
        · have : x = c := by omega
          subst this; omega
      · intro x hx1 hx2 hx3
        by_cases hxc : x < c
        · exact h6 x (by omega) hxc
        · have : x = c := by omega
          subst this; omega

/-- One turn of the loop on the column `c`, when no band is closed. -/
theorem LoopInv.step_open {k la lo hi : Nat} {W : Nat → Nat} {c F Lst best : Nat}
    (h : LoopInv k la lo hi W c F Lst best) (hlo : lo < c) (hc : c ≤ hi) (hb : 0 < best)
    (hcl : ¬ c > (if W c ≤ k then c else Lst) + la) :
    LoopInv k la lo hi W (c + 1) (if W c ≤ k then (if F ≤ hi then F else c) else F)
      (if W c ≤ k then c else Lst) best := by
  by_cases hw : W c ≤ k
  · simp only [hw, if_true]
    rcases h with ⟨h1, h2, h3⟩ | ⟨h1, h2, h3, h4, h5, h6, h7, h8, h9, h10⟩
    · have hF : ¬ F ≤ hi := by omega
      simp only [hF, if_false]
      refine Or.inr ⟨hlo, le_refl _, by omega, hw, hw, fun x _ _ => by omega, by omega, h3,
        ?_, hb⟩
      intro x hx1 hx2
      exact ⟨c, le_refl _, by omega, by omega, hw⟩
    · have hF : F ≤ hi := by omega
      simp only [hF, if_true]
      refine Or.inr ⟨h1, by omega, by omega, h4, hw, fun x _ _ => by omega, by omega, h8,
        ?_, hb⟩
      intro x hx1 hx2
      by_cases hxl : x ≤ Lst
      · exact h9 x hx1 hxl
      · by_cases hxc : x < c
        · exact ⟨Lst, h2, by omega, by omega, h5⟩
        · exact ⟨c, by omega, by omega, by omega, hw⟩
  · simp only [hw, if_false] at hcl ⊢
    rcases h with ⟨h1, h2, h3⟩ | ⟨h1, h2, h3, h4, h5, h6, h7, h8, h9, h10⟩
    · refine Or.inl ⟨h1, h2, ?_⟩
      intro x hx1 hx2 hx3
      by_cases hxc : x < c
      · exact h3 x hx1 hxc (by omega)
      · have : x = c := by omega
        subst this; omega
    · refine Or.inr ⟨h1, h2, by omega, h4, h5, ?_, by omega, h8, h9, hb⟩
      intro x hx1 hx2
      by_cases hxc : x < c
      · exact h6 x hx1 hxc
      · have : x = c := by omega
        subst this; omega


theorem ploop_run (k la hi : Nat) (W : Nat → Nat) (child : Nat → Nat → Nat)
    (n c F Lst best : Nat) (h : c ≤ hi ∧ best > 0) :
    ploop k la hi W child (n + 1) c F Lst best
      = if c > (if W c ≤ k then c else Lst) + la then
          ploop k la hi W child n (c + 1) (hi + 1) (hi + 1)
            (if child (if W c ≤ k then (if F ≤ hi then F else c) else F)
                  (if W c ≤ k then c else Lst) < best then
                child (if W c ≤ k then (if F ≤ hi then F else c) else F)
                  (if W c ≤ k then c else Lst)
              else best)
        else
          ploop k la hi W child n (c + 1) (if W c ≤ k then (if F ≤ hi then F else c) else F)
            (if W c ≤ k then c else Lst) best := by
  conv_lhs => unfold ploop
  simp only [h, and_self, if_true]

theorem ploop_stop (k la hi : Nat) (W : Nat → Nat) (child : Nat → Nat → Nat)
    (n c F Lst best : Nat) (h : n = 0 ∨ ¬ (c ≤ hi ∧ best > 0)) :
    ploop k la hi W child n c F Lst best
      = if F ≤ hi then (if child F Lst < best then child F Lst else best) else best := by
  cases n with
  | zero => rfl
  | succ n =>
    have h1 : ¬ (c ≤ hi ∧ best > 0) := by
      rcases h with h | h
      · omega
      · exact h
    conv_lhs => unfold ploop
    simp only [h1, if_false]

/-- The result of the loop of `process_range` above the last row. -/
theorem ploop_spec (k la lo hi : Nat) (W : Nat → Nat) (child : Nat → Nat → Nat) :
    ∀ n c F Lst best, n + c = hi + 1 → lo < c → LoopInv k la lo hi W c F Lst best →
      LoopRes k la lo hi W child c F Lst best (ploop k la hi W child n c F Lst best) := by
  intro n
  induction n with
  | zero =>
    intro c F Lst best hn hlo hinv
    rw [ploop_stop _ _ _ _ _ _ _ _ _ _ (Or.inl rfl)]
    by_cases hF : F ≤ hi
    · have hband := hinv.exit (by omega) hF
      simp only [hF, if_true]
      refine ⟨?_, ?_, ?_, ?_⟩
      · by_cases hlt : child F Lst < best
        · exact Or.inr ⟨F, Lst, hband, if_pos hlt⟩
        · exact Or.inl (if_neg hlt)
      · split <;> omega
      · intro x hx1 hx2 _; omega
      · intro _
        exact Or.inr ⟨Lst, hband, le_refl _, by split <;> omega⟩
    · simp only [hF, if_false]
      refine ⟨Or.inl rfl, le_refl _, ?_, fun h => absurd h hF⟩
      intro x hx1 hx2 _
      omega
  | succ n ih =>
    intro c F Lst best hn hlo hinv
    by_cases hrun : c ≤ hi ∧ best > 0
    · rw [ploop_run _ _ _ _ _ _ _ _ _ _ hrun]
      by_cases hcl : c > (if W c ≤ k then c else Lst) + la
      · simp only [hcl, if_true]
        obtain ⟨hband, hw, hF, _⟩ := hinv.step_close hlo hrun.1 hcl 0
        simp only [hw, if_false] at hband hcl ⊢
        have hb1 : (if child F Lst < best then child F Lst else best) ≤ best ∧
            (if child F Lst < best then child F Lst else best) ≤ child F Lst ∧
            ((if child F Lst < best then child F Lst else best) = best ∨
              (if child F Lst < best then child F Lst else best) = child F Lst) := by
          split <;> omega
        generalize (if child F Lst < best then child F Lst else best) = best1 at hb1 ⊢
        have hcl1 : c > (if W c ≤ k then c else Lst) + la := by
          simp only [hw, if_false]; exact hcl
        obtain ⟨_, _, _, hinv1⟩ := hinv.step_close hlo hrun.1 hcl1 best1
        have hr := ih (c + 1) (hi + 1) (hi + 1) best1 (by omega) (by omega) hinv1
        generalize ploop k la hi W child n (c + 1) (hi + 1) (hi + 1) best1 = R at hr ⊢
        refine ⟨?_, ?_, ?_, ?_⟩
        · rcases hr.shape with h | h
          · rcases hb1.2.2 with h1 | h1
            · exact Or.inl (h.trans h1)
            · exact Or.inr ⟨F, Lst, hband, h.trans h1⟩
          · exact Or.inr h
        · have := hr.le_best
          omega
        · intro x hx1 hx2 hx3
          by_cases hxc : x = c
          · subst hxc; exact absurd hx3 hw
          · exact hr.cover x (by omega) hx2 hx3
        · intro _
          refine Or.inr ⟨Lst, hband, le_refl _, ?_⟩
          have := hr.le_best
          omega
      · simp only [hcl, if_false]
        have hinv1 := hinv.step_open hlo hrun.1 hrun.2 hcl
        have hr := ih (c + 1) _ _ best (by omega) (by omega) hinv1
        refine ⟨hr.shape, hr.le_best, ?_, ?_⟩
        · intro x hx1 hx2 hx3
          by_cases hxc : x = c
          · subst hxc
            simp only [hx3, if_true] at hr hinv1 ⊢
            have hF1 : (if F ≤ hi then F else x) ≤ hi := by split <;> omega
            have hfl := hinv1.first_le hF1
            rcases hr.cover_open hF1 with h | ⟨L1, hb, hl, hle⟩
            · exact Or.inl h
            · exact Or.inr ⟨_, L1, hb, hfl.2.1, hl, hle⟩
          · exact hr.cover x (by omega) hx2 hx3
        · intro hF
          have hfl := hinv.first_le hF
          have e1 : (if W c ≤ k then (if F ≤ hi then F else c) else F) = F := by
            split
            · simp only [hF, if_true]
            · rfl
          rw [e1] at hr ⊢
          rcases hr.cover_open hF with h | ⟨L1, hb, hl, hle⟩
          · exact Or.inl h
          · refine Or.inr ⟨L1, hb, ?_, hle⟩
            split at hl <;> omega
    · rw [ploop_stop _ _ _ _ _ _ _ _ _ _ (Or.inr hrun)]
      by_cases hF : F ≤ hi
      · have hfl := hinv.first_le hF
        have hc : c = hi + 1 := by omega
        have hband := hinv.exit hc hF
        simp only [hF, if_true]
        refine ⟨?_, ?_, ?_, ?_⟩
        · by_cases hlt : child F Lst < best
          · exact Or.inr ⟨F, Lst, hband, if_pos hlt⟩
          · exact Or.inl (if_neg hlt)
        · split <;> omega
        · intro x hx1 hx2 _; omega
        · intro _
          exact Or.inr ⟨Lst, hband, le_refl _, by split <;> omega⟩
      · simp only [hF, if_false]
        refine ⟨Or.inl rfl, le_refl _, ?_, fun h => absurd h hF⟩
        intro x hx1 hx2 _
        left
        omega


/-- The result of the loop of `process_range` in the last row. -/
theorem plast_spec (hi : Nat) (W : Nat → Nat) :
    ∀ n c best, n + c = hi + 1 →
      plast hi W n c best ≤ best ∧
      (plast hi W n c best = best ∨ ∃ x, c ≤ x ∧ x ≤ hi ∧ plast hi W n c best = W x) ∧
      (∀ x, c ≤ x → x ≤ hi → plast hi W n c best ≤ W x) := by
  intro n
  induction n with
  | zero =>
    intro c best hn
    exact ⟨le_refl _, Or.inl rfl, fun x h1 h2 => by omega⟩
  | succ n ih =>
    intro c best hn
    unfold plast
    by_cases hrun : c ≤ hi ∧ best > 0
    · simp only [hrun, and_self, if_true]
      have hb1 : (if W c < best then W c else best) ≤ best ∧
          (if W c < best then W c else best) ≤ W c ∧
          ((if W c < best then W c else best) = best ∨
            (if W c < best then W c else best) = W c) := by
        split <;> omega
      generalize (if W c < best then W c else best) = best1 at hb1 ⊢
      obtain ⟨h1, h2, h3⟩ := ih (c + 1) best1 (by omega)
      refine ⟨by omega, ?_, ?_⟩
      · rcases h2 with h | ⟨x, hx1, hx2, hx3⟩
        · rcases hb1.2.2 with e | e
          · exact Or.inl (h.trans e)
          · exact Or.inr ⟨c, le_refl _, hrun.1, h.trans e⟩
        · exact Or.inr ⟨x, by omega, hx2, hx3⟩
      · intro x hx1 hx2
        by_cases hxc : x = c
        · subst hxc; omega
        · exact h3 x (by omega) hx2
    · rw [if_neg hrun]
      refine ⟨le_refl _, Or.inl rfl, ?_⟩
      intro x hx1 hx2
      have : best = 0 := by omega
      omega

theorem pscan_one (q t : List Nat) (k ai lo hi : Nat) (prev : Nat → Nat) :
    pscan q t k 1 ai lo hi prev
      = plast hi (prow (tolower (q.getD (ai - 1) 0)) t ai lo prev) (hi - lo) (lo + 1)
          UINT_MAX := by
  simp [pscan]

theorem pscan_succ (q t : List Nat) (k la ai lo hi : Nat) (prev : Nat → Nat) :
    pscan q t k (la + 2) ai lo hi prev
      = ploop k (la + 2) hi (prow (tolower (q.getD (ai - 1) 0)) t ai lo prev)
          (fun F Lst => pscan q t k (la + 1) (ai + 1) (F - 1) (min (Lst + (la + 1)) hi)
            (prow (tolower (q.getD (ai - 1) 0)) t ai lo prev))
          (hi - lo) (lo + 1) (hi + 1) (hi + 1) UINT_MAX := by
  simp [pscan]

/-- The scan returns `UINT_MAX` or a value of its last row, which is at most the number
of the bytes of the query. -/
theorem pscan_range (q t : List Nat) (k : Nat) :
    ∀ la ai lo hi prev, 1 ≤ la → lo ≤ hi → (∀ c, lo ≤ c → c ≤ hi → prev c < ai) →
      pscan q t k la ai lo hi prev = UINT_MAX ∨ pscan q t k la ai lo hi prev < ai + la := by
  intro la
  induction la with
  | zero => intro ai lo hi prev h; omega
  | succ la ih =>
    intro ai lo hi prev _ hlo hprev
    have hW := prow_le (tolower (q.getD (ai - 1) 0)) t ai lo hi prev hprev
    cases la with
    | zero =>
      rw [pscan_one]
      obtain ⟨_, h2, _⟩ := plast_spec hi (prow (tolower (q.getD (ai - 1) 0)) t ai lo prev)
        (hi - lo) (lo + 1) UINT_MAX (by omega)
      rcases h2 with h | ⟨x, hx1, hx2, hx3⟩
      · exact Or.inl h
      · right
        rw [hx3]
        have := hW x hx2
        omega
    | succ la =>
      rw [pscan_succ]
      have hr := ploop_spec k (la + 2) lo hi (prow (tolower (q.getD (ai - 1) 0)) t ai lo prev)
        (fun F Lst => pscan q t k (la + 1) (ai + 1) (F - 1) (min (Lst + (la + 1)) hi)
            (prow (tolower (q.getD (ai - 1) 0)) t ai lo prev))
        (hi - lo) (lo + 1) (hi + 1) (hi + 1) UINT_MAX (by omega) (by omega)
        (LoopInv.init _ _ _ _ _ _)
      rcases hr.shape with h | ⟨F1, L1, hb, h⟩
      · exact Or.inl h
      · rw [h]
        have := ih (ai + 1) (F1 - 1) (min (L1 + (la + 1)) hi)
          (prow (tolower (q.getD (ai - 1) 0)) t ai lo prev) (by omega)
          (by have := hb.lo_lt; have := hb.le; have := hb.le_hi; omega)
          (fun c hc1 hc2 => by
            have := hW c (by omega)
            omega)
        simp only at this ⊢
        omega

theorem pscan_le_UINT_MAX (q t : List Nat) (k la ai lo hi : Nat) (prev : Nat → Nat)
    (h1 : 1 ≤ la) (h2 : lo ≤ hi) (h3 : ∀ c, lo ≤ c → c ≤ hi → prev c < ai)
    (h4 : ai + la ≤ 4294967295) : pscan q t k la ai lo hi prev < 4294967296 := by
  rcases pscan_range q t k la ai lo hi prev h1 h2 h3 with h | h
  · rw [h]; decide
  · omega


/-! ## The loop of the source is the loop on fresh rows -/

theorem cells_set_other (m : Mem) (bk : Bool) (j v x : Nat) :
    (m.set bk j v).cells (!bk) x = m.cells (!bk) x := by
  rw [cells_set]
  cases bk <;> simp

theorem cells_set_same (m : Mem) (bk : Bool) (j v : Nat) :
    (m.set bk j v).cells bk j = v := by
  rw [cells_set]; simp

theorem cells_set_ne (m : Mem) (bk : Bool) (j v x : Nat) (h : x ≠ j) :
    (m.set bk j v).cells bk x = m.cells bk x := by
  rw [cells_set]; simp [h]

/-- The loop of `process_range` in the last row. -/
theorem loop_last (L : Nat) (call : range → Mem → Option (Nat × Mem)) (q t : List Nat)
    (k ai lo hi : Nat) (bk : Bool) (prev : Nat → Nat)
    (ht : hi ≤ t.length) (hL : hi ≤ L) (hL2 : L + 2 ≤ 2147483648) (hai : ai ≤ L)
    (hprev : ∀ x, lo ≤ x → x ≤ hi → prev x < ai) :
    ∀ n c best m, n + c = hi + 1 → lo < c →
      m.cells bk (c - 1) = prow (tolower (q.getD (ai - 1) 0)) t ai lo prev (c - 1) →
      (∀ x, c - 1 ≤ x → x ≤ hi → m.cells (!bk) x = prev x) →
      ∃ m1, process_range_loop L call n (c - lo) (mkR q t k 1 ai lo hi bk (hi + 1) (hi + 1))
            best m
          = some (mkR q t k 1 ai lo hi bk (hi + 1) (hi + 1),
              plast hi (prow (tolower (q.getD (ai - 1) 0)) t ai lo prev) n c best, m1) ∧
        Frame lo hi m m1 := by
  intro n
  induction n with
  | zero =>
    intro c best m _ _ _ _
    exact ⟨m, rfl, Frame.refl _ _ _⟩
  | succ n ih =>
    intro c best m hn hlo hw hp
    by_cases hrun : c ≤ hi ∧ best > 0
    · have hcond : c - lo ≤ (mkR q t k 1 ai lo hi bk (hi + 1) (hi + 1)).length_b ∧ best > 0 := by
        refine ⟨?_, hrun.2⟩
        simp only [mkR]; omega
      have hlv := levenshtein_value_mkR L m q t k 1 ai lo hi bk (hi + 1) (hi + 1) c prev hlo
        hrun.1 ht hL hL2 hai (hp (c - 1) (le_refl _) (by omega)) (hp c (by omega) hrun.1) hw
        hprev
      have e2 : lo + (c - lo) = c := by omega
      have hst : m.store L (mkR q t k 1 ai lo hi bk (hi + 1) (hi + 1)).row (c - lo)
          (prow (tolower (q.getD (ai - 1) 0)) t ai lo prev c)
          = some (m.set bk c (prow (tolower (q.getD (ai - 1) 0)) t ai lo prev c)) := by
        rw [store_eq _ _ _ _ (by simp only [mkR]; omega)]
        simp only [mkR, e2]
      have hld : (m.set bk c (prow (tolower (q.getD (ai - 1) 0)) t ai lo prev c)).load L
          (mkR q t k 1 ai lo hi bk (hi + 1) (hi + 1)).row (c - lo)
          = some (prow (tolower (q.getD (ai - 1) 0)) t ai lo prev c) := by
        rw [load_eq _ _ _ (by simp only [mkR]; omega)]
        simp only [mkR, e2, cells_set_same]
      have hlast : is_in_last_row (mkR q t k 1 ai lo hi bk (hi + 1) (hi + 1)) = true := by
        simp [is_in_last_row, mkR]
      have hi1 : uadd (c - lo) 1 = c + 1 - lo := by
        rw [uadd_small (by omega)]; omega
      have hstep : process_range_loop L call (n + 1) (c - lo)
          (mkR q t k 1 ai lo hi bk (hi + 1) (hi + 1)) best m
          = process_range_loop L call n (c + 1 - lo) (mkR q t k 1 ai lo hi bk (hi + 1) (hi + 1))
              (if prow (tolower (q.getD (ai - 1) 0)) t ai lo prev c < best then
                prow (tolower (q.getD (ai - 1) 0)) t ai lo prev c else best)
              (m.set bk c (prow (tolower (q.getD (ai - 1) 0)) t ai lo prev c)) := by
        conv_lhs => unfold process_range_loop
        simp only [hcond, and_self, if_true, hlv, hst, hlast, hld, hi1]
      obtain ⟨m1, h1, h2⟩ := ih (c + 1) _
        (m.set bk c (prow (tolower (q.getD (ai - 1) 0)) t ai lo prev c)) (by omega) (by omega)
        (by simp only [Nat.add_sub_cancel, cells_set_same])
        (fun x hx1 hx2 => by rw [cells_set_other]; exact hp x (by omega) hx2)
      refine ⟨m1, ?_, (Frame.set m bk c _ (by omega) hrun.1).trans h2⟩
      rw [hstep, h1]
      conv_rhs => unfold plast
      simp only [hrun, and_self, if_true]
    · have hcond : ¬ (c - lo ≤ (mkR q t k 1 ai lo hi bk (hi + 1) (hi + 1)).length_b ∧ best > 0) := by
        simp only [mkR]; omega
      refine ⟨m, ?_, Frame.refl _ _ _⟩
      conv_lhs => unfold process_range_loop
      conv_rhs => unfold plast
      simp only [hcond, hrun, if_false]


/-- The call of `process_subrange` on the band `[F, Lst]`. -/
theorem subrange_call (L : Nat) (call : range → Mem → Option (Nat × Mem)) (q t : List Nat)
    (k la ai lo hi : Nat) (bk : Bool) (W : Nat → Nat) (F Lst : Nat) (m : Mem)
    (hcall : CallSpec L q t k (la + 1) call)
    (ht : hi ≤ t.length) (hL : hi ≤ L) (hL2 : L + 2 ≤ 2147483648) (hai1 : 1 ≤ ai)
    (hq : ai + (la + 2) ≤ q.length + 1) (haL : ai + (la + 2) ≤ L + 1)
    (h1 : lo < F) (h2 : F ≤ Lst) (h3 : Lst ≤ hi)
    (hW : ∀ x, F - 1 ≤ x → x ≤ hi → W x ≤ ai)
    (hm : ∀ x, F - 1 ≤ x → x ≤ min (Lst + (la + 1)) hi → m.cells bk x = W x) :
    ∃ m1, process_subrange call (mkR q t k (la + 2) ai lo hi bk F Lst) m
        = some (pscan q t k (la + 1) (ai + 1) (F - 1) (min (Lst + (la + 1)) hi) W, m1) ∧
      Frame (F - 1) (min (Lst + (la + 1)) hi) m m1 := by
  rw [process_subrange_mkR call m q t k (la + 1) ai lo hi bk F Lst h1 h2 h3 (by omega)
    (by omega) hai1]
  obtain ⟨m1, hc, hf⟩ := hcall (ai + 1) (F - 1) (min (Lst + (la + 1)) hi) (!bk) W m
    (by omega) (by omega) (by omega) (by omega) (by omega) (by omega)
    (fun c hc1 hc2 => by rw [Bool.not_not]; exact hm c hc1 hc2)
    (fun c hc1 hc2 => by have := hW c hc1 (by omega); omega)
  refine ⟨m1, ?_, hf⟩
  rw [hc]
  have hlt := pscan_le_UINT_MAX q t k (la + 1) (ai + 1) (F - 1) (min (Lst + (la + 1)) hi) W
    (by omega) (by omega) (fun c hc1 hc2 => by have := hW c hc1 (by omega); omega) (by omega)
  simp only [of_int_to_int hlt]

/-- What `process_range` does after its loop, above the last row. -/
theorem after_loop_band (L : Nat) (call : range → Mem → Option (Nat × Mem)) (q t : List Nat)
    (k la ai lo hi : Nat) (bk : Bool) (prev : Nat → Nat)
    (hcall : CallSpec L q t k (la + 1) call)
    (ht : hi ≤ t.length) (hL : hi ≤ L) (hL2 : L + 2 ≤ 2147483648) (hai1 : 1 ≤ ai)
    (hq : ai + (la + 2) ≤ q.length + 1) (haL : ai + (la + 2) ≤ L + 1) (hlohi : lo ≤ hi)
    (hprev : ∀ x, lo ≤ x → x ≤ hi → prev x < ai)
    (c F Lst best : Nat) (m : Mem) (hc : c ≤ hi + 1)
    (hinv : LoopInv k (la + 2) lo hi (prow (tolower (q.getD (ai - 1) 0)) t ai lo prev) c F Lst
      best)
    (hstop : ¬ (c ≤ hi ∧ best > 0))
    (hm : F ≤ hi → ∀ x, F - 1 ≤ x → x < c →
      m.cells bk x = prow (tolower (q.getD (ai - 1) 0)) t ai lo prev x) :
    ∃ m1, after_loop call (mkR q t k (la + 2) ai lo hi bk F Lst, best, m)
        = some (if F ≤ hi then
              (if pscan q t k (la + 1) (ai + 1) (F - 1) (min (Lst + (la + 1)) hi)
                    (prow (tolower (q.getD (ai - 1) 0)) t ai lo prev) < best then
                  pscan q t k (la + 1) (ai + 1) (F - 1) (min (Lst + (la + 1)) hi)
                    (prow (tolower (q.getD (ai - 1) 0)) t ai lo prev)
                else best)
            else best, m1) ∧
      Frame lo hi m m1 := by
  unfold after_loop
  simp only
  rw [has_subrange_mkR _ _ _ _ _ _ _ _ _ _ hlohi (by have := hinv.lo_le hlohi; omega)]
  by_cases hF : F ≤ hi
  · have hfl := hinv.first_le hF
    have hc1 : c = hi + 1 := by omega
    obtain ⟨m1, hs, hf⟩ := subrange_call L call q t k la ai lo hi bk
      (prow (tolower (q.getD (ai - 1) 0)) t ai lo prev) F Lst m hcall ht hL hL2 hai1 hq haL
      hfl.1 hfl.2.1 (by omega)
      (fun x _ hx2 => prow_le _ t ai lo hi prev hprev x hx2)
      (fun x hx1 hx2 => hm hF x hx1 (by omega))
    refine ⟨m1, ?_, hf.mono (by omega) (by omega)⟩
    simp only [hF, decide_True, if_true, hs]
  · exact ⟨m, by simp only [hF, decide_False, if_false, Bool.false_eq_true], Frame.refl _ _ _⟩


/-- The loop of `process_range` above the last row, with the call after the loop. -/
theorem loop_band (L : Nat) (call : range → Mem → Option (Nat × Mem)) (q t : List Nat)
    (k la ai lo hi : Nat) (bk : Bool) (prev : Nat → Nat)
    (hcall : CallSpec L q t k (la + 1) call)
    (ht : hi ≤ t.length) (hL : hi ≤ L) (hL2 : L + 2 ≤ 2147483648) (hai1 : 1 ≤ ai)
    (hq : ai + (la + 2) ≤ q.length + 1) (haL : ai + (la + 2) ≤ L + 1) (hlohi : lo ≤ hi)
    (hprev : ∀ x, lo ≤ x → x ≤ hi → prev x < ai) :
    ∀ n c F Lst best m, n + c = hi + 1 → lo < c →
      LoopInv k (la + 2) lo hi (prow (tolower (q.getD (ai - 1) 0)) t ai lo prev) c F Lst best →
      m.cells bk (c - 1) = prow (tolower (q.getD (ai - 1) 0)) t ai lo prev (c - 1) →
      (∀ x, c - 1 ≤ x → x ≤ hi → m.cells (!bk) x = prev x) →
      (F ≤ hi → ∀ x, F - 1 ≤ x → x < c →
        m.cells bk x = prow (tolower (q.getD (ai - 1) 0)) t ai lo prev x) →
      ∃ st m1, process_range_loop L call n (c - lo) (mkR q t k (la + 2) ai lo hi bk F Lst)
            best m = some st ∧
        after_loop call st
          = some (ploop k (la + 2) hi (prow (tolower (q.getD (ai - 1) 0)) t ai lo prev)
              (fun F Lst => pscan q t k (la + 1) (ai + 1) (F - 1) (min (Lst + (la + 1)) hi)
                (prow (tolower (q.getD (ai - 1) 0)) t ai lo prev)) n c F Lst best, m1) ∧
        Frame lo hi m m1 := by
  intro n
  induction n with
  | zero =>
    intro c F Lst best m hn hlo hinv hw hp hm
    obtain ⟨m1, h1, h2⟩ := after_loop_band L call q t k la ai lo hi bk prev hcall ht hL hL2
      hai1 hq haL hlohi hprev c F Lst best m (by omega) hinv (by omega) hm
    refine ⟨_, m1, rfl, ?_, h2⟩
    rw [h1, ploop_stop _ _ _ _ _ _ _ _ _ _ (Or.inl rfl)]
  | succ n ih =>
    intro c F Lst best m hn hlo hinv hw hp hm
    by_cases hrun : c ≤ hi ∧ best > 0
    · have hcond : c - lo ≤ (mkR q t k (la + 2) ai lo hi bk F Lst).length_b ∧ best > 0 := by
        refine ⟨?_, hrun.2⟩
        simp only [mkR]; omega
      have hlv := levenshtein_value_mkR L m q t k (la + 2) ai lo hi bk F Lst c prev hlo
        hrun.1 ht hL hL2 (by omega) (hp (c - 1) (le_refl _) (by omega))
        (hp c (by omega) hrun.1) hw hprev
      have e2 : lo + (c - lo) = c := by omega
      have hst : m.store L (mkR q t k (la + 2) ai lo hi bk F Lst).row (c - lo)
          (prow (tolower (q.getD (ai - 1) 0)) t ai lo prev c)
          = some (m.set bk c (prow (tolower (q.getD (ai - 1) 0)) t ai lo prev c)) := by
        rw [store_eq _ _ _ _ (by simp only [mkR]; omega)]
        simp only [mkR, e2]
      have hlast : is_in_last_row (mkR q t k (la + 2) ai lo hi bk F Lst) = false := by
        simp [is_in_last_row, mkR]
      have hi1 : uadd (c - lo) 1 = c + 1 - lo := by
        rw [uadd_small (by omega)]; omega
      have hlo2 := hinv.lo_le hlohi
      have hll := hinv.last_le (by omega : c ≤ hi + 1)
      generalize hWdef : prow (tolower (q.getD (ai - 1) 0)) t ai lo prev = W at *
      have hup := update_subrange_mkR L (m.set bk c (W c)) q t k (la + 2) ai lo hi bk F Lst c
        (W c) hlo hrun.1 hL (by omega) (cells_set_same _ _ _ _)
      have hL1 : lo ≤ (if W c ≤ k then c else Lst) := by split <;> omega
      have hL1b : (if W c ≤ k then c else Lst) + (la + 2) < 4294967296 := by split <;> omega
      have hbe := is_beyond_subrange_mkR q t k (la + 2) ai lo hi bk
        (if W c ≤ k then (if F ≤ hi then F else c) else F) (if W c ≤ k then c else Lst) c
        hL1 hlo hL1b
      have hWle : ∀ x, x ≤ hi → W x ≤ ai := by
        intro x hx
        rw [← hWdef]
        exact prow_le _ t ai lo hi prev hprev x hx
      by_cases hcl : c > (if W c ≤ k then c else Lst) + (la + 2)
      · obtain ⟨hband, hwc, hF, _⟩ := hinv.step_close hlo hrun.1 hcl 0
        simp only [hwc, if_false] at hband hcl hup hbe
        obtain ⟨m2, hs, hf⟩ := subrange_call L call q t k la ai lo hi bk W F Lst
          (m.set bk c (W c)) hcall ht hL hL2 hai1 hq haL hband.lo_lt hband.le hband.le_hi
          (fun x _ hx2 => hWle x hx2)
          (fun x hx1 hx2 => by
            rw [cells_set_ne _ _ _ _ _ (by omega)]
            exact hm hF x hx1 (by omega))
        obtain ⟨best1, hb1⟩ : ∃ b,
            (if pscan q t k (la + 1) (ai + 1) (F - 1) (min (Lst + (la + 1)) hi) W < best
            then pscan q t k (la + 1) (ai + 1) (F - 1) (min (Lst + (la + 1)) hi) W else best)
            = b := ⟨_, rfl⟩
        have hcl1 : c > (if W c ≤ k then c else Lst) + (la + 2) := by
          simp only [hwc, if_false]; exact hcl
        obtain ⟨_, _, _, hinv1⟩ := hinv.step_close hlo hrun.1 hcl1 best1
        have hstep : process_range_loop L call (n + 1) (c - lo)
            (mkR q t k (la + 2) ai lo hi bk F Lst) best m
            = process_range_loop L call n (c + 1 - lo)
                (mkR q t k (la + 2) ai lo hi bk (hi + 1) (hi + 1)) best1 m2 := by
          conv_lhs => unfold process_range_loop
          simp only [hcond, and_self, if_true, hlv, hst, hlast, hup, hbe, hcl, decide_True, hs,
            hi1, Bool.false_eq_true, if_false]
          rw [setup_no_subrange_mkR _ _ _ _ _ _ _ _ _ _ hlohi (by omega), hb1]
        obtain ⟨st, m3, h1, h2, h3⟩ := ih (c + 1) (hi + 1) (hi + 1) best1 m2 (by omega)
          (by omega) hinv1
          (by
            rw [Nat.add_sub_cancel, hf bk c (Or.inr (by omega)), cells_set_same])
          (fun x hx1 hx2 => by
            rw [hf (!bk) x (Or.inr (by omega)), cells_set_other]
            exact hp x (by omega) hx2)
          (fun h => by omega)
        refine ⟨st, m3, ?_, ?_, ?_⟩
        · rw [hstep, h1]
        · rw [h2, ploop_run _ _ _ _ _ _ _ _ _ _ hrun]
          simp only [hwc, if_false, hcl, if_true, hb1]
        · exact ((Frame.set m bk c _ (by omega) hrun.1).trans
            (hf.mono (by omega) (by omega))).trans h3
      · have hinv1 := hinv.step_open hlo hrun.1 hrun.2 hcl
        have hstep : process_range_loop L call (n + 1) (c - lo)
            (mkR q t k (la + 2) ai lo hi bk F Lst) best m
            = process_range_loop L call n (c + 1 - lo)
                (mkR q t k (la + 2) ai lo hi bk
                  (if W c ≤ k then (if F ≤ hi then F else c) else F)
                  (if W c ≤ k then c else Lst)) best (m.set bk c (W c)) := by
          conv_lhs => unfold process_range_loop
          simp only [hcond, and_self, if_true, hlv, hst, hlast, hup, hbe, hcl, decide_False,
            hi1, Bool.false_eq_true, if_false]
        obtain ⟨st, m3, h1, h2, h3⟩ := ih (c + 1) _ _ best (m.set bk c (W c)) (by omega)
          (by omega) hinv1
          (by rw [Nat.add_sub_cancel, cells_set_same])
          (fun x hx1 hx2 => by
            rw [cells_set_other]
            exact hp x (by omega) hx2)
          (fun hF1 x hx1 hx2 => by
            by_cases hxc : x = c
            · subst hxc; rw [cells_set_same]
            · rw [cells_set_ne _ _ _ _ _ hxc]
              by_cases hF : F ≤ hi
              · have e1 : (if W c ≤ k then (if F ≤ hi then F else c) else F) = F := by
                  split
                  · simp only [hF, if_true]
                  · rfl
                rw [e1] at hx1
                exact hm hF x hx1 (by omega)
              · have e1 : (if W c ≤ k then (if F ≤ hi then F else c) else F) = c := by
                  split
                  · simp only [hF, if_false]
                  · rename_i hwk
                    simp only [hwk, if_false] at hF1
                    omega
                rw [e1] at hx1
                have : x = c - 1 := by omega
                rw [this]
                exact hw)
        refine ⟨st, m3, ?_, ?_, ?_⟩
        · rw [hstep, h1]
        · rw [h2, ploop_run _ _ _ _ _ _ _ _ _ _ hrun]
          simp only [hcl, if_false]
        · exact (Frame.set m bk c _ (by omega) hrun.1).trans h3
    · have hcond : ¬ (c - lo ≤ (mkR q t k (la + 2) ai lo hi bk F Lst).length_b ∧ best > 0) := by
        simp only [mkR]; omega
      obtain ⟨m1, h1, h2⟩ := after_loop_band L call q t k la ai lo hi bk prev hcall ht hL hL2
        hai1 hq haL hlohi hprev c F Lst best m (by omega) hinv hrun hm
      refine ⟨(mkR q t k (la + 2) ai lo hi bk F Lst, best, m), m1, ?_, ?_, h2⟩
      · conv_lhs => unfold process_range_loop
        simp only [hcond, if_false]
      · rw [h1, ploop_stop _ _ _ _ _ _ _ _ _ _ (Or.inr hrun)]


theorem process_range_succ (L fuel : Nat) (r : range) (m : Mem) :
    process_range L (fuel + 1) r m
      = match m.store L r.row 0 (of_int r.a_index) with
        | none => none
        | some m1 =>
          match process_range_loop L (process_range L fuel) r.length_b 1 r UINT_MAX m1 with
          | none => none
          | some st => after_loop (process_range L fuel) st := by
  conv_lhs => unfold process_range
  rcases m.store L r.row 0 (of_int r.a_index) with _ | m1
  · rfl
  · simp only
    rcases process_range_loop L (process_range L fuel) r.length_b 1 r UINT_MAX m1
      with _ | ⟨r1, best, m2⟩
    · rfl
    · simp only [after_loop]

/-- The function `process_range` of the source returns what the scan on fresh rows
returns, and writes inside its window only. -/
theorem process_range_spec (L : Nat) (q t : List Nat) (k : Nat) (hL2 : L + 2 ≤ 2147483648) :
    ∀ fuel la, 1 ≤ la → la ≤ fuel → CallSpec L q t k la (process_range L fuel) := by
  intro fuel
  induction fuel with
  | zero => intro la h1 h2; omega
  | succ fuel ih =>
    intro la hla1 hla2 ai lo hi bk prev m hlohi hL ht hai hq haL hmem hprev
    rw [process_range_succ]
    have hst : m.store L (mkR q t k la ai lo hi bk (hi + 1) (hi + 1)).row 0
        (of_int (mkR q t k la ai lo hi bk (hi + 1) (hi + 1)).a_index)
        = some (m.set bk lo ai) := by
      rw [store_eq _ _ _ _ (by simp only [mkR]; omega)]
      simp only [mkR, Nat.add_zero]
      rw [of_int_natCast (by omega)]
    simp only [hst]
    have hlen : (mkR q t k la ai lo hi bk (hi + 1) (hi + 1)).length_b = hi - lo := rfl
    have h1 : lo + 1 - lo = 1 := by omega
    rw [hlen]
    have hw0 : (m.set bk lo ai).cells bk (lo + 1 - 1)
        = prow (tolower (q.getD (ai - 1) 0)) t ai lo prev (lo + 1 - 1) := by
      rw [Nat.add_sub_cancel, cells_set_same, prow_of_le _ _ _ _ _ (le_refl _)]
    have hp0 : ∀ x, lo + 1 - 1 ≤ x → x ≤ hi → (m.set bk lo ai).cells (!bk) x = prev x := by
      intro x hx1 hx2
      rw [cells_set_other]
      exact hmem x (by omega) hx2
    have hfs : Frame lo hi m (m.set bk lo ai) := Frame.set m bk lo ai (le_refl _) (by omega)
    rcases Nat.lt_or_ge la 2 with hlt | hge
    · have hla : la = 1 := by omega
      subst hla
      obtain ⟨m1, hl, hf⟩ := loop_last L (process_range L fuel) q t k ai lo hi bk prev ht hL
        hL2 (by omega) hprev (hi - lo) (lo + 1) UINT_MAX (m.set bk lo ai) (by omega)
        (by omega) hw0 hp0
      refine ⟨m1, ?_, hfs.trans hf⟩
      rw [h1] at hl
      rw [hl]
      simp only [after_loop]
      rw [has_subrange_mkR _ _ _ _ _ _ _ _ _ _ (by omega) (by omega), pscan_one]
      simp
    · obtain ⟨la1, hla⟩ : ∃ la1, la = la1 + 2 := ⟨la - 2, by omega⟩
      subst hla
      obtain ⟨st, m1, hl, ha, hf⟩ := loop_band L (process_range L fuel) q t k la1 ai lo hi bk
        prev (ih (la1 + 1) (by omega) (by omega)) ht hL hL2 hai hq haL (by omega) hprev
        (hi - lo) (lo + 1) (hi + 1) (hi + 1) UINT_MAX (m.set bk lo ai) (by omega) (by omega)
        (LoopInv.init _ _ _ _ _ _) hw0 hp0 (fun h => by omega)
      refine ⟨m1, ?_, hfs.trans hf⟩
      rw [h1] at hl
      rw [hl]
      simp only [ha, pscan_succ]


theorem setup_initial_range_eq (L : Nat) (q : List Nat) (la : Nat) (t : List Nat)
    (lb k : Nat) (m : Mem) (hq : 1 ≤ q.length) (hlb : lb ≤ L) (hL2 : L + 2 ≤ 2147483648) :
    ∃ m1, setup_initial_range L q la t lb k m
        = some (mkR q t k la 1 0 lb false (lb + 1) (lb + 1), m1) ∧
      ∀ c, c ≤ lb → m1.cells (!false) c = 0 := by
  unfold setup_initial_range
  have h0 : q[0]? = some (q.getD 0 0) := by
    rw [List.getD_eq_getElem?_getD, List.getElem?_eq_getElem (by omega)]
    rfl
  have hz : (0 : Nat) + (lb + 2) ≤ L + 2 := by omega
  simp only [h0, Mem.zero, hz, if_true]
  refine ⟨Mem.mk m.storage0 (fun x => if 0 ≤ x ∧ x < 0 + (lb + 2) then 0 else m.storage1 x),
    ?_, ?_⟩
  · simp only [setup_no_subrange, mkR, uadd_small (by omega : lb + 1 < 4294967296),
      List.drop_zero, Nat.sub_zero, Bool.not_false, Nat.sub_self]
  · intro c hc
    have : 0 ≤ c ∧ c < 0 + (lb + 2) := by omega
    simp only [Mem.cells, Bool.not_false, if_true, this, and_self]

/-- The entry point of the source returns what the entry point on fresh rows returns:
it does not run out of fuel, and every index it uses is in bounds. -/
theorem match_eq_pmatch (L fuel : Nat) (m : Mem) (q : List Nat) (n : Nat) (t : List Nat)
    (lb k : Nat) (hL2 : L + 2 ≤ 2147483648) (hq : min n L ≤ q.length)
    (ht : min lb L ≤ t.length) (hfuel : min n L ≤ fuel) :
    levenshtein_substring_match L fuel m q n t lb k = some (pmatch L q n t lb k) := by
  unfold levenshtein_substring_match pmatch
  have e1 : (if n > L then L else n) = min n L := by split <;> omega
  have e2 : (if lb > L then L else lb) = min lb L := by split <;> omega
  simp only [e1, e2]
  by_cases h1 : min n L = 0
  · simp only [h1, if_true]
    split <;> rfl
  · simp only [h1, if_false]
    by_cases h2 : min lb L = 0
    · simp only [h2, if_true]
    · simp only [h2, if_false]
      by_cases h3 : min n L > uadd (min lb L) k
      · simp only [h3, if_true]
      · simp only [h3, if_false]
        obtain ⟨m1, hs, hm1⟩ := setup_initial_range_eq L q (min n L) t (min lb L) k m (by omega)
          (by omega) hL2
        obtain ⟨m2, hp, _⟩ := process_range_spec L q t k hL2 fuel (min n L) (by omega) hfuel 1 0
          (min lb L) false (fun _ => 0) m1 (by omega) (by omega) ht (le_refl _) (by omega)
          (by omega) (fun c _ hc => hm1 c hc) (fun c _ _ => Nat.zero_lt_one)
        simp only [hs, hp]


/-! ## The edit distance -/

theorem lev_nil_left (ys : List Nat) : lev [] ys = ys.length := by
  cases ys <;> rfl

theorem lev_nil_right (xs : List Nat) : lev xs [] = xs.length := by
  cases xs <;> rfl

theorem lev_cons_cons (x y : Nat) (xs ys : List Nat) :
    lev (x :: xs) (y :: ys)
      = min (min (lev xs (y :: ys) + 1) (lev (x :: xs) ys + 1)) (lev xs ys + subst_cost x y) := by
  rfl

theorem subst_cost_le (x y : Nat) : subst_cost x y ≤ 1 := by
  unfold subst_cost; split <;> omega

theorem lev_del_le (x : Nat) (xs ys : List Nat) : lev (x :: xs) ys ≤ lev xs ys + 1 := by
  cases ys with
  | nil => rw [lev_nil_right, lev_nil_right]; simp
  | cons y ys => rw [lev_cons_cons]; omega

theorem lev_ins_le (y : Nat) (xs ys : List Nat) : lev xs (y :: ys) ≤ lev xs ys + 1 := by
  cases xs with
  | nil => rw [lev_nil_left, lev_nil_left]; simp
  | cons x xs => rw [lev_cons_cons]; omega

theorem lev_sub_le (x y : Nat) (xs ys : List Nat) :
    lev (x :: xs) (y :: ys) ≤ lev xs ys + subst_cost x y := by
  rw [lev_cons_cons]; omega

/-- No edit script is cheaper than the distance. -/
theorem lev_le_of_align {xs ys : List Nat} {n : Nat} (h : Align xs ys n) : lev xs ys ≤ n := by
  induction h with
  | nil => simp [lev]
  | del x _ ih => exact le_trans (lev_del_le x _ _) (by omega)
  | ins y _ ih => exact le_trans (lev_ins_le y _ _) (by omega)
  | sub x y _ ih => exact le_trans (lev_sub_le x y _ _) (by omega)

theorem align_nil_left (ys : List Nat) : Align [] ys ys.length := by
  induction ys with
  | nil => exact Align.nil
  | cons y ys ih => exact Align.ins y ih

theorem align_nil_right (xs : List Nat) : Align xs [] xs.length := by
  induction xs with
  | nil => exact Align.nil
  | cons x xs ih => exact Align.del x ih

/-- The distance is the cost of an edit script. -/
theorem align_lev (xs ys : List Nat) : Align xs ys (lev xs ys) := by
  induction xs generalizing ys with
  | nil => rw [lev_nil_left]; exact align_nil_left ys
  | cons x xs ihx =>
    induction ys with
    | nil => rw [lev_nil_right]; exact align_nil_right _
    | cons y ys ihy =>
      rw [lev_cons_cons]
      have h1 := Align.del x (ihx (y :: ys))
      have h2 := Align.ins y ihy
      have h3 := Align.sub x y (ihx ys)
      rcases Nat.le_total (lev xs (y :: ys) + 1) (lev (x :: xs) ys + 1) with h | h
      · rcases Nat.le_total (lev xs (y :: ys) + 1) (lev xs ys + subst_cost x y) with h' | h'
        · rw [Nat.min_eq_left h, Nat.min_eq_left h']; exact h1
        · rw [Nat.min_eq_left h, Nat.min_eq_right h']; exact h3
      · rcases Nat.le_total (lev (x :: xs) ys + 1) (lev xs ys + subst_cost x y) with h' | h'
        · rw [Nat.min_eq_right h, Nat.min_eq_left h']; exact h2
        · rw [Nat.min_eq_right h, Nat.min_eq_right h']; exact h3

theorem Align.snoc_del (x : Nat) {xs ys : List Nat} {n : Nat} (h : Align xs ys n) :
    Align (xs ++ [x]) ys (n + 1) := by
  induction h with
  | nil => exact Align.del x Align.nil
  | del x1 _ ih => exact Align.del x1 ih
  | ins y1 _ ih => exact Align.ins y1 ih
  | @sub x1 y1 xs1 ys1 n1 _ ih =>
    have := Align.sub x1 y1 ih
    have e : n1 + subst_cost x1 y1 + 1 = n1 + 1 + subst_cost x1 y1 := by omega
    rw [e]; exact this

theorem Align.snoc_ins (y : Nat) {xs ys : List Nat} {n : Nat} (h : Align xs ys n) :
    Align xs (ys ++ [y]) (n + 1) := by
  induction h with
  | nil => exact Align.ins y Align.nil
  | del x1 _ ih => exact Align.del x1 ih
  | ins y1 _ ih => exact Align.ins y1 ih
  | @sub x1 y1 xs1 ys1 n1 _ ih =>
    have := Align.sub x1 y1 ih
    have e : n1 + subst_cost x1 y1 + 1 = n1 + 1 + subst_cost x1 y1 := by omega
    rw [e]; exact this

theorem Align.snoc_sub (x y : Nat) {xs ys : List Nat} {n : Nat} (h : Align xs ys n) :
    Align (xs ++ [x]) (ys ++ [y]) (n + subst_cost x y) := by
  induction h with
  | nil =>
    have := Align.sub x y Align.nil
    exact this
  | @del x1 xs1 ys1 n1 _ ih =>
    have := Align.del x1 ih
    have e : n1 + 1 + subst_cost x y = n1 + subst_cost x y + 1 := by omega
    rw [e]; exact this
  | @ins y1 xs1 ys1 n1 _ ih =>
    have := Align.ins y1 ih
    have e : n1 + 1 + subst_cost x y = n1 + subst_cost x y + 1 := by omega
    rw [e]; exact this
  | @sub x1 y1 xs1 ys1 n1 _ ih =>
    have := Align.sub x1 y1 ih
    have e : n1 + subst_cost x1 y1 + subst_cost x y = n1 + subst_cost x y + subst_cost x1 y1 := by
      omega
    rw [e]; exact this

theorem Align.reverse {xs ys : List Nat} {n : Nat} (h : Align xs ys n) :
    Align xs.reverse ys.reverse n := by
  induction h with
  | nil => exact Align.nil
  | del x _ ih => rw [List.reverse_cons]; exact ih.snoc_del x
  | ins y _ ih => rw [List.reverse_cons]; exact ih.snoc_ins y
  | sub x y _ ih => rw [List.reverse_cons, List.reverse_cons]; exact ih.snoc_sub x y

theorem lev_reverse (xs ys : List Nat) : lev xs.reverse ys.reverse = lev xs ys := by
  apply Nat.le_antisymm
  · exact lev_le_of_align (align_lev xs ys).reverse
  · have := lev_le_of_align (align_lev xs.reverse ys.reverse).reverse
    rwa [List.reverse_reverse, List.reverse_reverse] at this

/-- The recurrence of the distance on the last bytes of the two strings. -/
theorem lev_snoc (x y : Nat) (xs ys : List Nat) :
    lev (xs ++ [x]) (ys ++ [y])
      = min (min (lev xs (ys ++ [y]) + 1) (lev (xs ++ [x]) ys + 1))
          (lev xs ys + subst_cost x y) := by
  rw [← lev_reverse (xs ++ [x]) (ys ++ [y]), ← lev_reverse xs (ys ++ [y]),
    ← lev_reverse (xs ++ [x]) ys, ← lev_reverse xs ys]
  simp only [List.reverse_append, List.reverse_cons, List.reverse_nil, List.nil_append,
    List.singleton_append]
  rw [lev_cons_cons]

theorem lev_snoc_del_le (x : Nat) (xs ys : List Nat) : lev (xs ++ [x]) ys ≤ lev xs ys + 1 :=
  lev_le_of_align ((align_lev xs ys).snoc_del x)

theorem lev_snoc_ins_le (y : Nat) (xs ys : List Nat) : lev xs (ys ++ [y]) ≤ lev xs ys + 1 :=
  lev_le_of_align ((align_lev xs ys).snoc_ins y)

theorem lev_snoc_sub_le (x y : Nat) (xs ys : List Nat) :
    lev (xs ++ [x]) (ys ++ [y]) ≤ lev xs ys + subst_cost x y :=
  lev_le_of_align ((align_lev xs ys).snoc_sub x y)

theorem Align.length_le {xs ys : List Nat} {n : Nat} (h : Align xs ys n) :
    xs.length ≤ n + ys.length := by
  induction h with
  | nil => simp
  | del x _ ih => simp only [List.length_cons]; omega
  | ins y _ ih => simp only [List.length_cons]; omega
  | sub x y _ ih => simp only [List.length_cons]; omega

/-- The distance is at least the difference of the lengths. -/
theorem length_le_lev_add (xs ys : List Nat) : xs.length ≤ lev xs ys + ys.length :=
  (align_lev xs ys).length_le

theorem Align.le_length {xs ys : List Nat} {n : Nat} (h : Align xs ys n) :
    ys.length ≤ n + xs.length := by
  induction h with
  | nil => simp
  | del x _ ih => simp only [List.length_cons]; omega
  | ins y _ ih => simp only [List.length_cons]; omega
  | sub x y _ ih => simp only [List.length_cons]; omega

/-- The distance `lev` is the Levenshtein distance of the library for the unit costs. -/
theorem lev_eq_levenshtein (xs ys : List Nat) : lev xs ys = levenshtein unit_cost xs ys := by
  induction xs generalizing ys with
  | nil =>
    rw [lev_nil_left]
    induction ys with
    | nil => simp
    | cons y ys ih =>
      rw [levenshtein_nil_cons, ← ih]
      simp only [unit_cost, List.length_cons]
      omega
  | cons x xs ihx =>
    induction ys with
    | nil =>
      rw [lev_nil_right, levenshtein_cons_nil, ← ihx [], lev_nil_right]
      simp only [unit_cost, List.length_cons]
      omega
    | cons y ys ihy =>
      rw [lev_cons_cons, levenshtein_cons_cons, ← ihx (y :: ys), ← ihy, ← ihx ys]
      simp only [unit_cost]
      omega


/-! ## The distance to the nearest substring -/

theorem least_le (d : Nat) (l : List Nat) : least d l ≤ d := by
  induction l with
  | nil => exact le_refl _
  | cons x xs ih => simp only [least]; omega

theorem least_le_of_mem (d : Nat) (l : List Nat) {x : Nat} (h : x ∈ l) : least d l ≤ x := by
  induction l with
  | nil => cases h
  | cons y ys ih =>
    simp only [least]
    rcases List.mem_cons.mp h with h1 | h1
    · omega
    · have := ih h1; omega

theorem least_mem (d : Nat) (l : List Nat) : least d l = d ∨ least d l ∈ l := by
  induction l with
  | nil => exact Or.inl rfl
  | cons y ys ih =>
    simp only [least]
    rcases Nat.le_total y (least d ys) with h | h
    · rw [Nat.min_eq_left h]; exact Or.inr (List.mem_cons_self _ _)
    · rw [Nat.min_eq_right h]
      rcases ih with h1 | h1
      · exact Or.inl h1
      · exact Or.inr (List.mem_cons_of_mem _ h1)

theorem mem_substrings (u t : List Nat) : u ∈ substrings t ↔ u <:+: t := by
  unfold substrings
  rw [List.mem_flatMap, List.infix_iff_prefix_suffix]
  constructor
  · rintro ⟨v, hv, hu⟩
    exact ⟨v, (List.mem_inits _ _).mp hu, (List.mem_tails _ _).mp hv⟩
  · rintro ⟨v, hu, hv⟩
    exact ⟨v, (List.mem_tails _ _).mpr hv, (List.mem_inits _ _).mpr hu⟩

/-- The distance to the nearest substring is a lower bound of the distance to every
contiguous substring. -/
theorem dstar_le_lev (q t u : List Nat) (h : u <:+: t) : dstar q t ≤ lev q u := by
  unfold dstar
  apply least_le_of_mem
  exact List.mem_map.mpr ⟨u, (mem_substrings u t).mpr h, rfl⟩

/-- The distance to the nearest substring is the distance to a contiguous substring. -/
theorem dstar_attained (q t : List Nat) : ∃ u, u <:+: t ∧ dstar q t = lev q u := by
  unfold dstar
  rcases least_mem (lev q []) ((substrings t).map (lev q)) with h | h
  · exact ⟨[], List.nil_infix, h⟩
  · obtain ⟨u, hu, he⟩ := List.mem_map.mp h
    exact ⟨u, (mem_substrings u t).mp hu, he.symm⟩

theorem dstar_le_length (q t : List Nat) : dstar q t ≤ q.length := by
  have := dstar_le_lev q t [] List.nil_infix
  rwa [lev_nil_right] at this

theorem infix_of_take_drop (t : List Nat) (s c : Nat) : (t.take c).drop s <:+: t :=
  (List.drop_suffix s _).isInfix.trans (List.take_prefix c t).isInfix

theorem infix_eq_take_drop {u t : List Nat} (h : u <:+: t) :
    ∃ s c, s ≤ c ∧ c ≤ t.length ∧ u = (t.take c).drop s := by
  obtain ⟨pre, suf, rfl⟩ := h
  refine ⟨pre.length, pre.length + u.length, by omega, by simp, ?_⟩
  have : (pre ++ u ++ suf).take (pre.length + u.length) = pre ++ u := by
    rw [List.take_append_of_le_length (by simp)]
    rw [List.take_of_length_le (by simp)]
  rw [this, List.drop_left]

theorem take_succ_getD (l : List Nat) {i : Nat} (h : i < l.length) :
    l.take (i + 1) = l.take i ++ [l.getD i 0] := by
  rw [List.take_succ, List.getD_eq_getElem?_getD, List.getElem?_eq_getElem h]
  rfl

theorem take_succ_drop (t : List Nat) {s c : Nat} (hs : s ≤ c) (hc : c < t.length) :
    (t.take (c + 1)).drop s = (t.take c).drop s ++ [t.getD c 0] := by
  rw [take_succ_getD t hc, List.drop_append_of_le_length (by simp; omega)]

/-! ## The matrix of the distances -/

theorem Dtab_zero (q t : List Nat) (c : Nat) : Dtab q t 0 c = 0 := rfl

theorem Dtab_col_zero (q t : List Nat) (i : Nat) : Dtab q t i 0 = i := by
  cases i <;> rfl

theorem Dtab_succ (q t : List Nat) (i c : Nat) :
    Dtab q t (i + 1) (c + 1)
      = min (min (Dtab q t i (c + 1) + 1) (Dtab q t (i + 1) c + 1))
          (Dtab q t i c + subst_cost (q.getD i 0) (t.getD c 0)) := by
  rfl

theorem Dtab_le_row (q t : List Nat) (i c : Nat) : Dtab q t i c ≤ i := by
  induction i generalizing c with
  | zero => rw [Dtab_zero]
  | succ i ih =>
    cases c with
    | zero => rw [Dtab_col_zero]
    | succ c => rw [Dtab_succ]; have := ih (c + 1); omega

/-- A cell of the matrix is a lower bound of the distance of the prefix of the query to
every substring of the text that ends at its column. -/
theorem Dtab_le_lev (q t : List Nat) :
    ∀ i c s, i ≤ q.length → c ≤ t.length → s ≤ c →
      Dtab q t i c ≤ lev (q.take i) ((t.take c).drop s) := by
  intro i
  induction i with
  | zero => intro c s _ _ _; rw [Dtab_zero]; exact Nat.zero_le _
  | succ i ihi =>
    intro c
    induction c with
    | zero =>
      intro s hi _ hs
      have : s = 0 := by omega
      subst this
      rw [Dtab_col_zero]
      simp only [List.take_zero, List.drop_nil, lev_nil_right, List.length_take]
      omega
    | succ c ihc =>
      intro s hi hc hs
      rcases Nat.lt_or_ge c s with h | h
      · have e : s = c + 1 := by omega
        subst e
        have : (t.take (c + 1)).drop (c + 1) = [] := by
          apply List.drop_eq_nil_of_le
          simp
        rw [this, lev_nil_right, List.length_take]
        have := Dtab_le_row q t (i + 1) (c + 1)
        omega
      · rw [take_succ_drop t h (by omega), take_succ_getD q (by omega : i < q.length), lev_snoc,
          Dtab_succ]
        have h1 := ihi (c + 1) s (by omega) hc hs
        rw [take_succ_drop t h (by omega)] at h1
        have h2 := ihc s hi (by omega) h
        rw [take_succ_getD q (by omega : i < q.length)] at h2
        have h3 := ihi c s (by omega) (by omega) h
        omega

/-- A cell of the matrix is the distance of the prefix of the query to a substring of
the text that ends at its column. -/
theorem Dtab_attained (q t : List Nat) :
    ∀ i c, i ≤ q.length → c ≤ t.length →
      ∃ s, s ≤ c ∧ Dtab q t i c = lev (q.take i) ((t.take c).drop s) := by
  intro i
  induction i with
  | zero =>
    intro c _ _
    refine ⟨c, le_refl _, ?_⟩
    rw [Dtab_zero, List.take_zero, lev_nil_left]
    simp
  | succ i ihi =>
    intro c
    induction c with
    | zero =>
      intro hi _
      refine ⟨0, le_refl _, ?_⟩
      rw [Dtab_col_zero]
      simp only [List.take_zero, List.drop_nil, lev_nil_right, List.length_take]
      omega
    | succ c ihc =>
      intro hi hc
      obtain ⟨s1, hs1, e1⟩ := ihi (c + 1) (by omega) hc
      obtain ⟨s2, hs2, e2⟩ := ihc hi (by omega)
      obtain ⟨s3, hs3, e3⟩ := ihi c (by omega) (by omega)
      have hq := take_succ_getD q (by omega : i < q.length)
      have hD := Dtab_succ q t i c
      have l1 := Dtab_le_lev q t (i + 1) (c + 1) s1 hi hc hs1
      have l2 := Dtab_le_lev q t (i + 1) (c + 1) s2 hi hc (by omega)
      have l3 := Dtab_le_lev q t (i + 1) (c + 1) s3 hi hc (by omega)
      have u1 := lev_snoc_del_le (q.getD i 0) (q.take i) ((t.take (c + 1)).drop s1)
      have u2 := lev_snoc_ins_le (t.getD c 0) (q.take (i + 1)) ((t.take c).drop s2)
      have u3 := lev_snoc_sub_le (q.getD i 0) (t.getD c 0) (q.take i) ((t.take c).drop s3)
      rw [← hq] at u1 u3
      rw [← take_succ_drop t hs2 (by omega)] at u2
      rw [← take_succ_drop t hs3 (by omega)] at u3
      rcases Nat.le_total (Dtab q t i (c + 1) + 1) (Dtab q t (i + 1) c + 1) with h | h
      · rcases Nat.le_total (Dtab q t i (c + 1) + 1)
            (Dtab q t i c + subst_cost (q.getD i 0) (t.getD c 0)) with h' | h'
        · exact ⟨s1, hs1, by omega⟩
        · exact ⟨s3, by omega, by omega⟩
      · rcases Nat.le_total (Dtab q t (i + 1) c + 1)
            (Dtab q t i c + subst_cost (q.getD i 0) (t.getD c 0)) with h' | h'
        · exact ⟨s2, by omega, by omega⟩
        · exact ⟨s3, by omega, by omega⟩


theorem Dtab_succ_le_up (q t : List Nat) (i c : Nat) :
    Dtab q t (i + 1) c ≤ Dtab q t i c + 1 := by
  cases c with
  | zero => rw [Dtab_col_zero, Dtab_col_zero]
  | succ c => rw [Dtab_succ]; omega

theorem Dtab_succ_le_left (q t : List Nat) (i c : Nat) :
    Dtab q t i (c + 1) ≤ Dtab q t i c + 1 := by
  cases i with
  | zero => rw [Dtab_zero]; omega
  | succ i => rw [Dtab_succ]; omega

theorem Dtab_le_right (q t : List Nat) (i c : Nat) :
    Dtab q t i c ≤ Dtab q t i (c + 1) + 1 := by
  induction i generalizing c with
  | zero => rw [Dtab_zero]; omega
  | succ i ih =>
    rw [Dtab_succ]
    have h1 := Dtab_succ_le_up q t i c
    have h2 := ih c
    have := subst_cost_le (q.getD i 0) (t.getD c 0)
    omega

theorem Dtab_le_down (q t : List Nat) (i c : Nat) :
    Dtab q t i c ≤ Dtab q t (i + 1) c + 1 := by
  induction c with
  | zero => rw [Dtab_col_zero, Dtab_col_zero]; omega
  | succ c ih =>
    rw [Dtab_succ]
    have h1 := Dtab_succ_le_left q t i c
    omega

/-- The matrix does not decrease along a diagonal. -/
theorem Dtab_diag (q t : List Nat) (i c : Nat) : Dtab q t i c ≤ Dtab q t (i + 1) (c + 1) := by
  rw [Dtab_succ]
  have h1 := Dtab_le_right q t i c
  have h2 := Dtab_le_down q t i c
  omega

theorem Dtab_diag_add (q t : List Nat) (i c j : Nat) :
    Dtab q t i c ≤ Dtab q t (i + j) (c + j) := by
  induction j with
  | zero => exact le_refl _
  | succ j ih => exact le_trans ih (Dtab_diag q t (i + j) (c + j))

/-- A cell of the matrix, by the rule that `levenshtein_value` applies. -/
theorem Dtab_succ_cell (q t : List Nat) (i c : Nat) :
    Dtab q t (i + 1) (c + 1)
      = cell (decide (tolower (t.getD c 0) = tolower (q.getD i 0))) (Dtab q t i (c + 1))
          (Dtab q t (i + 1) c) (Dtab q t i c) := by
  rw [Dtab_succ]
  unfold cell subst_cost
  have h1 := Dtab_le_right q t i c
  have h2 := Dtab_le_down q t i c
  by_cases h : tolower (t.getD c 0) = tolower (q.getD i 0)
  · simp only [h, decide_True, if_true]
    omega
  · have h' : ¬ tolower (q.getD i 0) = tolower (t.getD c 0) := fun e => h e.symm
    simp only [h, h', decide_False, if_false, Bool.false_eq_true]

/-! ## The values of the scan stand for the cells of the matrix -/

theorem Approx.same (k d : Nat) : Approx k d d := ⟨le_refl _, fun _ => rfl⟩

theorem Approx.of_lt {k v d : Nat} (h1 : d ≤ v) (h2 : k < d) : Approx k v d :=
  ⟨h1, fun h => by omega⟩

theorem Approx.cell {k : Nat} (eq : Bool) {u1 l1 d1 u2 l2 d2 : Nat} (hu : Approx k u1 u2)
    (hl : Approx k l1 l2) (hd : Approx k d1 d2) :
    Approx k (cell eq u1 l1 d1) (cell eq u2 l2 d2) := by
  unfold Pick.cell
  unfold Approx at *
  cases eq
  · simp only [Bool.false_eq_true, if_false]
    constructor
    · omega
    · intro h
      rcases Nat.lt_or_ge k (u2 + 1) with a | a <;> rcases Nat.lt_or_ge k (l2 + 1) with b | b <;>
        rcases Nat.lt_or_ge k (d2 + 1) with c | c <;> omega
  · simp only [if_true]
    exact hd

theorem Approx.le_of_le {k v d : Nat} (h : Approx k v d) (hd : d ≤ k) : v ≤ k := by
  have := h.2 hd; omega

theorem Approx.lt_of_lt {k v d : Nat} (h : Approx k v d) (hv : k < v) : k < d := by
  by_contra hn
  have := h.2 (by omega)
  omega


/-- The row of the scan stands for the row of the matrix. -/
theorem prow_approx (q t : List Nat) (k ai lo hi : Nat) (prev : Nat → Nat) (hai : 1 ≤ ai)
    (hprev : ∀ c, lo ≤ c → c ≤ hi → Approx k (prev c) (Dtab q t (ai - 1) c))
    (hleft : Approx k ai (Dtab q t ai lo)) :
    ∀ c, lo ≤ c → c ≤ hi →
      Approx k (prow (tolower (q.getD (ai - 1) 0)) t ai lo prev c) (Dtab q t ai c) := by
  obtain ⟨i, rfl⟩ : ∃ i, ai = i + 1 := ⟨ai - 1, by omega⟩
  simp only [Nat.add_sub_cancel] at hprev ⊢
  intro c
  induction c with
  | zero =>
    intro h1 _
    have : lo = 0 := by omega
    subst this
    rw [prow_of_le _ _ _ _ _ (le_refl _)]
    exact hleft
  | succ c ih =>
    intro h1 h2
    by_cases h : c + 1 ≤ lo
    · have : lo = c + 1 := by omega
      subst this
      rw [prow_of_le _ _ _ _ _ (le_refl _)]
      exact hleft
    · rw [prow_succ _ _ _ _ _ (by omega), Dtab_succ_cell]
      exact Approx.cell _ (hprev (c + 1) h1 h2) (ih (by omega) (by omega))
        (hprev c (by omega) (by omega))

/-- The left edge of the window of a band stands for the matrix, in every row below. -/
theorem left_edge_band (q t : List Nat) (k la ai lo hi : Nat) (W : Nat → Nat) (F L1 : Nat)
    (hrow : ∀ c, lo ≤ c → c ≤ hi → Approx k (W c) (Dtab q t ai c))
    (hleft : ∀ i, ai ≤ i → i < ai + (la + 2) → Approx k i (Dtab q t i lo))
    (hb : Band k (la + 2) lo hi W F L1) :
    ∀ i, ai + 1 ≤ i → i < ai + 1 + (la + 1) → Approx k i (Dtab q t i (F - 1)) := by
  intro i hi1 hi2
  have hlo := hb.lo_lt
  have hle := hb.le
  have hlehi := hb.le_hi
  by_cases hF : F - 1 = lo
  · rw [hF]; exact hleft i (by omega) (by omega)
  · apply Approx.of_lt (Dtab_le_row q t i (F - 1))
    have hdead : k < Dtab q t ai (F - 1) :=
      (hrow (F - 1) (by omega) (by omega)).lt_of_lt (hb.before (F - 1) (by omega) (by omega)
        (by omega))
    by_cases hA : lo + (i - ai) < F - 1
    · have hx := (hrow (F - 1 - (i - ai)) (by omega) (by omega)).lt_of_lt
        (hb.before (F - 1 - (i - ai)) (by omega) (by omega) (by omega))
      have hd := Dtab_diag_add q t ai (F - 1 - (i - ai)) (i - ai)
      have e1 : ai + (i - ai) = i := by omega
      have e2 : F - 1 - (i - ai) + (i - ai) = F - 1 := by omega
      rw [e1, e2] at hd
      omega
    · by_contra hn
      have hd := Dtab_diag_add q t (i - (F - 1 - lo)) lo (F - 1 - lo)
      have e1 : i - (F - 1 - lo) + (F - 1 - lo) = i := by omega
      have e2 : lo + (F - 1 - lo) = F - 1 := by omega
      rw [e1, e2] at hd
      have hl := hleft (i - (F - 1 - lo)) (by omega) (by omega)
      have := hl.2 (by omega)
      have := Dtab_le_row q t ai (F - 1)
      omega

/-- The scan on a window finds the least cell of the last row of the matrix in the
window, when that cell is within the threshold; it returns no less than a cell of the
last row in the window. -/
theorem pscan_correct (q t : List Nat) (k : Nat) :
    ∀ la ai lo hi prev, 1 ≤ la → 1 ≤ ai → lo ≤ hi →
      (∀ c, lo ≤ c → c ≤ hi → Approx k (prev c) (Dtab q t (ai - 1) c)) →
      (∀ i, ai ≤ i → i < ai + la → Approx k i (Dtab q t i lo)) →
      (pscan q t k la ai lo hi prev = UINT_MAX ∨
        ∃ c, lo < c ∧ c ≤ hi ∧ Dtab q t (ai + la - 1) c ≤ pscan q t k la ai lo hi prev) ∧
      (∀ c, lo < c → c ≤ hi → Dtab q t (ai + la - 1) c ≤ k →
        pscan q t k la ai lo hi prev ≤ Dtab q t (ai + la - 1) c) := by
  intro la
  induction la with
  | zero => intro ai lo hi prev h; omega
  | succ la ih =>
    intro ai lo hi prev _ hai hlohi hprev hleft
    have hrow := prow_approx q t k ai lo hi prev hai hprev (hleft ai (le_refl _) (by omega))
    generalize hWdef : prow (tolower (q.getD (ai - 1) 0)) t ai lo prev = W at hrow
    cases la with
    | zero =>
      rw [pscan_one, hWdef]
      have e : ai + (0 + 1) - 1 = ai := by omega
      rw [e]
      obtain ⟨_, h2, h3⟩ := plast_spec hi W (hi - lo) (lo + 1) UINT_MAX (by omega)
      constructor
      · rcases h2 with h | ⟨x, hx1, hx2, hx3⟩
        · exact Or.inl h
        · exact Or.inr ⟨x, by omega, hx2, by rw [hx3]; exact (hrow x (by omega) hx2).1⟩
      · intro c hc1 hc2 hc3
        have := h3 c (by omega) hc2
        have := (hrow c (by omega) hc2).2 hc3
        omega
    | succ la =>
      rw [pscan_succ, hWdef]
      have e : ai + (la + 1 + 1) - 1 = ai + 1 + (la + 1) - 1 := by omega
      rw [e]
      have hr := ploop_spec k (la + 2) lo hi W
        (fun F Lst => pscan q t k (la + 1) (ai + 1) (F - 1) (min (Lst + (la + 1)) hi) W)
        (hi - lo) (lo + 1) (hi + 1) (hi + 1) UINT_MAX (by omega) (by omega)
        (LoopInv.init _ _ _ _ _ _)
      have hchild : ∀ F L1, Band k (la + 2) lo hi W F L1 →
          (pscan q t k (la + 1) (ai + 1) (F - 1) (min (L1 + (la + 1)) hi) W = UINT_MAX ∨
            ∃ c, F - 1 < c ∧ c ≤ min (L1 + (la + 1)) hi ∧ Dtab q t (ai + 1 + (la + 1) - 1) c
              ≤ pscan q t k (la + 1) (ai + 1) (F - 1) (min (L1 + (la + 1)) hi) W) ∧
          (∀ c, F - 1 < c → c ≤ min (L1 + (la + 1)) hi →
            Dtab q t (ai + 1 + (la + 1) - 1) c ≤ k →
            pscan q t k (la + 1) (ai + 1) (F - 1) (min (L1 + (la + 1)) hi) W
              ≤ Dtab q t (ai + 1 + (la + 1) - 1) c) := by
        intro F L1 hb
        have hlo := hb.lo_lt
        have hle := hb.le
        have hlehi := hb.le_hi
        exact ih (ai + 1) (F - 1) (min (L1 + (la + 1)) hi) W (by omega) (by omega) (by omega)
          (fun c hc1 hc2 => by
            rw [Nat.add_sub_cancel]
            exact hrow c (by omega) (by omega))
          (left_edge_band q t k la ai lo hi W F L1 hrow hleft hb)
      constructor
      · rcases hr.shape with h | ⟨F, L1, hb, h⟩
        · exact Or.inl h
        · rw [h]
          rcases (hchild F L1 hb).1 with h1 | ⟨c, hc1, hc2, hc3⟩
          · exact Or.inl h1
          · have := hb.lo_lt
            exact Or.inr ⟨c, by omega, by omega, hc3⟩
      · intro c hc1 hc2 hc3
        have hx : ∃ x, lo < x ∧ x ≤ hi ∧ W x ≤ k ∧ x ≤ c ∧ c ≤ x + (la + 1) := by
          by_cases hA : lo + (la + 1) < c
          · refine ⟨c - (la + 1), by omega, by omega, ?_, by omega, by omega⟩
            have hd := Dtab_diag_add q t ai (c - (la + 1)) (la + 1)
            have e1 : c - (la + 1) + (la + 1) = c := by omega
            have e2 : ai + (la + 1) = ai + 1 + (la + 1) - 1 := by omega
            rw [e1, e2] at hd
            exact (hrow (c - (la + 1)) (by omega) (by omega)).le_of_le (by omega)
          · refine ⟨c, hc1, hc2, ?_, le_refl _, by omega⟩
            have hd := Dtab_diag_add q t (ai + 1 + (la + 1) - 1 - (c - lo)) lo (c - lo)
            have e1 : ai + 1 + (la + 1) - 1 - (c - lo) + (c - lo) = ai + 1 + (la + 1) - 1 := by
              omega
            have e2 : lo + (c - lo) = c := by omega
            rw [e1, e2] at hd
            have hl := hleft (ai + 1 + (la + 1) - 1 - (c - lo)) (by omega) (by omega)
            have := hl.2 (by omega)
            have := Dtab_le_row q t ai c
            exact (hrow c (by omega) hc2).le_of_le (by omega)
        obtain ⟨x, hx1, hx2, hx3, hx4, hx5⟩ := hx
        rcases hr.cover x (by omega) hx2 hx3 with h | ⟨F, L1, hb, hF, hL, hle⟩
        · rw [h]; exact Nat.zero_le _
        · have := (hchild F L1 hb).2 c (by have := hb.lo_lt; omega) (by omega) hc3
          omega


/-! ## The scan and the distance to the nearest substring -/

theorem dstar_le_Dtab (q t : List Nat) {c : Nat} (hc : c ≤ t.length) :
    dstar q t ≤ Dtab q t q.length c := by
  obtain ⟨s, _, hs⟩ := Dtab_attained q t q.length c (le_refl _) hc
  rw [hs, List.take_length]
  exact dstar_le_lev q t _ (infix_of_take_drop t s c)

theorem Dtab_le_dstar (q t : List Nat) (ht : 1 ≤ t.length) :
    ∃ c, 1 ≤ c ∧ c ≤ t.length ∧ Dtab q t q.length c ≤ dstar q t := by
  obtain ⟨u, hu, he⟩ := dstar_attained q t
  obtain ⟨s, c, hs, hc, rfl⟩ := infix_eq_take_drop hu
  have h1 := Dtab_le_lev q t q.length c s (le_refl _) hc hs
  rw [List.take_length] at h1
  rcases Nat.eq_zero_or_pos c with h0 | h0
  · subst h0
    refine ⟨1, le_refl _, ht, ?_⟩
    have h2 := Dtab_le_row q t q.length 1
    rw [Dtab_col_zero] at h1
    omega
  · exact ⟨c, h0, hc, by omega⟩

/-- The scan over the whole text, on fresh rows: its result is not below the distance
to the nearest substring, it is `UINT_MAX` or at most the length of the query, and it is
the distance to the nearest substring when that distance is within the threshold. -/
theorem pscan_top (q t : List Nat) (k : Nat) (hq : 1 ≤ q.length) (ht : 1 ≤ t.length)
    (hqU : q.length < UINT_MAX) :
    dstar q t ≤ pscan q t k q.length 1 0 t.length (fun _ => 0) ∧
    (pscan q t k q.length 1 0 t.length (fun _ => 0) = UINT_MAX ∨
      pscan q t k q.length 1 0 t.length (fun _ => 0) ≤ q.length) ∧
    (dstar q t ≤ k → pscan q t k q.length 1 0 t.length (fun _ => 0) = dstar q t) := by
  have hc := pscan_correct q t k q.length 1 0 t.length (fun _ => 0) hq (le_refl _)
    (Nat.zero_le _)
    (fun c _ _ => by rw [Nat.sub_self, Dtab_zero]; exact Approx.same _ _)
    (fun i _ _ => by rw [Dtab_col_zero]; exact Approx.same _ _)
  have e : 1 + q.length - 1 = q.length := by omega
  rw [e] at hc
  have hrange := pscan_range q t k q.length 1 0 t.length (fun _ => 0) hq (Nat.zero_le _)
    (fun c _ _ => Nat.zero_lt_one)
  generalize pscan q t k q.length 1 0 t.length (fun _ => 0) = R at hc hrange ⊢
  have hlen := dstar_le_length q t
  have hsound : dstar q t ≤ R := by
    rcases hc.1 with h | ⟨c, _, hc2, hc3⟩
    · omega
    · exact le_trans (dstar_le_Dtab q t hc2) hc3
  refine ⟨hsound, ?_, ?_⟩
  · rcases hrange with h | h
    · exact Or.inl h
    · exact Or.inr (by omega)
  · intro hk
    obtain ⟨c, hc1, hc2, hc3⟩ := Dtab_le_dstar q t ht
    have h1 := hc.2 c (by omega) hc2 (by omega)
    omega


/-! ## A larger threshold -/

theorem cell_mono (eq : Bool) {u1 l1 d1 u2 l2 d2 : Nat} (hu : u1 ≤ u2) (hl : l1 ≤ l2)
    (hd : d1 ≤ d2) : cell eq u1 l1 d1 ≤ cell eq u2 l2 d2 := by
  unfold cell
  cases eq
  · simp only [Bool.false_eq_true, if_false]; omega
  · simp only [if_true]; exact hd

theorem prow_mono (ch : Nat) (t : List Nat) (ai lo lo1 hi : Nat) (prev prev1 : Nat → Nat)
    (hlo : lo1 ≤ lo) (hprev : ∀ c, lo ≤ c → c ≤ hi → prev1 c ≤ prev c)
    (hW : ∀ c, c ≤ hi → prow ch t ai lo1 prev1 c ≤ ai) :
    ∀ c, lo ≤ c → c ≤ hi → prow ch t ai lo1 prev1 c ≤ prow ch t ai lo prev c := by
  intro c
  induction c with
  | zero =>
    intro h1 h2
    rw [prow_of_le ch t ai lo prev (Nat.zero_le lo)]
    exact hW 0 h2
  | succ c ih =>
    intro h1 h2
    by_cases h : c + 1 ≤ lo
    · rw [prow_of_le ch t ai lo prev h]
      exact hW (c + 1) h2
    · rw [prow_succ _ _ _ _ _ (by omega : lo ≤ c), prow_succ _ _ _ _ _ (by omega : lo1 ≤ c)]
      exact cell_mono _ (hprev (c + 1) h1 h2) (ih (by omega) (by omega))
        (hprev c (by omega) (by omega))

/-- A band of a row ends inside the band that holds its first column in a row that is
nowhere larger, for a threshold that is not smaller. -/
theorem band_last_le {k k1 la lo lo1 hi hi1 : Nat} {W W1 : Nat → Nat} {F L F1 L1 : Nat}
    (hb : Band k la lo hi W F L) (hb1 : Band k1 la lo1 hi1 W1 F1 L1)
    (hFL : F ≤ L1) (hhi : hi ≤ hi1)
    (hW : ∀ c, lo < c → c ≤ hi → W c ≤ k → W1 c ≤ k1) : L ≤ L1 := by
  by_contra hn
  have h1 := hb.lo_lt
  have h2 := hb.le
  have h3 := hb.le_hi
  by_cases hc : L ≤ L1 + la + 1
  · have := hb1.after L (by omega) (by omega) hc
    have := hW L (by omega) h3 hb.last
    omega
  · obtain ⟨y, hy1, hy2, hy3, hy4⟩ := hb.conn (L1 + la + 1) (by omega) (by omega)
    have := hb1.after y (by omega) (by omega) (by omega)
    have := hW y (by omega) (by omega) hy4
    omega

/-- The scan does not return more when the threshold and the window grow and the
previous row does not. -/
theorem pscan_mono (q t : List Nat) (k k1 : Nat) (hk : k ≤ k1) :
    ∀ la ai lo hi lo1 hi1 prev prev1, 1 ≤ la → lo1 ≤ lo → lo ≤ hi → hi ≤ hi1 →
      ai + la ≤ 4294967295 →
      (∀ c, lo ≤ c → c ≤ hi → prev1 c ≤ prev c) →
      (∀ c, lo1 ≤ c → c ≤ hi1 → prev1 c < ai) →
      pscan q t k1 la ai lo1 hi1 prev1 ≤ pscan q t k la ai lo hi prev := by
  intro la
  induction la with
  | zero => intro ai lo hi lo1 hi1 prev prev1 h; omega
  | succ la ih =>
    intro ai lo hi lo1 hi1 prev prev1 _ hlo hlohi hhi hbound hprev hprev1
    have hW1 := prow_le (tolower (q.getD (ai - 1) 0)) t ai lo1 hi1 prev1 hprev1
    have hmono := prow_mono (tolower (q.getD (ai - 1) 0)) t ai lo lo1 hi prev prev1 hlo hprev
      (fun c hc => hW1 c (by omega))
    generalize hWdef : prow (tolower (q.getD (ai - 1) 0)) t ai lo prev = W at hmono
    generalize hW1def : prow (tolower (q.getD (ai - 1) 0)) t ai lo1 prev1 = W1 at hmono hW1
    cases la with
    | zero =>
      rw [pscan_one, pscan_one, hWdef, hW1def]
      obtain ⟨_, h2, _⟩ := plast_spec hi W (hi - lo) (lo + 1) UINT_MAX (by omega)
      obtain ⟨g1, _, g3⟩ := plast_spec hi1 W1 (hi1 - lo1) (lo1 + 1) UINT_MAX (by omega)
      rcases h2 with h | ⟨x, hx1, hx2, hx3⟩
      · rw [h]; exact g1
      · rw [hx3]
        exact le_trans (g3 x (by omega) (by omega)) (hmono x (by omega) hx2)
    | succ la =>
      rw [pscan_succ, pscan_succ, hWdef, hW1def]
      have hr := ploop_spec k (la + 2) lo hi W
        (fun F Lst => pscan q t k (la + 1) (ai + 1) (F - 1) (min (Lst + (la + 1)) hi) W)
        (hi - lo) (lo + 1) (hi + 1) (hi + 1) UINT_MAX (by omega) (by omega)
        (LoopInv.init _ _ _ _ _ _)
      have hr1 := ploop_spec k1 (la + 2) lo1 hi1 W1
        (fun F Lst => pscan q t k1 (la + 1) (ai + 1) (F - 1) (min (Lst + (la + 1)) hi1) W1)
        (hi1 - lo1) (lo1 + 1) (hi1 + 1) (hi1 + 1) UINT_MAX (by omega) (by omega)
        (LoopInv.init _ _ _ _ _ _)
      rcases hr.shape with h | ⟨F, L, hb, h⟩
      · rw [h]; exact hr1.le_best
      · rw [h]
        have hF := hb.lo_lt
        have hle := hb.le
        have hLhi := hb.le_hi
        have hWF : W1 F ≤ k1 := le_trans (hmono F (by omega) (by omega)) (le_trans hb.first hk)
        rcases hr1.cover F (by omega) (by omega) hWF with h0 | ⟨F1, L1, hb1, hF1, hL1, hle1⟩
        · rw [h0]; exact Nat.zero_le _
        · have hLL := band_last_le hb hb1 hL1 hhi
            (fun c hc1 hc2 hc3 => le_trans (hmono c (by omega) hc2) (le_trans hc3 hk))
          have hF1lo := hb1.lo_lt
          have hL1hi := hb1.le_hi
          refine le_trans hle1 ?_
          exact ih (ai + 1) (F - 1) (min (L + (la + 1)) hi) (F1 - 1) (min (L1 + (la + 1)) hi1)
            W W1 (by omega) (by omega) (by omega) (by omega) (by omega)
            (fun c hc1 hc2 => hmono c (by omega) (by omega))
            (fun c hc1 hc2 => by have := hW1 c (by omega); omega)


/-! ## The bytes that the scan depends on -/

theorem prow_congr (ch : Nat) (t t1 : List Nat) (ai lo hi : Nat) (prev prev1 : Nat → Nat)
    (ht : ∀ c, c < hi → tolower (t.getD c 0) = tolower (t1.getD c 0))
    (hprev : ∀ c, c ≤ hi → prev c = prev1 c) :
    ∀ c, c ≤ hi → prow ch t ai lo prev c = prow ch t1 ai lo prev1 c := by
  intro c
  induction c with
  | zero => intro _; rfl
  | succ c ih =>
    intro hc
    by_cases h : c + 1 ≤ lo
    · rw [prow_of_le _ _ _ _ _ h, prow_of_le _ _ _ _ _ h]
    · rw [prow_succ _ _ _ _ _ (by omega), prow_succ _ _ _ _ _ (by omega), ht c (by omega),
        hprev (c + 1) hc, hprev c (by omega), ih (by omega)]

theorem plast_congr (hi : Nat) (W W1 : Nat → Nat) (hW : ∀ c, c ≤ hi → W c = W1 c) :
    ∀ n c best, plast hi W n c best = plast hi W1 n c best := by
  intro n
  induction n with
  | zero => intro c best; rfl
  | succ n ih =>
    intro c best
    unfold plast
    by_cases h : c ≤ hi ∧ best > 0
    · simp only [h, and_self, if_true]
      rw [hW c h.1, ih]
    · simp only [h, if_false]

theorem ploop_congr (k la hi : Nat) (W W1 : Nat → Nat) (child : Nat → Nat → Nat)
    (hW : ∀ c, c ≤ hi → W c = W1 c) :
    ∀ n c F Lst best,
      ploop k la hi W child n c F Lst best = ploop k la hi W1 child n c F Lst best := by
  intro n
  induction n with
  | zero => intro c F Lst best; rfl
  | succ n ih =>
    intro c F Lst best
    by_cases h : c ≤ hi ∧ best > 0
    · rw [ploop_run _ _ _ _ _ _ _ _ _ _ h, ploop_run _ _ _ _ _ _ _ _ _ _ h, hW c h.1]
      simp only [ih]
    · rw [ploop_stop _ _ _ _ _ _ _ _ _ _ (Or.inr h), ploop_stop _ _ _ _ _ _ _ _ _ _ (Or.inr h)]

/-- The scan reads the first `ai + la - 1` bytes of the query and the first `hi` bytes of
the text, after lower-casing, and the previous row up to the column `hi`. -/
theorem pscan_congr (q q1 t t1 : List Nat) (k : Nat) :
    ∀ la ai lo hi prev prev1, 1 ≤ ai →
      (∀ i, i + 1 < ai + la → tolower (q.getD i 0) = tolower (q1.getD i 0)) →
      (∀ c, c < hi → tolower (t.getD c 0) = tolower (t1.getD c 0)) →
      (∀ c, c ≤ hi → prev c = prev1 c) →
      pscan q t k la ai lo hi prev = pscan q1 t1 k la ai lo hi prev1 := by
  intro la
  induction la with
  | zero => intro ai lo hi prev prev1 _ _ _ _; rfl
  | succ la ih =>
    intro ai lo hi prev prev1 hai hq ht hprev
    have hch : tolower (q.getD (ai - 1) 0) = tolower (q1.getD (ai - 1) 0) :=
      hq (ai - 1) (by omega)
    have hW := prow_congr (tolower (q.getD (ai - 1) 0)) t t1 ai lo hi prev prev1 ht hprev
    cases la with
    | zero =>
      rw [pscan_one, pscan_one, ← hch]
      exact plast_congr hi _ _ hW _ _ _
    | succ la =>
      rw [pscan_succ, pscan_succ, ← hch]
      have hchild : (fun F Lst => pscan q t k (la + 1) (ai + 1) (F - 1) (min (Lst + (la + 1)) hi)
            (prow (tolower (q.getD (ai - 1) 0)) t ai lo prev))
          = (fun F Lst => pscan q1 t1 k (la + 1) (ai + 1) (F - 1) (min (Lst + (la + 1)) hi)
            (prow (tolower (q.getD (ai - 1) 0)) t1 ai lo prev1)) := by
        funext F Lst
        exact ih (ai + 1) (F - 1) (min (Lst + (la + 1)) hi) _ _ (by omega)
          (fun i hi1 => hq i (by omega)) (fun c hc => ht c (by omega))
          (fun c hc => hW c (by omega))
      rw [hchild]
      exact ploop_congr k (la + 2) hi _ _ _ hW _ _ _ _ _


/-! ## Distance zero -/

theorem subst_cost_eq_zero (x y : Nat) : subst_cost x y = 0 ↔ tolower x = tolower y := by
  unfold subst_cost
  split <;> simp [*]

theorem lev_eq_zero_iff (xs ys : List Nat) :
    lev xs ys = 0 ↔ xs.map tolower = ys.map tolower := by
  induction xs generalizing ys with
  | nil =>
    rw [lev_nil_left]
    cases ys <;> simp
  | cons x xs ih =>
    cases ys with
    | nil => rw [lev_nil_right]; simp
    | cons y ys =>
      rw [lev_cons_cons, List.map_cons, List.map_cons, List.cons.injEq, ← ih ys,
        ← subst_cost_eq_zero]
      omega

/-- The distance to the nearest substring is zero exactly when the query occurs in the
text, bytes compared after lower-casing. -/
theorem dstar_eq_zero_iff (q t : List Nat) :
    dstar q t = 0 ↔ q.map tolower <:+: t.map tolower := by
  constructor
  · intro h
    obtain ⟨u, hu, he⟩ := dstar_attained q t
    rw [h] at he
    rw [(lev_eq_zero_iff q u).mp he.symm]
    exact hu.map tolower
  · rintro ⟨pre, suf, h⟩
    obtain ⟨l1, l2, h1, h2, h3⟩ := List.map_eq_append_iff.mp h.symm
    obtain ⟨l3, l4, h4, h5, h6⟩ := List.map_eq_append_iff.mp h2
    have hinf : l4 <:+: t := ⟨l3, l2, by rw [h1, h4]⟩
    have := dstar_le_lev q t l4 hinf
    rw [(lev_eq_zero_iff q l4).mpr h6.symm] at this
    omega


/-! ## The entry point on fresh rows -/

theorem length_le_dstar_add (q t : List Nat) : q.length ≤ dstar q t + t.length := by
  obtain ⟨u, hu, he⟩ := dstar_attained q t
  have h1 := length_le_lev_add q u
  have h2 := hu.length_le
  omega

theorem pmatch_scan (L : Nat) (q : List Nat) (n : Nat) (t : List Nat) (lb k : Nat)
    (h1 : 1 ≤ min n L) (h2 : 1 ≤ min lb L) (h3 : min n L ≤ uadd (min lb L) k) :
    pmatch L q n t lb k = pscan q t k (min n L) 1 0 (min lb L) (fun _ => 0) := by
  unfold pmatch
  have e1 : (if n > L then L else n) = min n L := by split <;> omega
  have e2 : (if lb > L then L else lb) = min lb L := by split <;> omega
  simp only [e1, e2]
  have g1 : ¬ min n L = 0 := by omega
  have g2 : ¬ min lb L = 0 := by omega
  have g3 : ¬ min n L > uadd (min lb L) k := by omega
  simp only [g1, g2, g3, if_false]

theorem pmatch_not_found (L : Nat) (q : List Nat) (n : Nat) (t : List Nat) (lb k : Nat)
    (h1 : 1 ≤ min n L) (h2 : min lb L = 0 ∨ min n L > uadd (min lb L) k) :
    pmatch L q n t lb k = UINT_MAX := by
  unfold pmatch
  have e1 : (if n > L then L else n) = min n L := by split <;> omega
  have e2 : (if lb > L then L else lb) = min lb L := by split <;> omega
  simp only [e1, e2]
  have g1 : ¬ min n L = 0 := by omega
  simp only [g1, if_false]
  rcases h2 with h | h
  · simp only [h, if_true]
  · by_cases g2 : min lb L = 0
    · simp only [g2, if_true]
    · simp only [g2, h, if_false, if_true]

theorem pmatch_empty_query (L : Nat) (q : List Nat) (n : Nat) (t : List Nat) (lb k : Nat)
    (h1 : min n L = 0) :
    pmatch L q n t lb k = if min lb L ≤ k then min lb L else UINT_MAX := by
  unfold pmatch
  have e1 : (if n > L then L else n) = min n L := by split <;> omega
  have e2 : (if lb > L then L else lb) = min lb L := by split <;> omega
  simp only [e1, e2, h1, if_true]

/-- The entry point reads the bytes of the query and of the text below the clamped
lengths only, and only after lower-casing. -/
theorem pmatch_congr (L : Nat) (q q1 : List Nat) (n : Nat) (t t1 : List Nat) (lb k : Nat)
    (hq : ∀ i, i < min n L → tolower (q.getD i 0) = tolower (q1.getD i 0))
    (ht : ∀ c, c < min lb L → tolower (t.getD c 0) = tolower (t1.getD c 0)) :
    pmatch L q n t lb k = pmatch L q1 n t1 lb k := by
  unfold pmatch
  have e1 : (if n > L then L else n) = min n L := by split <;> omega
  have e2 : (if lb > L then L else lb) = min lb L := by split <;> omega
  simp only [e1, e2]
  rw [pscan_congr q q1 t t1 k (min n L) 1 0 (min lb L) (fun _ => 0) (fun _ => 0) (le_refl _)
    (fun i hi => hq i (by omega)) ht (fun _ _ => rfl)]

/-! ## The contract of `levenshtein_substring_match` -/

theorem UINT_MAX_eq : UINT_MAX = 4294967295 := rfl

theorem tolower_swapcase (c : Nat) : tolower (swapcase c) = tolower c := by
  unfold tolower swapcase
  split_ifs <;> omega

theorem CaseVariant.tolower_eq {x y : Nat} (h : CaseVariant x y) : tolower y = tolower x := by
  rcases h with h | h
  · rw [h]
  · rw [h, tolower_swapcase]

theorem forall₂_getD_tolower {q q1 : List Nat} (h : List.Forall₂ CaseVariant q q1) (i : Nat) :
    tolower (q.getD i 0) = tolower (q1.getD i 0) := by
  induction h generalizing i with
  | nil => rfl
  | cons hxy _ ih =>
    cases i with
    | zero => simp only [List.getD_cons_zero]; exact hxy.tolower_eq.symm
    | succ i => simp only [List.getD_cons_succ]; exact ih i

theorem pmatch_clamp (L : Nat) (q : List Nat) (n : Nat) (t : List Nat) (lb k : Nat) :
    pmatch L q n t lb k = pmatch L q (min n L) t (min lb L) k := by
  unfold pmatch
  have e1 : (if n > L then L else n) = min n L := by split <;> omega
  have e2 : (if lb > L then L else lb) = min lb L := by split <;> omega
  have e3 : (if min n L > L then L else min n L) = min n L := by split <;> omega
  have e4 : (if min lb L > L then L else min lb L) = min lb L := by split <;> omega
  simp only [e1, e2, e3, e4]

theorem getD_take (l : List Nat) {i n : Nat} (h : i < n) : (l.take n).getD i 0 = l.getD i 0 := by
  rw [List.getD_eq_getElem?_getD, List.getD_eq_getElem?_getD, List.getElem?_take_of_lt h]

/-- The result of the entry point on fresh rows is `UINT_MAX` or at most the clamped
length of the query, or of the text when the query is empty. -/
theorem pmatch_range (L : Nat) (q : List Nat) (n : Nat) (t : List Nat) (lb k : Nat) :
    (pmatch L q n t lb k = UINT_MAX ∨ pmatch L q n t lb k ≤ max (min n L) (min lb L)) ∧
    (1 ≤ min n L → pmatch L q n t lb k = UINT_MAX ∨ pmatch L q n t lb k ≤ min n L) := by
  by_cases h1 : min n L = 0
  · rw [pmatch_empty_query L q n t lb k h1]
    constructor
    · split
      · right; omega
      · left; rfl
    · intro h; omega
  · by_cases h2 : min lb L = 0 ∨ min n L > uadd (min lb L) k
    · rw [pmatch_not_found L q n t lb k (by omega) h2]
      exact ⟨Or.inl rfl, fun _ => Or.inl rfl⟩
    · rw [pmatch_scan L q n t lb k (by omega) (by omega) (by omega)]
      rcases pscan_range q t k (min n L) 1 0 (min lb L) (fun _ => 0) (by omega) (Nat.zero_le _)
        (fun c _ _ => Nat.zero_lt_one) with h | h
      · exact ⟨Or.inl h, fun _ => Or.inl h⟩
      · exact ⟨Or.inr (by omega), fun _ => Or.inr (by omega)⟩

/-- C1: for a query `q` and a text `t` of 1 to `LEVENSHTEIN_MAX_LENGTH` bytes and a
threshold `k` with `|t| + k` in the range of `unsigned`, when the distance `d*(q, t)` of
the query to the nearest contiguous substring of the text is at most `k`, the call
`levenshtein_substring_match(q, |q|, t, |t|, k)` returns exactly `d*(q, t)`: it does so
with any fuel from `|q|` on and whatever the two global rows hold before the call. -/
theorem match_exact_within_threshold (L fuel : Nat) (m : Mem) (q t : List Nat) (k : Nat)
    (hL : L + 2 ≤ 2147483648) (hq1 : 1 ≤ q.length) (hqL : q.length ≤ L)
    (ht1 : 1 ≤ t.length) (htL : t.length ≤ L) (hk : t.length + k ≤ UINT_MAX)
    (hfuel : q.length ≤ fuel) (hd : dstar q t ≤ k) :
    levenshtein_substring_match L fuel m q q.length t t.length k = some (dstar q t) := by
  have e1 : min q.length L = q.length := Nat.min_eq_left hqL
  have e2 : min t.length L = t.length := Nat.min_eq_left htL
  rw [match_eq_pmatch L fuel m q q.length t t.length k hL (by omega) (by omega) (by omega)]
  have hlen := length_le_dstar_add q t
  rw [UINT_MAX_eq] at hk
  rw [pmatch_scan L q q.length t t.length k (by omega) (by omega)
    (by rw [e1, e2, uadd_small (by omega)]; omega), e1, e2]
  rw [(pscan_top q t k hq1 ht1 (by rw [UINT_MAX_eq]; omega)).2.2 hd]

/-- Witness of C1: the query "kitten" in the text "xxkitxenyy" with the threshold 1; the
distance to the nearest substring, "kitxen", is 1. -/
theorem match_exact_within_threshold_witness :
    levenshtein_substring_match 256 6 ⟨fun _ => 0, fun _ => 0⟩
        [107, 105, 116, 116, 101, 110] 6 [120, 120, 107, 105, 116, 120, 101, 110, 121, 121] 10 1
      = some (dstar [107, 105, 116, 116, 101, 110]
          [120, 120, 107, 105, 116, 120, 101, 110, 121, 121]) ∧
    levenshtein_substring_match 256 6 ⟨fun _ => 0, fun _ => 0⟩
        [107, 105, 116, 116, 101, 110] 6 [120, 120, 107, 105, 116, 120, 101, 110, 121, 121] 10 1
      = some 1 :=
  ⟨match_exact_within_threshold 256 6 ⟨fun _ => 0, fun _ => 0⟩ [107, 105, 116, 116, 101, 110]
    [120, 120, 107, 105, 116, 120, 101, 110, 121, 121] 1 (by decide) (by decide) (by decide)
    (by decide) (by decide) (by decide) (by decide)
    (le_trans (dstar_le_lev _ _ [107, 105, 116, 120, 101, 110] (by decide)) (by decide)),
    by decide⟩

/-- Counterexample to C2 as stated: with the threshold 0, the query "ab" does not occur
in the text "ax" and the call returns 1, not `UINT_MAX`; the empty query occurs in the
text "a" and the call returns `UINT_MAX`, not 0. -/
theorem match_zero_threshold_counterexample :
    (levenshtein_substring_match 256 2 ⟨fun _ => 0, fun _ => 0⟩ [97, 98] 2 [97, 120] 2 0 = some 1 ∧
      ¬ ([97, 98].map tolower <:+: [97, 120].map tolower)) ∧
    (levenshtein_substring_match 256 0 ⟨fun _ => 0, fun _ => 0⟩ [] 0 [97] 1 0 = some UINT_MAX ∧
      ([].map tolower <:+: [97].map tolower)) := by
  decide

/-- C2, as amended: for a query of 1 to `LEVENSHTEIN_MAX_LENGTH` bytes and a text of at
most `LEVENSHTEIN_MAX_LENGTH` bytes, the call with `max_distance = 0` returns 0 if and
only if the text contains the query as a contiguous substring, bytes compared after
lower-casing; in every other case it returns a value that is not 0. -/
theorem match_zero_iff_occurs (L fuel : Nat) (m : Mem) (q t : List Nat)
    (hL : L + 2 ≤ 2147483648) (hq1 : 1 ≤ q.length) (hqL : q.length ≤ L) (htL : t.length ≤ L)
    (hfuel : q.length ≤ fuel) :
    ∃ r, levenshtein_substring_match L fuel m q q.length t t.length 0 = some r ∧
      (r = 0 ↔ q.map tolower <:+: t.map tolower) := by
  have e1 : min q.length L = q.length := Nat.min_eq_left hqL
  have e2 : min t.length L = t.length := Nat.min_eq_left htL
  rw [match_eq_pmatch L fuel m q q.length t t.length 0 hL (by omega) (by omega) (by omega)]
  refine ⟨_, rfl, ?_⟩
  rw [← dstar_eq_zero_iff]
  have hlen := length_le_dstar_add q t
  by_cases h2 : min t.length L = 0 ∨ min q.length L > uadd (min t.length L) 0
  · rw [pmatch_not_found L q q.length t t.length 0 (by omega) h2, UINT_MAX_eq]
    have : 0 < dstar q t := by
      rcases h2 with h | h
      · omega
      · rw [e1, e2, uadd_small (by omega)] at h
        omega
    omega
  · rw [pmatch_scan L q q.length t t.length 0 (by omega) (by omega) (by omega), e1, e2]
    obtain ⟨h3, _, h5⟩ := pscan_top q t 0 hq1 (by omega) (by rw [UINT_MAX_eq]; omega)
    constructor
    · intro h; omega
    · intro h
      rw [h5 (by omega)]
      exact h

/-- Witness of C2 as amended: the query "ABC" in the text "xxabcxx". -/
theorem match_zero_iff_occurs_witness :
    ∃ r, levenshtein_substring_match 256 3 ⟨fun _ => 0, fun _ => 0⟩ [65, 66, 67] 3
        [120, 120, 97, 98, 99, 120, 120] 7 0 = some r ∧
      (r = 0 ↔ [65, 66, 67].map tolower <:+: [120, 120, 97, 98, 99, 120, 120].map tolower) :=
  match_zero_iff_occurs 256 3 ⟨fun _ => 0, fun _ => 0⟩ [65, 66, 67]
    [120, 120, 97, 98, 99, 120, 120] (by decide) (by decide) (by decide) (by decide) (by decide)

/-- Counterexample to C3 as stated: no substring of the text "b" is within distance 0 of
the query "a", and the call with the threshold 0 returns 1, not `UINT_MAX`. -/
theorem match_not_found_counterexample :
    levenshtein_substring_match 256 1 ⟨fun _ => 0, fun _ => 0⟩ [97] 1 [98] 1 0 = some 1 ∧
      0 < dstar [97] [98] ∧ 1 ≠ UINT_MAX := by
  decide

/-- C3, as amended: for a query and a text of 1 to `LEVENSHTEIN_MAX_LENGTH` bytes and every
`max_distance = k`, when no contiguous substring of the text is within distance `k` of
the query the call returns a value above `k` (`UINT_MAX`, or a distance above `k`): it
never returns a value within the threshold. -/
theorem match_above_threshold (L fuel : Nat) (m : Mem) (q t : List Nat) (k : Nat)
    (hL : L + 2 ≤ 2147483648) (hq1 : 1 ≤ q.length) (hqL : q.length ≤ L)
    (ht1 : 1 ≤ t.length) (htL : t.length ≤ L) (hfuel : q.length ≤ fuel)
    (hd : k < dstar q t) :
    ∃ r, levenshtein_substring_match L fuel m q q.length t t.length k = some r ∧ k < r := by
  have e1 : min q.length L = q.length := Nat.min_eq_left hqL
  have e2 : min t.length L = t.length := Nat.min_eq_left htL
  rw [match_eq_pmatch L fuel m q q.length t t.length k hL (by omega) (by omega) (by omega)]
  refine ⟨_, rfl, ?_⟩
  have hlen := dstar_le_length q t
  by_cases h2 : min t.length L = 0 ∨ min q.length L > uadd (min t.length L) k
  · rw [pmatch_not_found L q q.length t t.length k (by omega) h2, UINT_MAX_eq]
    omega
  · rw [pmatch_scan L q q.length t t.length k (by omega) (by omega) (by omega), e1, e2]
    have := (pscan_top q t k hq1 ht1 (by rw [UINT_MAX_eq]; omega)).1
    omega

/-- Witness of C3 as amended: the query "zzzzz" in the text "abc" with the threshold 1. -/
theorem match_above_threshold_witness :
    ∃ r, levenshtein_substring_match 256 5 ⟨fun _ => 0, fun _ => 0⟩ [122, 122, 122, 122, 122] 5
        [97, 98, 99] 3 1 = some r ∧ 1 < r :=
  match_above_threshold 256 5 ⟨fun _ => 0, fun _ => 0⟩ [122, 122, 122, 122, 122] [97, 98, 99] 1
    (by decide) (by decide) (by decide) (by decide) (by decide) (by decide) (by decide)

/-- C4: for a fixed query and text and two thresholds `k ≤ k1`, with the clamped
`text_len + k1` in the range of `unsigned`: when the call at the threshold `k` returns
a value `r` other than `UINT_MAX`, the call at the threshold `k1` returns a value other
than `UINT_MAX` that is at most `r`. -/
theorem match_monotone (L fuel fuel1 : Nat) (m m1 : Mem) (q : List Nat) (query_len : Nat)
    (t : List Nat) (text_len k k1 r : Nat) (hL : L + 2 ≤ 2147483648)
    (hq : min query_len L ≤ q.length) (ht : min text_len L ≤ t.length)
    (hfuel : min query_len L ≤ fuel) (hfuel1 : min query_len L ≤ fuel1) (hk : k ≤ k1)
    (hwrap : min text_len L + k1 ≤ UINT_MAX)
    (hr : levenshtein_substring_match L fuel m q query_len t text_len k = some r)
    (hne : r ≠ UINT_MAX) :
    ∃ r1, levenshtein_substring_match L fuel1 m1 q query_len t text_len k1 = some r1 ∧
      r1 ≠ UINT_MAX ∧ r1 ≤ r := by
  rw [match_eq_pmatch L fuel m q query_len t text_len k hL hq ht hfuel] at hr
  rw [match_eq_pmatch L fuel1 m1 q query_len t text_len k1 hL hq ht hfuel1]
  refine ⟨_, rfl, ?_⟩
  have hr1 : pmatch L q query_len t text_len k = r := Option.some.inj hr
  subst hr1
  rw [UINT_MAX_eq] at hwrap
  by_cases h1 : min query_len L = 0
  · rw [pmatch_empty_query L q query_len t text_len k h1] at hne ⊢
    rw [pmatch_empty_query L q query_len t text_len k1 h1]
    by_cases h3 : min text_len L ≤ k
    · have h4 : min text_len L ≤ k1 := by omega
      simp only [h3, h4, if_true] at hne ⊢
      exact ⟨hne, le_refl _⟩
    · simp only [h3, if_false] at hne
      exact absurd rfl hne
  · by_cases h2 : min text_len L = 0 ∨ min query_len L > uadd (min text_len L) k
    · rw [pmatch_not_found L q query_len t text_len k (by omega) h2] at hne
      exact absurd rfl hne
    · have h3 : uadd (min text_len L) k = min text_len L + k := uadd_small (by omega)
      have h4 : uadd (min text_len L) k1 = min text_len L + k1 := uadd_small (by omega)
      rw [pmatch_scan L q query_len t text_len k (by omega) (by omega) (by omega)] at hne ⊢
      rw [pmatch_scan L q query_len t text_len k1 (by omega) (by omega) (by omega)]
      have hm := pscan_mono q t k k1 hk (min query_len L) 1 0 (min text_len L) 0
        (min text_len L) (fun _ => 0) (fun _ => 0) (by omega) (le_refl _) (Nat.zero_le _)
        (le_refl _) (by omega) (fun _ _ _ => le_refl _) (fun _ _ _ => Nat.zero_lt_one)
      rcases pscan_range q t k (min query_len L) 1 0 (min text_len L) (fun _ => 0) (by omega)
        (Nat.zero_le _) (fun c _ _ => Nat.zero_lt_one) with h | h
      · exact absurd h hne
      · refine ⟨?_, hm⟩
        rw [UINT_MAX_eq]
        omega

/-- Witness of C4: the query "kitten" in the text "xxkitxenyy", thresholds 1 and 2. -/
theorem match_monotone_witness :
    ∃ r1, levenshtein_substring_match 256 6 ⟨fun _ => 7, fun _ => 9⟩
        [107, 105, 116, 116, 101, 110] 6 [120, 120, 107, 105, 116, 120, 101, 110, 121, 121] 10 2
        = some r1 ∧ r1 ≠ UINT_MAX ∧ r1 ≤ 1 :=
  match_monotone 256 6 6 ⟨fun _ => 0, fun _ => 0⟩ ⟨fun _ => 7, fun _ => 9⟩
    [107, 105, 116, 116, 101, 110] 6 [120, 120, 107, 105, 116, 120, 101, 110, 121, 121] 10 1 2 1
    (by decide) (by decide) (by decide) (by decide) (by decide) (by decide) (by decide)
    (by decide) (by decide)

/-- C5: with `query_len = 0` the call returns the clamped `text_len` when it is at most
`max_distance`, and `UINT_MAX` otherwise, whatever the query and the text hold (the
empty buffers included: no byte of them is read). -/
theorem match_empty_query (L fuel : Nat) (m : Mem) (q t : List Nat) (text_len k : Nat) :
    levenshtein_substring_match L fuel m q 0 t text_len k
      = some (if min text_len L ≤ k then min text_len L else UINT_MAX) := by
  unfold levenshtein_substring_match
  have e2 : (if text_len > L then L else text_len) = min text_len L := by split <;> omega
  simp only [e2, Nat.not_lt_zero, gt_iff_lt, if_false, if_true]
  split <;> rfl

/-- Witness of C5: the empty query in the text "hello" and in the text "hi", with the
threshold 3. -/
theorem match_empty_query_witness :
    levenshtein_substring_match 256 0 ⟨fun _ => 0, fun _ => 0⟩ [] 0
        [104, 101, 108, 108, 111] 5 3 = some UINT_MAX ∧
    levenshtein_substring_match 256 0 ⟨fun _ => 0, fun _ => 0⟩ [] 0 [104, 105] 2 3 = some 2 :=
  ⟨match_empty_query 256 0 ⟨fun _ => 0, fun _ => 0⟩ [] [104, 101, 108, 108, 111] 5 3,
    match_empty_query 256 0 ⟨fun _ => 0, fun _ => 0⟩ [] [104, 105] 2 3⟩

/-- C6: a query of 1 to `LEVENSHTEIN_MAX_LENGTH` bytes that is longer than `|t| + k` (in
exact arithmetic) is rejected with `UINT_MAX`, and rightly so: no contiguous substring of
the text is within distance `k` of it. -/
theorem match_pigeonhole (L fuel : Nat) (m : Mem) (q t : List Nat) (k : Nat)
    (hq1 : 1 ≤ q.length) (hqL : q.length ≤ L) (htL : t.length ≤ L)
    (h : t.length + k < q.length) :
    levenshtein_substring_match L fuel m q q.length t t.length k = some UINT_MAX ∧
      k < dstar q t := by
  constructor
  · unfold levenshtein_substring_match
    have e1 : (if q.length > L then L else q.length) = q.length := by split <;> omega
    have e2 : (if t.length > L then L else t.length) = t.length := by split <;> omega
    simp only [e1, e2]
    have g1 : ¬ q.length = 0 := by omega
    simp only [g1, if_false]
    by_cases g2 : t.length = 0
    · simp only [g2, if_true]
    · have g3 : q.length > uadd t.length k := by
        unfold uadd
        have := Nat.mod_le (t.length + k) 4294967296
        omega
      simp only [g2, g3, if_false, if_true]
  · have := length_le_dstar_add q t
    omega

/-- Witness of C6: the query "abcdef" in the text "xy" with the threshold 1. -/
theorem match_pigeonhole_witness :
    levenshtein_substring_match 256 0 ⟨fun _ => 0, fun _ => 0⟩ [97, 98, 99, 100, 101, 102] 6
        [120, 121] 2 1 = some UINT_MAX ∧
      1 < dstar [97, 98, 99, 100, 101, 102] [120, 121] :=
  match_pigeonhole 256 0 ⟨fun _ => 0, fun _ => 0⟩ [97, 98, 99, 100, 101, 102] [120, 121] 1
    (by decide) (by decide) (by decide) (by decide)

/-- C7: with `text_len = 0` and a query that is not empty the call returns `UINT_MAX`,
whatever `max_distance` is. -/
theorem match_empty_text (L fuel : Nat) (m : Mem) (q t : List Nat) (query_len k : Nat)
    (hL : 1 ≤ L) (hq : 1 ≤ query_len) :
    levenshtein_substring_match L fuel m q query_len t 0 k = some UINT_MAX := by
  unfold levenshtein_substring_match
  have g1 : ¬ (if query_len > L then L else query_len) = 0 := by split <;> omega
  simp only [g1, Nat.not_lt_zero, gt_iff_lt, if_false, if_true]

/-- Witness of C7: the query "a" in the empty text with the threshold 5. -/
theorem match_empty_text_witness :
    levenshtein_substring_match 256 1 ⟨fun _ => 0, fun _ => 0⟩ [97] 1 [] 0 5 = some UINT_MAX :=
  match_empty_text 256 1 ⟨fun _ => 0, fun _ => 0⟩ [97] [] 1 5 (by decide) (by decide)

/-- C8: a call with the lengths `n` and `m` returns what the call returns on the first
`min(n, L)` bytes of the query and the first `min(m, L)` bytes of the text, with these
lengths, `L` being `LEVENSHTEIN_MAX_LENGTH`: a byte at an index from `L` on has no
influence on the result. -/
theorem match_truncation (L fuel : Nat) (m : Mem) (q : List Nat) (query_len : Nat)
    (t : List Nat) (text_len k : Nat) (hL : L + 2 ≤ 2147483648)
    (hq : min query_len L ≤ q.length) (ht : min text_len L ≤ t.length)
    (hfuel : min query_len L ≤ fuel) :
    levenshtein_substring_match L fuel m q query_len t text_len k
      = levenshtein_substring_match L fuel m (q.take (min query_len L)) (min query_len L)
          (t.take (min text_len L)) (min text_len L) k := by
  rw [match_eq_pmatch L fuel m q query_len t text_len k hL hq ht hfuel]
  rw [match_eq_pmatch L fuel m (q.take (min query_len L)) (min query_len L)
    (t.take (min text_len L)) (min text_len L) k hL
    (by rw [List.length_take]; omega) (by rw [List.length_take]; omega) (by omega)]
  rw [pmatch_clamp L q query_len t text_len k]
  rw [pmatch_congr L q (q.take (min query_len L)) (min query_len L) t
    (t.take (min text_len L)) (min text_len L) k
    (fun i hi => by rw [getD_take q (by omega)])
    (fun c hc => by rw [getD_take t (by omega)])]

/-- Witness of C8: with `LEVENSHTEIN_MAX_LENGTH = 4`, the query "abcdef" in the text
"xxabcdxx" with the threshold 1. -/
theorem match_truncation_witness :
    levenshtein_substring_match 4 4 ⟨fun _ => 0, fun _ => 0⟩ [97, 98, 99, 100, 101, 102] 6
        [120, 120, 97, 98, 99, 100, 120, 120] 8 1
      = levenshtein_substring_match 4 4 ⟨fun _ => 0, fun _ => 0⟩
          ([97, 98, 99, 100, 101, 102].take (min 6 4)) (min 6 4)
          ([120, 120, 97, 98, 99, 100, 120, 120].take (min 8 4)) (min 8 4) 1 :=
  match_truncation 4 4 ⟨fun _ => 0, fun _ => 0⟩ [97, 98, 99, 100, 101, 102] 6
    [120, 120, 97, 98, 99, 100, 120, 120] 8 1 (by decide) (by decide) (by decide) (by decide)

/-- C9: the value that the call returns is `UINT_MAX` or lies between 0 and the larger
of the two clamped lengths; for a query that is not empty it is `UINT_MAX` or at most the
clamped length of the query. -/
theorem match_range (L fuel : Nat) (m : Mem) (q : List Nat) (query_len : Nat)
    (t : List Nat) (text_len k : Nat) (hL : L + 2 ≤ 2147483648)
    (hq : min query_len L ≤ q.length) (ht : min text_len L ≤ t.length)
    (hfuel : min query_len L ≤ fuel) :
    ∃ r, levenshtein_substring_match L fuel m q query_len t text_len k = some r ∧
      (r = UINT_MAX ∨ r ≤ max (min query_len L) (min text_len L)) ∧
      (1 ≤ min query_len L → r = UINT_MAX ∨ r ≤ min query_len L) := by
  rw [match_eq_pmatch L fuel m q query_len t text_len k hL hq ht hfuel]
  exact ⟨_, rfl, pmatch_range L q query_len t text_len k⟩

/-- Witness of C9: the query "kitten" in the text "sitting" with the threshold 3. -/
theorem match_range_witness :
    ∃ r, levenshtein_substring_match 256 6 ⟨fun _ => 0, fun _ => 0⟩
        [107, 105, 116, 116, 101, 110] 6 [115, 105, 116, 116, 105, 110, 103] 7 3 = some r ∧
      (r = UINT_MAX ∨ r ≤ max (min 6 256) (min 7 256)) ∧
      (1 ≤ min 6 256 → r = UINT_MAX ∨ r ≤ min 6 256) :=
  match_range 256 6 ⟨fun _ => 0, fun _ => 0⟩ [107, 105, 116, 116, 101, 110] 6
    [115, 105, 116, 116, 105, 110, 103] 7 3 (by decide) (by decide) (by decide) (by decide)

/-- C10: replacing ASCII letters of the query or of the text by the same letters in the
other case leaves the result of the call unchanged. -/
theorem match_case_insensitive (L fuel : Nat) (m : Mem) (q q1 : List Nat) (query_len : Nat)
    (t t1 : List Nat) (text_len k : Nat) (hL : L + 2 ≤ 2147483648)
    (hq : min query_len L ≤ q.length) (ht : min text_len L ≤ t.length)
    (hfuel : min query_len L ≤ fuel)
    (hqc : List.Forall₂ CaseVariant q q1) (htc : List.Forall₂ CaseVariant t t1) :
    levenshtein_substring_match L fuel m q1 query_len t1 text_len k
      = levenshtein_substring_match L fuel m q query_len t text_len k := by
  rw [match_eq_pmatch L fuel m q query_len t text_len k hL hq ht hfuel]
  rw [match_eq_pmatch L fuel m q1 query_len t1 text_len k hL
    (by rw [← hqc.length_eq]; exact hq) (by rw [← htc.length_eq]; exact ht) hfuel]
  rw [pmatch_congr L q q1 query_len t t1 text_len k
    (fun i _ => forall₂_getD_tolower hqc i) (fun c _ => forall₂_getD_tolower htc c)]

/-- Witness of C10: the query "ABC" for the query "abc", in the text "xxabcxx". -/
theorem match_case_insensitive_witness :
    levenshtein_substring_match 256 3 ⟨fun _ => 0, fun _ => 0⟩ [65, 66, 67] 3
        [120, 120, 97, 98, 99, 120, 120] 7 0
      = levenshtein_substring_match 256 3 ⟨fun _ => 0, fun _ => 0⟩ [97, 98, 99] 3
          [120, 120, 97, 98, 99, 120, 120] 7 0 :=
  match_case_insensitive 256 3 ⟨fun _ => 0, fun _ => 0⟩ [97, 98, 99] [65, 66, 67] 3
    [120, 120, 97, 98, 99, 120, 120] [120, 120, 97, 98, 99, 120, 120] 7 0
    (by decide) (by decide) (by decide) (by decide)
    (List.Forall₂.cons (Or.inr (by decide)) (List.Forall₂.cons (Or.inr (by decide))
      (List.Forall₂.cons (Or.inr (by decide)) List.Forall₂.nil)))
    (List.Forall₂.cons (Or.inl rfl) (List.Forall₂.cons (Or.inl rfl)
      (List.Forall₂.cons (Or.inl rfl) (List.Forall₂.cons (Or.inl rfl)
      (List.Forall₂.cons (Or.inl rfl) (List.Forall₂.cons (Or.inl rfl)
      (List.Forall₂.cons (Or.inl rfl) List.Forall₂.nil)))))))
/-! ## Every value of the scan is the cost of an edit script -/

theorem scripted_left_edge (q t : List Nat) (i c : Nat) (hi : i ≤ q.length) :
    Scripted q t i c i := by
  refine ⟨c, le_refl _, ?_⟩
  have h1 : (t.take c).drop c = [] := by
    apply List.drop_eq_nil_of_le
    simp
  have h2 := align_nil_right (q.take i)
  rw [List.length_take, Nat.min_eq_left hi] at h2
  rw [h1]; exact h2

theorem scripted_cell (q t : List Nat) (i c up left diag : Nat) (hi : i < q.length)
    (hc : c < t.length) (hup : Scripted q t i (c + 1) up) (hleft : Scripted q t (i + 1) c left)
    (hdiag : Scripted q t i c diag) :
    Scripted q t (i + 1) (c + 1)
      (cell (decide (tolower (t.getD c 0) = tolower (q.getD i 0))) up left diag) := by
  have hd : Scripted q t (i + 1) (c + 1) (diag + subst_cost (q.getD i 0) (t.getD c 0)) := by
    obtain ⟨s, hs, ha⟩ := hdiag
    refine ⟨s, by omega, ?_⟩
    rw [take_succ_getD q hi, take_succ_drop t hs hc]
    exact Align.snoc_sub _ _ ha
  have hu : Scripted q t (i + 1) (c + 1) (up + 1) := by
    obtain ⟨s, hs, ha⟩ := hup
    refine ⟨s, hs, ?_⟩
    rw [take_succ_getD q hi]
    exact Align.snoc_del _ ha
  have hl : Scripted q t (i + 1) (c + 1) (left + 1) := by
    obtain ⟨s, hs, ha⟩ := hleft
    refine ⟨s, by omega, ?_⟩
    rw [take_succ_drop t hs hc]
    exact Align.snoc_ins _ ha
  unfold cell
  by_cases he : tolower (t.getD c 0) = tolower (q.getD i 0)
  · simp only [he, decide_True, if_true]
    have : subst_cost (q.getD i 0) (t.getD c 0) = 0 := by
      simp only [subst_cost]
      rw [if_pos he.symm]
    rw [this] at hd
    exact hd
  · simp only [he, decide_False, Bool.false_eq_true, if_false]
    have : subst_cost (q.getD i 0) (t.getD c 0) = 1 := by
      simp only [subst_cost]
      rw [if_neg (fun h => he h.symm)]
    rw [this] at hd
    rcases Nat.le_total (up + 1) (left + 1) with h1 | h1
    · rw [Nat.min_eq_left h1]
      rcases Nat.le_total (up + 1) (diag + 1) with h2 | h2
      · rw [Nat.min_eq_left h2]; exact hu
      · rw [Nat.min_eq_right h2]; exact hd
    · rw [Nat.min_eq_right h1]
      rcases Nat.le_total (left + 1) (diag + 1) with h2 | h2
      · rw [Nat.min_eq_left h2]; exact hl
      · rw [Nat.min_eq_right h2]; exact hd

/-- Every value of a row of the scan is the cost of an edit script, when every value of
the previous row is. -/
theorem prow_scripted (q t : List Nat) (ai lo hi : Nat) (prev : Nat → Nat) (hai : 1 ≤ ai)
    (hq : ai ≤ q.length) (ht : hi ≤ t.length)
    (hprev : ∀ c, lo ≤ c → c ≤ hi → Scripted q t (ai - 1) c (prev c)) :
    ∀ c, lo ≤ c → c ≤ hi →
      Scripted q t ai c (prow (tolower (q.getD (ai - 1) 0)) t ai lo prev c) := by
  obtain ⟨i, rfl⟩ : ∃ i, ai = i + 1 := ⟨ai - 1, by omega⟩
  simp only [Nat.add_sub_cancel] at hprev ⊢
  intro c
  induction c with
  | zero =>
    intro h1 _
    rw [prow_of_le _ _ _ _ _ (Nat.zero_le lo)]
    exact scripted_left_edge q t (i + 1) 0 hq
  | succ c ih =>
    intro h1 h2
    by_cases h : c + 1 ≤ lo
    · rw [prow_of_le _ _ _ _ _ h]
      exact scripted_left_edge q t (i + 1) (c + 1) hq
    · rw [prow_succ _ _ _ _ _ (by omega)]
      exact scripted_cell q t i c _ _ _ (by omega) (by omega) (hprev (c + 1) (by omega) h2)
        (ih (by omega) (by omega)) (hprev c (by omega) (by omega))

/-- The result of the scan is `UINT_MAX` or the cost of an edit script that turns the
query into a contiguous substring of the text. -/
theorem pscan_scripted (q t : List Nat) (k : Nat) :
    ∀ la ai lo hi prev, 1 ≤ la → 1 ≤ ai → lo ≤ hi → hi ≤ t.length → ai + la ≤ q.length + 1 →
      (∀ c, lo ≤ c → c ≤ hi → Scripted q t (ai - 1) c (prev c)) →
      pscan q t k la ai lo hi prev = UINT_MAX ∨
        ∃ c, lo < c ∧ c ≤ hi ∧ Scripted q t (ai + la - 1) c (pscan q t k la ai lo hi prev) := by
  intro la
  induction la with
  | zero => intro ai lo hi prev h; omega
  | succ la ih =>
    intro ai lo hi prev _ hai hlohi ht hq hprev
    have hrow := prow_scripted q t ai lo hi prev hai (by omega) ht hprev
    generalize hWdef : prow (tolower (q.getD (ai - 1) 0)) t ai lo prev = W at hrow
    cases la with
    | zero =>
      rw [pscan_one, hWdef]
      have e : ai + (0 + 1) - 1 = ai := by omega
      rw [e]
      obtain ⟨_, h2, _⟩ := plast_spec hi W (hi - lo) (lo + 1) UINT_MAX (by omega)
      rcases h2 with h | ⟨x, hx1, hx2, hx3⟩
      · exact Or.inl h
      · exact Or.inr ⟨x, by omega, hx2, by rw [hx3]; exact hrow x (by omega) hx2⟩
    | succ la =>
      rw [pscan_succ, hWdef]
      have e : ai + (la + 1 + 1) - 1 = ai + 1 + (la + 1) - 1 := by omega
      rw [e]
      have hr := ploop_spec k (la + 2) lo hi W
        (fun F Lst => pscan q t k (la + 1) (ai + 1) (F - 1) (min (Lst + (la + 1)) hi) W)
        (hi - lo) (lo + 1) (hi + 1) (hi + 1) UINT_MAX (by omega) (by omega)
        (LoopInv.init _ _ _ _ _ _)
      rcases hr.shape with h | ⟨F, L1, hb, h⟩
      · exact Or.inl h
      · rw [h]
        have hlo := hb.lo_lt
        have hle := hb.le
        have hlehi := hb.le_hi
        rcases ih (ai + 1) (F - 1) (min (L1 + (la + 1)) hi) W (by omega) (by omega) (by omega)
          (by omega) (by omega)
          (fun c hc1 hc2 => by
            rw [Nat.add_sub_cancel]
            exact hrow c (by omega) (by omega)) with h1 | ⟨c, hc1, hc2, hc3⟩
        · exact Or.inl h1
        · exact Or.inr ⟨c, by omega, by omega, hc3⟩

/-- The scan of the whole text for the whole query returns `UINT_MAX` or the cost of an
edit script between the query and a contiguous substring of the text. -/
theorem pscan_top_scripted (q t : List Nat) (k : Nat) (hq : 1 ≤ q.length) :
    pscan q t k q.length 1 0 t.length (fun _ => 0) = UINT_MAX ∨
      ∃ u, u <:+: t ∧ Align q u (pscan q t k q.length 1 0 t.length (fun _ => 0)) := by
  rcases pscan_scripted q t k q.length 1 0 t.length (fun _ => 0) hq (le_refl _) (Nat.zero_le _)
    (le_refl _) (by omega)
    (fun c _ _ => ⟨c, le_refl _, by
      have h1 : (t.take c).drop c = [] := by
        apply List.drop_eq_nil_of_le
        simp
      rw [h1]; exact Align.nil⟩) with h | ⟨c, _, _, s, _, ha⟩
  · exact Or.inl h
  · right
    have e : 1 + q.length - 1 = q.length := by omega
    rw [e, List.take_length] at ha
    exact ⟨_, infix_of_take_drop t s c, ha⟩

/-! ## The scan does not depend on where its window lies in the text -/

theorem getD_drop (t : List Nat) (d c : Nat) : (t.drop d).getD c 0 = t.getD (d + c) 0 := by
  rw [List.getD_eq_getElem?_getD, List.getD_eq_getElem?_getD, List.getElem?_drop]

theorem prow_shift (ch : Nat) (t : List Nat) (d ai lo : Nat) (prev : Nat → Nat) :
    ∀ c, prow ch (t.drop d) ai lo (fun j => prev (d + j)) c
      = prow ch t ai (d + lo) prev (d + c) := by
  intro c
  induction c with
  | zero => rw [prow_of_le _ _ _ _ _ (Nat.zero_le lo), prow_of_le _ _ _ _ _ (by omega)]
  | succ c ih =>
    by_cases h : c + 1 ≤ lo
    · rw [prow_of_le _ _ _ _ _ h, prow_of_le _ _ _ _ _ (by omega)]
    · have e : d + (c + 1) = (d + c) + 1 := by omega
      rw [prow_succ _ _ _ _ _ (by omega), e, prow_succ _ _ _ _ _ (by omega), ih, getD_drop]

theorem plast_shift (d hi : Nat) (W : Nat → Nat) :
    ∀ n c best, plast hi (fun j => W (d + j)) n c best = plast (d + hi) W n (d + c) best := by
  intro n
  induction n with
  | zero => intro c best; rfl
  | succ n ih =>
    intro c best
    conv_lhs => unfold plast
    conv_rhs => unfold plast
    by_cases h : c ≤ hi ∧ best > 0
    · have h1 : d + c ≤ d + hi ∧ best > 0 := ⟨by omega, h.2⟩
      simp only [h, h1, and_self, if_true]
      rw [ih]
      rfl
    · have h1 : ¬ (d + c ≤ d + hi ∧ best > 0) := by omega
      simp only [h, h1, if_false]

theorem ploop_shift (k la d hi : Nat) (W : Nat → Nat) (child child1 : Nat → Nat → Nat)
    (hchild : ∀ F L1, 1 ≤ F → child1 F L1 = child (d + F) (d + L1)) :
    ∀ n c F Lst best, 1 ≤ c → 1 ≤ F →
      ploop k la hi (fun j => W (d + j)) child1 n c F Lst best
        = ploop k la (d + hi) W child n (d + c) (d + F) (d + Lst) best := by
  intro n
  induction n with
  | zero =>
    intro c F Lst best _ hF
    rw [ploop_stop _ _ _ _ _ _ _ _ _ _ (Or.inl rfl), ploop_stop _ _ _ _ _ _ _ _ _ _ (Or.inl rfl),
      hchild F Lst hF]
    by_cases h : F ≤ hi
    · have h1 : d + F ≤ d + hi := by omega
      simp only [h, h1, if_true]
    · have h1 : ¬ (d + F ≤ d + hi) := by omega
      simp only [h, h1, if_false]
  | succ n ih =>
    intro c F Lst best hc hF
    by_cases h : c ≤ hi ∧ best > 0
    · have h1 : d + c ≤ d + hi ∧ best > 0 := ⟨by omega, h.2⟩
      rw [ploop_run _ _ _ _ _ _ _ _ _ _ h, ploop_run _ _ _ _ _ _ _ _ _ _ h1]
      have eF : d + (if W (d + c) ≤ k then (if F ≤ hi then F else c) else F)
          = (if W (d + c) ≤ k then (if d + F ≤ d + hi then d + F else d + c) else d + F) := by
        by_cases hw : W (d + c) ≤ k
        · by_cases hf : F ≤ hi
          · have hf1 : d + F ≤ d + hi := by omega
            simp only [hw, hf, hf1, if_true]
          · have hf1 : ¬ (d + F ≤ d + hi) := by omega
            simp only [hw, hf, hf1, if_true, if_false]
        · simp only [hw, if_false]
      have eL : d + (if W (d + c) ≤ k then c else Lst)
          = (if W (d + c) ≤ k then d + c else d + Lst) := by
        split <;> rfl
      have hF1 : 1 ≤ (if W (d + c) ≤ k then (if F ≤ hi then F else c) else F) := by
        split
        · split <;> omega
        · exact hF
      rw [← eF, ← eL]
      have e1 : d + c + 1 = d + (c + 1) := by omega
      have e2 : d + hi + 1 = d + (hi + 1) := by omega
      rw [e1, e2]
      by_cases hcl : c > (if W (d + c) ≤ k then c else Lst) + la
      · have hcl1 : d + c > d + (if W (d + c) ≤ k then c else Lst) + la := by omega
        simp only [hcl, hcl1, if_true]
        rw [ih (c + 1) (hi + 1) (hi + 1) _ (by omega) (by omega), hchild _ _ hF1]
      · have hcl1 : ¬ (d + c > d + (if W (d + c) ≤ k then c else Lst) + la) := by omega
        simp only [hcl, hcl1, if_false]
        rw [ih (c + 1) _ _ _ (by omega) hF1]
    · have h1 : ¬ (d + c ≤ d + hi ∧ best > 0) := by omega
      rw [ploop_stop _ _ _ _ _ _ _ _ _ _ (Or.inr h), ploop_stop _ _ _ _ _ _ _ _ _ _ (Or.inr h1),
        hchild F Lst hF]
      by_cases hf : F ≤ hi
      · have hf1 : d + F ≤ d + hi := by omega
        simp only [hf, hf1, if_true]
      · have hf1 : ¬ (d + F ≤ d + hi) := by omega
        simp only [hf, hf1, if_false]

/-- The scan of the window `(lo, hi]` of the text without its first `d` bytes is the scan
of the window `(d + lo, d + hi]` of the text. -/
theorem pscan_shift (q t : List Nat) (k d : Nat) :
    ∀ la ai lo hi prev,
      pscan q (t.drop d) k la ai lo hi (fun j => prev (d + j))
        = pscan q t k la ai (d + lo) (d + hi) prev := by
  intro la
  induction la with
  | zero => intro ai lo hi prev; rfl
  | succ la ih =>
    intro ai lo hi prev
    have hW : prow (tolower (q.getD (ai - 1) 0)) (t.drop d) ai lo (fun j => prev (d + j))
        = fun j => prow (tolower (q.getD (ai - 1) 0)) t ai (d + lo) prev (d + j) := by
      funext c
      exact prow_shift _ t d ai lo prev c
    have e1 : d + hi - (d + lo) = hi - lo := by omega
    have e2 : d + lo + 1 = d + (lo + 1) := by omega
    have e3 : d + hi + 1 = d + (hi + 1) := by omega
    cases la with
    | zero =>
      rw [pscan_one, pscan_one, hW, plast_shift, e1, e2]
    | succ la =>
      rw [pscan_succ, pscan_succ, hW, e1, e2, e3]
      apply ploop_shift
      · intro F L1 hF
        rw [ih]
        have e4 : d + (F - 1) = d + F - 1 := by omega
        have e5 : d + min (L1 + (la + 1)) hi = min (d + L1 + (la + 1)) (d + hi) := by omega
        rw [e4, e5]
      · omega
      · omega

/-! ## The scan with fresh rows for every call is the scan on rows that are functions -/

theorem fresh_call_spec (L : Nat) (q t : List Nat) (k la : Nat)
    (run : range → Mem → Option (Nat × Mem))
    (hrun : ∀ t1, CallSpec L q t1 k la run) : CallSpec L q t k la (fresh_call L run) := by
  intro ai lo hi bk prev m hlohi hL ht hai hq haL hmem hprev
  have hr : ({ mkR q t k la ai lo hi bk (hi + 1) (hi + 1) with
        row := ⟨false, 0⟩, row_prev := ⟨true, 0⟩ } : range)
      = mkR q (t.drop lo) k la ai 0 (hi - lo) false (hi - lo + 1) (hi - lo + 1) := by
    have e : hi + 1 - lo = hi - lo + 1 := by omega
    simp only [mkR, e, List.drop_zero, Nat.sub_zero, Bool.not_false]
  have hb : (mkR q t k la ai lo hi bk (hi + 1) (hi + 1)).row_prev.off
      + (mkR q t k la ai lo hi bk (hi + 1) (hi + 1)).length_b < L + 2 := by
    simp only [mkR]; omega
  obtain ⟨m1, hc, _⟩ := hrun (t.drop lo) ai 0 (hi - lo) false (fun j => prev (lo + j))
    (Mem.mk (fun _ => 0) (fun j =>
      if j ≤ (mkR q t k la ai lo hi bk (hi + 1) (hi + 1)).length_b then
        m.cells (mkR q t k la ai lo hi bk (hi + 1) (hi + 1)).row_prev.bank
          ((mkR q t k la ai lo hi bk (hi + 1) (hi + 1)).row_prev.off + j)
      else 0))
    (by omega) (by omega) (by rw [List.length_drop]; omega) hai hq haL
    (fun c _ hc2 => by
      have hc3 : c ≤ (mkR q t k la ai lo hi bk (hi + 1) (hi + 1)).length_b := hc2
      simp only [Mem.cells, Bool.not_false, if_true, hc3]
      exact hmem (lo + c) (by omega) (by omega))
    (fun c _ hc2 => hprev (lo + c) (by omega) (by omega))
  refine ⟨m, ?_, Frame.refl _ _ _⟩
  unfold fresh_call
  simp only [hb, if_true, hr, hc]
  have hs := pscan_shift q t k lo la ai 0 (hi - lo) prev
  have e1 : lo + 0 = lo := rfl
  have e2 : lo + (hi - lo) = hi := by omega
  rw [e1, e2] at hs
  rw [hs]

theorem process_range_fresh_succ (L fuel : Nat) (r : range) (m : Mem) :
    process_range_fresh L (fuel + 1) r m
      = match m.store L r.row 0 (of_int r.a_index) with
        | none => none
        | some m1 =>
          match process_range_loop L (fresh_call L (process_range_fresh L fuel)) r.length_b 1 r
              UINT_MAX m1 with
          | none => none
          | some st => after_loop (fresh_call L (process_range_fresh L fuel)) st := by
  conv_lhs => unfold process_range_fresh
  rcases m.store L r.row 0 (of_int r.a_index) with _ | m1
  · rfl
  · simp only
    rcases process_range_loop L (fresh_call L (process_range_fresh L fuel)) r.length_b 1 r
      UINT_MAX m1 with _ | ⟨r1, best, m2⟩
    · rfl
    · simp only [after_loop]

/-- The function `process_range` with fresh rows for every call returns what the scan on
rows that are functions returns. -/
theorem process_range_fresh_spec (L : Nat) (q : List Nat) (k : Nat)
    (hL2 : L + 2 ≤ 2147483648) :
    ∀ fuel la, 1 ≤ la → la ≤ fuel → ∀ t, CallSpec L q t k la (process_range_fresh L fuel) := by
  intro fuel
  induction fuel with
  | zero => intro la h1 h2; omega
  | succ fuel ih =>
    intro la hla1 hla2 t ai lo hi bk prev m hlohi hL ht hai hq haL hmem hprev
    rw [process_range_fresh_succ]
    have hst : m.store L (mkR q t k la ai lo hi bk (hi + 1) (hi + 1)).row 0
        (of_int (mkR q t k la ai lo hi bk (hi + 1) (hi + 1)).a_index)
        = some (m.set bk lo ai) := by
      rw [store_eq _ _ _ _ (by simp only [mkR]; omega)]
      simp only [mkR, Nat.add_zero]
      rw [of_int_natCast (by omega)]
    simp only [hst]
    have hlen : (mkR q t k la ai lo hi bk (hi + 1) (hi + 1)).length_b = hi - lo := rfl
    have h1 : lo + 1 - lo = 1 := by omega
    rw [hlen]
    have hw0 : (m.set bk lo ai).cells bk (lo + 1 - 1)
        = prow (tolower (q.getD (ai - 1) 0)) t ai lo prev (lo + 1 - 1) := by
      rw [Nat.add_sub_cancel, cells_set_same, prow_of_le _ _ _ _ _ (le_refl _)]
    have hp0 : ∀ x, lo + 1 - 1 ≤ x → x ≤ hi → (m.set bk lo ai).cells (!bk) x = prev x := by
      intro x hx1 hx2
      rw [cells_set_other]
      exact hmem x (by omega) hx2
    have hfs : Frame lo hi m (m.set bk lo ai) := Frame.set m bk lo ai (le_refl _) (by omega)
    rcases Nat.lt_or_ge la 2 with hlt | hge
    · have hla : la = 1 := by omega
      subst hla
      obtain ⟨m1, hl, hf⟩ := loop_last L (fresh_call L (process_range_fresh L fuel)) q t k ai lo
        hi bk prev ht hL hL2 (by omega) hprev (hi - lo) (lo + 1) UINT_MAX (m.set bk lo ai)
        (by omega) (by omega) hw0 hp0
      refine ⟨m1, ?_, hfs.trans hf⟩
      rw [h1] at hl
      rw [hl]
      simp only [after_loop]
      rw [has_subrange_mkR _ _ _ _ _ _ _ _ _ _ (by omega) (by omega), pscan_one]
      simp
    · obtain ⟨la1, hla⟩ : ∃ la1, la = la1 + 2 := ⟨la - 2, by omega⟩
      subst hla
      obtain ⟨st, m1, hl, ha, hf⟩ := loop_band L (fresh_call L (process_range_fresh L fuel)) q t
        k la1 ai lo hi bk prev
        (fresh_call_spec L q t k (la1 + 1) _ (ih (la1 + 1) (by omega) (by omega)))
        ht hL hL2 hai hq haL (by omega) hprev
        (hi - lo) (lo + 1) (hi + 1) (hi + 1) UINT_MAX (m.set bk lo ai) (by omega) (by omega)
        (LoopInv.init _ _ _ _ _ _) hw0 hp0 (fun h => by omega)
      refine ⟨m1, ?_, hfs.trans hf⟩
      rw [h1] at hl
      rw [hl]
      simp only [ha, pscan_succ]

/-- The entry point with fresh rows for every call returns what the entry point on rows
that are functions returns. -/
theorem match_fresh_eq_pmatch (L fuel : Nat) (m : Mem) (q : List Nat) (n : Nat) (t : List Nat)
    (lb k : Nat) (hL2 : L + 2 ≤ 2147483648) (hq : min n L ≤ q.length)
    (ht : min lb L ≤ t.length) (hfuel : min n L ≤ fuel) :
    levenshtein_substring_match_fresh L fuel m q n t lb k = some (pmatch L q n t lb k) := by
  unfold levenshtein_substring_match_fresh pmatch
  have e1 : (if n > L then L else n) = min n L := by split <;> omega
  have e2 : (if lb > L then L else lb) = min lb L := by split <;> omega
  simp only [e1, e2]
  by_cases h1 : min n L = 0
  · simp only [h1, if_true]
    split <;> rfl
  · simp only [h1, if_false]
    by_cases h2 : min lb L = 0
    · simp only [h2, if_true]
    · simp only [h2, if_false]
      by_cases h3 : min n L > uadd (min lb L) k
      · simp only [h3, if_true]
      · simp only [h3, if_false]
        obtain ⟨m1, hs, hm1⟩ := setup_initial_range_eq L q (min n L) t (min lb L) k m (by omega)
          (by omega) hL2
        obtain ⟨m2, hp, _⟩ := process_range_fresh_spec L q k hL2 fuel (min n L) (by omega) hfuel
          t 1 0 (min lb L) false (fun _ => 0) m1 (by omega) (by omega) ht (le_refl _) (by omega)
          (by omega) (fun c _ hc => hm1 c hc) (fun c _ _ => Nat.zero_lt_one)
        simp only [hs, hp]

/-! ## The scan with the record and the check is the scan, and its events are events of the scan -/

/-- The row of the scan is the row of the matrix at every column after the first of the
window, when the previous row is the row above of the matrix and, for a window that does
not start at the column `0`, the cell above the first column is over the threshold and
the cell above the next column is within it. -/
theorem prow_exact (q t : List Nat) (k ai lo hi : Nat) (prev : Nat → Nat) (hai : 1 ≤ ai)
    (ha : ∀ c, lo ≤ c → c ≤ hi → prev c = Dtab q t (ai - 1) c)
    (hb : 0 < lo → k < Dtab q t (ai - 1) lo)
    (hc : 0 < lo → prev (lo + 1) ≤ k) :
    ∀ c, lo < c → c ≤ hi →
      prow (tolower (q.getD (ai - 1) 0)) t ai lo prev c = Dtab q t ai c := by
  obtain ⟨i, rfl⟩ : ∃ i, ai = i + 1 := ⟨ai - 1, by omega⟩
  simp only [Nat.add_sub_cancel] at ha hb ⊢
  intro c
  induction c with
  | zero => intro h; omega
  | succ c ih =>
    intro h1 h2
    rw [prow_succ _ _ _ _ _ (by omega), Dtab_succ_cell, ha (c + 1) (by omega) h2,
      ha c (by omega) (by omega)]
    by_cases hlo : lo < c
    · rw [ih hlo (by omega)]
    · have hcl : c = lo := by omega
      subst hcl
      rw [prow_of_le _ _ _ _ _ (le_refl _)]
      rcases Nat.eq_zero_or_pos c with h0 | h0
      · subst h0
        simp only [Dtab_col_zero]
      · have hup : Dtab q t i (c + 1) ≤ k := by
          rw [← ha (c + 1) (by omega) h2]; exact hc h0
        have hdiag := hb h0
        have hdown := Dtab_le_down q t i c
        have hrow := Dtab_le_row q t i (c + 1)
        unfold cell
        split
        · rfl
        · rw [Nat.min_eq_left (by omega : Dtab q t i (c + 1) + 1 ≤ i + 1 + 1),
            Nat.min_eq_left (by omega : Dtab q t i (c + 1) + 1 ≤ Dtab q t (i + 1) c + 1)]

theorem child_range_mkR (q t : List Nat) (k la ai lo hi : Nat) (bk : Bool) (F Lst : Nat)
    (h1 : lo < F) (h2 : F ≤ Lst) (h3 : Lst ≤ hi) (h4 : hi + la + 2 < 4294967296)
    (h6 : 1 ≤ ai) :
    setup_no_subrange
      { ch := tolower (q.getD ai 0), a := (mkR q t k (la + 1) ai lo hi bk F Lst).a.drop 1,
        length_a := usub (mkR q t k (la + 1) ai lo hi bk F Lst).length_a 1,
        b := (mkR q t k (la + 1) ai lo hi bk F Lst).b.drop
          ((mkR q t k (la + 1) ai lo hi bk F Lst).first_match - 1),
        length_b :=
          if uadd (usub (mkR q t k (la + 1) ai lo hi bk F Lst).last_match
                (mkR q t k (la + 1) ai lo hi bk F Lst).first_match)
              (mkR q t k (la + 1) ai lo hi bk F Lst).length_a
            > uadd (usub (mkR q t k (la + 1) ai lo hi bk F Lst).length_b
                (mkR q t k (la + 1) ai lo hi bk F Lst).first_match) 1 then
            uadd (usub (mkR q t k (la + 1) ai lo hi bk F Lst).length_b
                (mkR q t k (la + 1) ai lo hi bk F Lst).first_match) 1
          else uadd (usub (mkR q t k (la + 1) ai lo hi bk F Lst).last_match
                (mkR q t k (la + 1) ai lo hi bk F Lst).first_match)
              (mkR q t k (la + 1) ai lo hi bk F Lst).length_a,
        row := ⟨(mkR q t k (la + 1) ai lo hi bk F Lst).row_prev.bank,
          (mkR q t k (la + 1) ai lo hi bk F Lst).row_prev.off
            + (mkR q t k (la + 1) ai lo hi bk F Lst).first_match - 1⟩,
        row_prev := ⟨(mkR q t k (la + 1) ai lo hi bk F Lst).row.bank,
          (mkR q t k (la + 1) ai lo hi bk F Lst).row.off
            + (mkR q t k (la + 1) ai lo hi bk F Lst).first_match - 1⟩,
        max_distance := (mkR q t k (la + 1) ai lo hi bk F Lst).max_distance,
        a_index := (mkR q t k (la + 1) ai lo hi bk F Lst).a_index + 1,
        first_match := 0, last_match := 0 }
      = mkR q t k la (ai + 1) (F - 1) (min (Lst + la) hi) (!bk)
          (min (Lst + la) hi + 1) (min (Lst + la) hi + 1) := by
  simp only [mkR, setup_no_subrange]
  rw [usub_small (by omega) (by omega), usub_small (by omega) (by omega),
    usub_small (by omega) (by omega)]
  rw [uadd_small (by omega), uadd_small (by omega)]
  have e1 : (if Lst - lo - (F - lo) + (la + 1) > hi - lo - (F - lo) + 1 then
      hi - lo - (F - lo) + 1 else Lst - lo - (F - lo) + (la + 1))
      = min (Lst + la) hi - (F - 1) := by
    split <;> omega
  rw [e1, uadd_small (by omega)]
  simp only [List.drop_drop, Bool.not_not, Nat.add_sub_cancel]
  have e2 : lo + (F - lo - 1) = F - 1 := by omega
  have e3 : ai - 1 + 1 = ai := by omega
  have e4 : lo + (F - lo) - 1 = F - 1 := by omega
  have e5 : min (Lst + la) hi - (F - 1) + 1 = min (Lst + la) hi + 1 - (F - 1) := by omega
  rw [e2, e3, e4, e5]

theorem process_subrange_log_mkR (call : range → Mem → Option (Nat × Mem × List Event))
    (m : Mem) (q t : List Nat) (k la ai lo hi : Nat) (bk : Bool) (F Lst : Nat)
    (h1 : lo < F) (h2 : F ≤ Lst) (h3 : Lst ≤ hi) (h4 : hi + la + 2 < 4294967296)
    (h5 : ai < q.length) (h6 : 1 ≤ ai) :
    process_subrange_log call (mkR q t k (la + 1) ai lo hi bk F Lst) m
      = match call (mkR q t k la (ai + 1) (F - 1) (min (Lst + la) hi) (!bk)
            (min (Lst + la) hi + 1) (min (Lst + la) hi + 1)) m with
        | none => none
        | some (res, m1, log) =>
          some (of_int (to_int res), m1,
            log ++ [Event.call (mkR q t k (la + 1) ai lo hi bk F Lst)
              (mkR q t k la (ai + 1) (F - 1) (min (Lst + la) hi) (!bk)
                (min (Lst + la) hi + 1) (min (Lst + la) hi + 1))]) := by
  unfold process_subrange_log
  have ea : ((mkR q t k (la + 1) ai lo hi bk F Lst).a.drop 1)[0]? = some (q.getD ai 0) := by
    simp only [mkR, List.drop_drop, List.getElem?_drop]
    have : ai - 1 + 1 + 0 = ai := by omega
    rw [this, List.getD_eq_getElem?_getD, List.getElem?_eq_getElem h5]
    rfl
  simp only [ea]
  rw [child_range_mkR q t k la ai lo hi bk F Lst h1 h2 h3 h4 h6]

theorem event_store_mkR (q t : List Nat) (k N H la ai lo hi : Nat) (bk : Bool)
    (F Lst c v : Nat) (h1 : lo < hi) (h2 : hi ≤ H) (h3 : 1 ≤ la) (h4 : 1 ≤ ai)
    (h5 : ai + la = N + 1) (hc1 : lo ≤ c) (hc2 : c ≤ hi)
    (hv : Approx k v (Dtab q t ai c)) (h6 : la = 1 → F = hi + 1 ∧ Lst = hi + 1)
    (h7 : lo < c → v = Dtab q t ai c) (h8 : c = lo → v = ai) :
    EventOK q t k N H (Event.store (mkR q t k la ai lo hi bk F Lst) (c - lo) v) := by
  have e : lo + (c - lo) = c := by omega
  refine ⟨la, ai, lo, hi, bk, F, Lst, rfl, h1, h2, h3, h4, h5, by omega, ?_, h6, ?_, ?_⟩
  · rw [e]; exact hv
  · intro h; rw [e]; exact h7 (by omega)
  · intro h; exact h8 (by omega)

theorem event_ok_mono {q t : List Nat} {k N H H1 : Nat} {e : Event}
    (h : EventOK q t k N H e) (hH : H ≤ H1) : EventOK q t k N H1 e := by
  cases e with
  | store r i v =>
    obtain ⟨la, ai, lo, hi, bk, F, Lst, h1, h2, h3, h4⟩ := h
    exact ⟨la, ai, lo, hi, bk, F, Lst, h1, h2, by omega, h4⟩
  | call p c =>
    obtain ⟨la, ai, lo, hi, bk, F, Lst, h1, h2, h3, h4, h5, h6, h7⟩ := h
    exact ⟨la, ai, lo, hi, bk, F, Lst, h1, h2, h3, h4, h5, by omega, h7⟩

/-- The writes of a record of events of the scan on the first `H` columns are before the
cell `bound > H`. -/
theorem writes_below_of_events (q t : List Nat) (k N H bound : Nat) (log : List Event)
    (h : ∀ e, e ∈ log → EventOK q t k N H e) (hb : H < bound) :
    writes_below bound log = true := by
  unfold writes_below
  rw [List.all_eq_true]
  intro e he
  have := h e he
  cases e with
  | store r i v =>
    obtain ⟨la, ai, lo, hi, bk, F, Lst, rfl, h2, h3, h4, h5, h6, h7, _⟩ := this
    simp only [mkR, decide_eq_true_eq]
    omega
  | call p c => rfl

theorem cells_kept_of_frame (L lo hi bound : Nat) (m m1 : Mem) (h : Frame lo hi m m1)
    (hb : hi < bound) : cells_kept L bound m m1 = true := by
  unfold cells_kept
  rw [List.all_eq_true]
  intro x _
  rw [decide_eq_true_eq]
  by_cases hx : x < bound
  · exact Or.inl hx
  · exact Or.inr ⟨h false x (Or.inr (by omega)), h true x (Or.inr (by omega))⟩

/-- The loop of `process_range_chk` in the last row. -/
theorem loop_last_chk (L : Nat) (call : range → Mem → Option (Nat × Mem × List Event))
    (q t : List Nat) (k N H ai lo hi : Nat) (bk : Bool) (prev : Nat → Nat)
    (ht : hi ≤ t.length) (hL : hi ≤ L) (hL2 : L + 2 ≤ 2147483648) (hai : ai ≤ L)
    (hlohi : lo < hi) (hH : hi ≤ H) (hai1 : 1 ≤ ai) (hN : ai + 1 = N + 1)
    (hprev : ∀ x, lo ≤ x → x ≤ hi → prev x < ai)
    (hrow : ∀ c, lo ≤ c → c ≤ hi →
      Approx k (prow (tolower (q.getD (ai - 1) 0)) t ai lo prev c) (Dtab q t ai c))
    (hrowx : ∀ c, lo < c → c ≤ hi →
      prow (tolower (q.getD (ai - 1) 0)) t ai lo prev c = Dtab q t ai c) :
    ∀ n c best m log mark, n + c = hi + 1 → lo < c → mark ≤ c - 1 →
      m.cells bk (c - 1) = prow (tolower (q.getD (ai - 1) 0)) t ai lo prev (c - 1) →
      (∀ x, c - 1 ≤ x → x ≤ hi → m.cells (!bk) x = prev x) →
      (∀ e, e ∈ log → EventOK q t k N H e) →
      ∃ m1 log1, process_range_loop_chk L call n (c - lo)
            (mkR q t k 1 ai lo hi bk (hi + 1) (hi + 1)) best m log mark
          = some (mkR q t k 1 ai lo hi bk (hi + 1) (hi + 1),
              plast hi (prow (tolower (q.getD (ai - 1) 0)) t ai lo prev) n c best, m1, log1) ∧
        Frame lo hi m m1 ∧ ∀ e, e ∈ log1 → EventOK q t k N H e := by
  intro n
  induction n with
  | zero =>
    intro c best m log mark _ _ _ _ _ hlog
    exact ⟨m, log, rfl, Frame.refl _ _ _, hlog⟩
  | succ n ih =>
    intro c best m log mark hn hlo hmark hw hp hlog
    by_cases hrun : c ≤ hi ∧ best > 0
    · have hcond : c - lo ≤ (mkR q t k 1 ai lo hi bk (hi + 1) (hi + 1)).length_b ∧ best > 0 := by
        refine ⟨?_, hrun.2⟩
        simp only [mkR]; omega
      have hlv := levenshtein_value_mkR L m q t k 1 ai lo hi bk (hi + 1) (hi + 1) c prev hlo
        hrun.1 ht hL hL2 hai (hp (c - 1) (le_refl _) (by omega)) (hp c (by omega) hrun.1) hw
        hprev
      have e2 : lo + (c - lo) = c := by omega
      have hst : m.store L (mkR q t k 1 ai lo hi bk (hi + 1) (hi + 1)).row (c - lo)
          (prow (tolower (q.getD (ai - 1) 0)) t ai lo prev c)
          = some (m.set bk c (prow (tolower (q.getD (ai - 1) 0)) t ai lo prev c)) := by
        rw [store_eq _ _ _ _ (by simp only [mkR]; omega)]
        simp only [mkR, e2]
      have hld : (m.set bk c (prow (tolower (q.getD (ai - 1) 0)) t ai lo prev c)).load L
          (mkR q t k 1 ai lo hi bk (hi + 1) (hi + 1)).row (c - lo)
          = some (prow (tolower (q.getD (ai - 1) 0)) t ai lo prev c) := by
        rw [load_eq _ _ _ (by simp only [mkR]; omega)]
        simp only [mkR, e2, cells_set_same]
      have hlast : is_in_last_row (mkR q t k 1 ai lo hi bk (hi + 1) (hi + 1)) = true := by
        simp [is_in_last_row, mkR]
      have hi1 : uadd (c - lo) 1 = c + 1 - lo := by
        rw [uadd_small (by omega)]; omega
      have hmk : mark ≤ (mkR q t k 1 ai lo hi bk (hi + 1) (hi + 1)).row.off
          + usub (c - lo) 1 := by
        rw [usub_small (by omega) (by omega)]
        simp only [mkR]; omega
      have hstep : process_range_loop_chk L call (n + 1) (c - lo)
          (mkR q t k 1 ai lo hi bk (hi + 1) (hi + 1)) best m log mark
          = process_range_loop_chk L call n (c + 1 - lo)
              (mkR q t k 1 ai lo hi bk (hi + 1) (hi + 1))
              (if prow (tolower (q.getD (ai - 1) 0)) t ai lo prev c < best then
                prow (tolower (q.getD (ai - 1) 0)) t ai lo prev c else best)
              (m.set bk c (prow (tolower (q.getD (ai - 1) 0)) t ai lo prev c))
              (Event.store (mkR q t k 1 ai lo hi bk (hi + 1) (hi + 1)) (c - lo)
                (prow (tolower (q.getD (ai - 1) 0)) t ai lo prev c) :: log) mark := by
        conv_lhs => unfold process_range_loop_chk
        simp only [hcond, and_self, if_true, hmk, hlv, hst, hlast, hld, hi1]
      obtain ⟨m1, log1, h1, h2, h3⟩ := ih (c + 1) _
        (m.set bk c (prow (tolower (q.getD (ai - 1) 0)) t ai lo prev c)) _ mark (by omega)
        (by omega) (by omega)
        (by simp only [Nat.add_sub_cancel, cells_set_same])
        (fun x hx1 hx2 => by rw [cells_set_other]; exact hp x (by omega) hx2)
        (fun e he => by
          rcases List.mem_cons.mp he with h | h
          · rw [h]
            exact event_store_mkR q t k N H 1 ai lo hi bk (hi + 1) (hi + 1) c _ hlohi hH (le_refl _) hai1 hN
              (by omega) hrun.1 (hrow c (by omega) hrun.1) (fun _ => ⟨rfl, rfl⟩)
              (fun h => hrowx c h hrun.1) (fun h => by omega)
          · exact hlog e h)
      refine ⟨m1, log1, ?_, (Frame.set m bk c _ (by omega) hrun.1).trans h2, h3⟩
      rw [hstep, h1]
      conv_rhs => unfold plast
      simp only [hrun, and_self, if_true]
    · have hcond : ¬ (c - lo ≤ (mkR q t k 1 ai lo hi bk (hi + 1) (hi + 1)).length_b ∧ best > 0) := by
        simp only [mkR]; omega
      refine ⟨m, log, ?_, Frame.refl _ _ _, hlog⟩
      conv_lhs => unfold process_range_loop_chk
      conv_rhs => unfold plast
      simp only [hcond, hrun, if_false]

/-- The call of `process_subrange_log` on the band `[F, Lst]`. -/
theorem subrange_call_log (L : Nat) (call : range → Mem → Option (Nat × Mem × List Event))
    (q t : List Nat) (k N H la ai lo hi : Nat) (bk : Bool) (W : Nat → Nat) (F Lst : Nat)
    (m : Mem) (hcall : CallSpecLog q t k N H (la + 1) call)
    (hq : N ≤ q.length) (hNL : N ≤ L) (hL : hi ≤ L) (hL2 : L + 2 ≤ 2147483648)
    (hH : hi ≤ H) (hai1 : 1 ≤ ai) (hN : ai + (la + 2) = N + 1)
    (hband : Band k (la + 2) lo hi W F Lst)
    (hW : ∀ x, F - 1 ≤ x → x ≤ hi → W x ≤ ai)
    (hrow : ∀ c, lo ≤ c → c ≤ hi → Approx k (W c) (Dtab q t ai c))
    (hrowx : ∀ c, lo < c → c ≤ hi → W c = Dtab q t ai c) (hW0 : W lo = ai)
    (hb : 0 < lo → k < Dtab q t (ai - 1) lo)
    (hleft : ∀ i, ai ≤ i → i < ai + (la + 2) → Approx k i (Dtab q t i lo))
    (hm : ∀ x, F - 1 ≤ x → x ≤ min (Lst + (la + 1)) hi → m.cells bk x = W x) :
    ∃ m1 log, process_subrange_log call (mkR q t k (la + 2) ai lo hi bk F Lst) m
        = some (pscan q t k (la + 1) (ai + 1) (F - 1) (min (Lst + (la + 1)) hi) W, m1, log) ∧
      Frame (F - 1) (min (Lst + (la + 1)) hi) m m1 ∧
      (∀ e, e ∈ log → EventOK q t k N hi e) ∧
      ∀ bound, min (Lst + (la + 1)) hi < bound → writes_below bound log = true := by
  have h1 := hband.lo_lt
  have h2 := hband.le
  have h3 := hband.le_hi
  have hF2 : 0 < lo → lo + 1 < F := by
    intro hlo
    by_contra hn
    have hF : F = lo + 1 := by omega
    have hf := hband.first
    rw [hF, hrowx (lo + 1) (by omega) (by omega)] at hf
    have hd := Dtab_diag q t (ai - 1) lo
    have e : ai - 1 + 1 = ai := by omega
    rw [e] at hd
    have := hb hlo
    omega
  rw [process_subrange_log_mkR call m q t k (la + 1) ai lo hi bk F Lst h1 h2 h3 (by omega)
    (by omega) hai1]
  obtain ⟨m1, log, hc, hf, hl⟩ := hcall (ai + 1) (F - 1) (min (Lst + (la + 1)) hi) (!bk) W m
    (by omega) (by omega) (by omega) (by omega)
    (fun c hc1 hc2 => by rw [Bool.not_not]; exact hm c hc1 hc2)
    (fun c hc1 hc2 => by have := hW c hc1 (by omega); omega)
    (fun c hc1 hc2 => by
      rw [Nat.add_sub_cancel]
      by_cases hlc : lo < c
      · exact hrowx c hlc (by omega)
      · have hcl : c = lo := by omega
        have hlo0 : lo = 0 := by
          by_contra hne
          have := hF2 (by omega)
          omega
        rw [hcl, hW0, hlo0, Dtab_col_zero])
    (fun hpos => by
      rw [Nat.add_sub_cancel]
      by_cases hlF : lo < F - 1
      · rw [← hrowx (F - 1) hlF (by omega)]
        exact hband.before (F - 1) hlF (by omega) (by omega)
      · have := hF2 (by omega)
        omega)
    (fun _ => by
      have e : F - 1 + 1 = F := by omega
      rw [e]; exact hband.first)
    (left_edge_band q t k la ai lo hi W F Lst hrow hleft hband)
  refine ⟨m1, log ++ [Event.call (mkR q t k (la + 2) ai lo hi bk F Lst)
    (mkR q t k (la + 1) (ai + 1) (F - 1) (min (Lst + (la + 1)) hi) (!bk)
      (min (Lst + (la + 1)) hi + 1) (min (Lst + (la + 1)) hi + 1))], ?_, hf, ?_, ?_⟩
  · rw [hc]
    have hlt := pscan_le_UINT_MAX q t k (la + 1) (ai + 1) (F - 1) (min (Lst + (la + 1)) hi) W
      (by omega) (by omega) (fun c hc1 hc2 => by have := hW c hc1 (by omega); omega) (by omega)
    simp only [of_int_to_int hlt]
  · intro e he
    rcases List.mem_append.mp he with h | h
    · exact event_ok_mono (hl e h) (by omega)
    · rw [List.mem_singleton.mp h]
      exact ⟨la, ai, lo, hi, bk, F, Lst, rfl, rfl, h1, h2, h3, le_refl _, hai1, hN⟩
  · intro bound hbound
    have h4 := writes_below_of_events q t k N _ bound log hl hbound
    unfold writes_below at h4 ⊢
    rw [List.all_append, h4]
    rfl

/-- What `process_range_chk` does after its loop, above the last row. -/
theorem after_loop_band_log (L : Nat) (call : range → Mem → Option (Nat × Mem × List Event))
    (q t : List Nat) (k N H la ai lo hi : Nat) (bk : Bool) (prev : Nat → Nat)
    (hcall : CallSpecLog q t k N H (la + 1) call)
    (hq : N ≤ q.length) (hNL : N ≤ L) (hL : hi ≤ L) (hL2 : L + 2 ≤ 2147483648)
    (hH : hi ≤ H) (hai1 : 1 ≤ ai) (hN : ai + (la + 2) = N + 1) (hlohi : lo ≤ hi)
    (hprev : ∀ x, lo ≤ x → x ≤ hi → prev x < ai)
    (hrow : ∀ c, lo ≤ c → c ≤ hi →
      Approx k (prow (tolower (q.getD (ai - 1) 0)) t ai lo prev c) (Dtab q t ai c))
    (hrowx : ∀ c, lo < c → c ≤ hi →
      prow (tolower (q.getD (ai - 1) 0)) t ai lo prev c = Dtab q t ai c)
    (hb : 0 < lo → k < Dtab q t (ai - 1) lo)
    (hleft : ∀ i, ai ≤ i → i < ai + (la + 2) → Approx k i (Dtab q t i lo))
    (c F Lst best : Nat) (m : Mem) (log : List Event) (hc : c ≤ hi + 1)
    (hinv : LoopInv k (la + 2) lo hi (prow (tolower (q.getD (ai - 1) 0)) t ai lo prev) c F Lst
      best)
    (hstop : ¬ (c ≤ hi ∧ best > 0))
    (hm : F ≤ hi → ∀ x, F - 1 ≤ x → x < c →
      m.cells bk x = prow (tolower (q.getD (ai - 1) 0)) t ai lo prev x)
    (hlog : ∀ e, e ∈ log → EventOK q t k N hi e) :
    ∃ m1 log1, after_loop_log call (mkR q t k (la + 2) ai lo hi bk F Lst, best, m, log)
        = some (if F ≤ hi then
              (if pscan q t k (la + 1) (ai + 1) (F - 1) (min (Lst + (la + 1)) hi)
                    (prow (tolower (q.getD (ai - 1) 0)) t ai lo prev) < best then
                  pscan q t k (la + 1) (ai + 1) (F - 1) (min (Lst + (la + 1)) hi)
                    (prow (tolower (q.getD (ai - 1) 0)) t ai lo prev)
                else best)
            else best, m1, log1) ∧
      Frame lo hi m m1 ∧ ∀ e, e ∈ log1 → EventOK q t k N hi e := by
  unfold after_loop_log
  simp only
  rw [has_subrange_mkR _ _ _ _ _ _ _ _ _ _ hlohi (by have := hinv.lo_le hlohi; omega)]
  by_cases hF : F ≤ hi
  · have hfl := hinv.first_le hF
    have hc1 : c = hi + 1 := by omega
    obtain ⟨m1, log1, hs, hf, hl, _⟩ := subrange_call_log L call q t k N H la ai lo hi bk
      (prow (tolower (q.getD (ai - 1) 0)) t ai lo prev) F Lst m hcall hq hNL hL hL2 hH hai1 hN
      (hinv.exit hc1 hF)
      (fun x _ hx2 => prow_le _ t ai lo hi prev hprev x hx2) hrow hrowx
      (prow_of_le _ _ _ _ _ (le_refl _)) hb hleft
      (fun x hx1 hx2 => hm hF x hx1 (by omega))
    refine ⟨m1, log1 ++ log, ?_, hf.mono (by omega) (by omega), ?_⟩
    · simp only [hF, decide_True, if_true, hs]
    · intro e he
      rcases List.mem_append.mp he with h | h
      · exact hl e h
      · exact hlog e h
  · exact ⟨m, log, by simp only [hF, decide_False, if_false, Bool.false_eq_true],
      Frame.refl _ _ _, hlog⟩

/-- The loop of `process_range_chk` above the last row, with the call after the loop: the
checks hold. -/
theorem loop_band_chk (L : Nat) (call : range → Mem → Option (Nat × Mem × List Event))
    (q t : List Nat) (k N H la ai lo hi : Nat) (bk : Bool) (prev : Nat → Nat)
    (hcall : CallSpecLog q t k N H (la + 1) call)
    (hq : N ≤ q.length) (hNL : N ≤ L) (ht : hi ≤ t.length) (hL : hi ≤ L)
    (hL2 : L + 2 ≤ 2147483648) (hH : hi ≤ H) (hai1 : 1 ≤ ai) (hN : ai + (la + 2) = N + 1)
    (hlohi : lo < hi) (hprev : ∀ x, lo ≤ x → x ≤ hi → prev x < ai)
    (hrow : ∀ c, lo ≤ c → c ≤ hi →
      Approx k (prow (tolower (q.getD (ai - 1) 0)) t ai lo prev c) (Dtab q t ai c))
    (hrowx : ∀ c, lo < c → c ≤ hi →
      prow (tolower (q.getD (ai - 1) 0)) t ai lo prev c = Dtab q t ai c)
    (hb : 0 < lo → k < Dtab q t (ai - 1) lo)
    (hleft : ∀ i, ai ≤ i → i < ai + (la + 2) → Approx k i (Dtab q t i lo)) :
    ∀ n c F Lst best m log mark, n + c = hi + 1 → lo < c → mark ≤ c - 1 →
      LoopInv k (la + 2) lo hi (prow (tolower (q.getD (ai - 1) 0)) t ai lo prev) c F Lst best →
      m.cells bk (c - 1) = prow (tolower (q.getD (ai - 1) 0)) t ai lo prev (c - 1) →
      (∀ x, c - 1 ≤ x → x ≤ hi → m.cells (!bk) x = prev x) →
      (F ≤ hi → ∀ x, F - 1 ≤ x → x < c →
        m.cells bk x = prow (tolower (q.getD (ai - 1) 0)) t ai lo prev x) →
      (∀ e, e ∈ log → EventOK q t k N hi e) →
      ∃ st m1 log1, process_range_loop_chk L call n (c - lo)
            (mkR q t k (la + 2) ai lo hi bk F Lst) best m log mark = some st ∧
        after_loop_log call st
          = some (ploop k (la + 2) hi (prow (tolower (q.getD (ai - 1) 0)) t ai lo prev)
              (fun F Lst => pscan q t k (la + 1) (ai + 1) (F - 1) (min (Lst + (la + 1)) hi)
                (prow (tolower (q.getD (ai - 1) 0)) t ai lo prev)) n c F Lst best, m1, log1) ∧
        Frame lo hi m m1 ∧ ∀ e, e ∈ log1 → EventOK q t k N hi e := by
  intro n
  induction n with
  | zero =>
    intro c F Lst best m log mark hn hlo hmark hinv hw hp hm hlog
    obtain ⟨m1, log1, h1, h2, h3⟩ := after_loop_band_log L call q t k N H la ai lo hi bk prev
      hcall hq hNL hL hL2 hH hai1 hN (by omega) hprev hrow hrowx hb hleft c F Lst best m log
      (by omega)
      hinv (by omega) hm hlog
    refine ⟨_, m1, log1, rfl, ?_, h2, h3⟩
    rw [h1, ploop_stop _ _ _ _ _ _ _ _ _ _ (Or.inl rfl)]
  | succ n ih =>
    intro c F Lst best m log mark hn hlo hmark hinv hw hp hm hlog
    by_cases hrun : c ≤ hi ∧ best > 0
    · have hcond : c - lo ≤ (mkR q t k (la + 2) ai lo hi bk F Lst).length_b ∧ best > 0 := by
        refine ⟨?_, hrun.2⟩
        simp only [mkR]; omega
      have hlv := levenshtein_value_mkR L m q t k (la + 2) ai lo hi bk F Lst c prev hlo
        hrun.1 ht hL hL2 (by omega) (hp (c - 1) (le_refl _) (by omega))
        (hp c (by omega) hrun.1) hw hprev
      have e2 : lo + (c - lo) = c := by omega
      have hst : m.store L (mkR q t k (la + 2) ai lo hi bk F Lst).row (c - lo)
          (prow (tolower (q.getD (ai - 1) 0)) t ai lo prev c)
          = some (m.set bk c (prow (tolower (q.getD (ai - 1) 0)) t ai lo prev c)) := by
        rw [store_eq _ _ _ _ (by simp only [mkR]; omega)]
        simp only [mkR, e2]
      have hlast : is_in_last_row (mkR q t k (la + 2) ai lo hi bk F Lst) = false := by
        simp [is_in_last_row, mkR]
      have hmk : mark ≤ (mkR q t k (la + 2) ai lo hi bk F Lst).row.off + usub (c - lo) 1 := by
        rw [usub_small (by omega) (by omega)]
        simp only [mkR]; omega
      have hi1 : uadd (c - lo) 1 = c + 1 - lo := by
        rw [uadd_small (by omega)]; omega
      have hlo2 := hinv.lo_le (by omega : lo ≤ hi)
      have hll := hinv.last_le (by omega : c ≤ hi + 1)
      have hW0 : prow (tolower (q.getD (ai - 1) 0)) t ai lo prev lo = ai :=
        prow_of_le _ _ _ _ _ (le_refl _)
      generalize hWdef : prow (tolower (q.getD (ai - 1) 0)) t ai lo prev = W at *
      have hev : ∀ e, e ∈ Event.store (mkR q t k (la + 2) ai lo hi bk F Lst) (c - lo) (W c) :: log
          → EventOK q t k N hi e := by
        intro e he
        rcases List.mem_cons.mp he with h | h
        · rw [h]
          exact event_store_mkR q t k N hi (la + 2) ai lo hi bk F Lst c _ hlohi (le_refl _)
            (by omega) hai1 hN (by omega) hrun.1 (hrow c (by omega) hrun.1) (fun h => by omega)
            (fun h => hrowx c h hrun.1) (fun h => by omega)
        · exact hlog e h
      have hup := update_subrange_mkR L (m.set bk c (W c)) q t k (la + 2) ai lo hi bk F Lst c
        (W c) hlo hrun.1 hL (by omega) (cells_set_same _ _ _ _)
      have hL1 : lo ≤ (if W c ≤ k then c else Lst) := by split <;> omega
      have hL1b : (if W c ≤ k then c else Lst) + (la + 2) < 4294967296 := by split <;> omega
      have hbe := is_beyond_subrange_mkR q t k (la + 2) ai lo hi bk
        (if W c ≤ k then (if F ≤ hi then F else c) else F) (if W c ≤ k then c else Lst) c
        hL1 hlo hL1b
      have hWle : ∀ x, x ≤ hi → W x ≤ ai := by
        intro x hx
        rw [← hWdef]
        exact prow_le _ t ai lo hi prev hprev x hx
      by_cases hcl : c > (if W c ≤ k then c else Lst) + (la + 2)
      · obtain ⟨hband, hwc, hF, _⟩ := hinv.step_close hlo hrun.1 hcl 0
        simp only [hwc, if_false] at hband hcl hup hbe
        obtain ⟨m2, log2, hs, hf, hl2, hwb⟩ := subrange_call_log L call q t k N H la ai lo hi bk
          W F Lst (m.set bk c (W c)) hcall hq hNL hL hL2 hH hai1 hN hband
          (fun x _ hx2 => hWle x hx2) hrow hrowx hW0 hb hleft
          (fun x hx1 hx2 => by
            rw [cells_set_ne _ _ _ _ _ (by omega)]
            exact hm hF x hx1 (by omega))
        have hchk1 : writes_below c log2 = true := hwb c (by omega)
        have hchk2 : cells_kept L c (m.set bk c (W c)) m2 = true :=
          cells_kept_of_frame L _ _ c _ _ hf (by omega)
        have hoff : (mkR q t k (la + 2) ai lo hi bk F Lst).row.off + (c - lo) = c := by
          simp only [mkR]; omega
        obtain ⟨best1, hb1⟩ : ∃ b,
            (if pscan q t k (la + 1) (ai + 1) (F - 1) (min (Lst + (la + 1)) hi) W < best
            then pscan q t k (la + 1) (ai + 1) (F - 1) (min (Lst + (la + 1)) hi) W else best)
            = b := ⟨_, rfl⟩
        have hcl1 : c > (if W c ≤ k then c else Lst) + (la + 2) := by
          simp only [hwc, if_false]; exact hcl
        obtain ⟨_, _, _, hinv1⟩ := hinv.step_close hlo hrun.1 hcl1 best1
        have hstep : process_range_loop_chk L call (n + 1) (c - lo)
            (mkR q t k (la + 2) ai lo hi bk F Lst) best m log mark
            = process_range_loop_chk L call n (c + 1 - lo)
                (mkR q t k (la + 2) ai lo hi bk (hi + 1) (hi + 1)) best1 m2
                (log2 ++ Event.store (mkR q t k (la + 2) ai lo hi bk F Lst) (c - lo) (W c)
                  :: log) c := by
          conv_lhs => unfold process_range_loop_chk
          simp only [hcond, and_self, if_true, hmk, hlv, hst, hlast, hup, hbe, hcl, decide_True,
            hs, hi1, Bool.false_eq_true, if_false, hoff, hchk1, hchk2]
          rw [setup_no_subrange_mkR _ _ _ _ _ _ _ _ _ _ (by omega) (by omega), hb1]
        obtain ⟨st, m3, log3, h1, h2, h3, h4⟩ := ih (c + 1) (hi + 1) (hi + 1) best1 m2
          (log2 ++ Event.store (mkR q t k (la + 2) ai lo hi bk F Lst) (c - lo) (W c) :: log) c
          (by omega) (by omega) (by omega) hinv1
          (by
            rw [Nat.add_sub_cancel, hf bk c (Or.inr (by omega)), cells_set_same])
          (fun x hx1 hx2 => by
            rw [hf (!bk) x (Or.inr (by omega)), cells_set_other]
            exact hp x (by omega) hx2)
          (fun h => by omega)
          (fun e he => by
            rcases List.mem_append.mp he with h | h
            · exact hl2 e h
            · exact hev e h)
        refine ⟨st, m3, log3, ?_, ?_, ?_, h4⟩
        · rw [hstep, h1]
        · rw [h2, ploop_run _ _ _ _ _ _ _ _ _ _ hrun]
          simp only [hwc, if_false, hcl, if_true, hb1]
        · exact ((Frame.set m bk c _ (by omega) hrun.1).trans
            (hf.mono (by omega) (by omega))).trans h3
      · have hinv1 := hinv.step_open hlo hrun.1 hrun.2 hcl
        have hstep : process_range_loop_chk L call (n + 1) (c - lo)
            (mkR q t k (la + 2) ai lo hi bk F Lst) best m log mark
            = process_range_loop_chk L call n (c + 1 - lo)
                (mkR q t k (la + 2) ai lo hi bk
                  (if W c ≤ k then (if F ≤ hi then F else c) else F)
                  (if W c ≤ k then c else Lst)) best (m.set bk c (W c))
                (Event.store (mkR q t k (la + 2) ai lo hi bk F Lst) (c - lo) (W c) :: log)
                mark := by
          conv_lhs => unfold process_range_loop_chk
          simp only [hcond, and_self, if_true, hmk, hlv, hst, hlast, hup, hbe, hcl, decide_False,
            hi1, Bool.false_eq_true, if_false]
        obtain ⟨st, m3, log3, h1, h2, h3, h4⟩ := ih (c + 1) _ _ best (m.set bk c (W c))
          (Event.store (mkR q t k (la + 2) ai lo hi bk F Lst) (c - lo) (W c) :: log) mark
          (by omega) (by omega) (by omega) hinv1
          (by rw [Nat.add_sub_cancel, cells_set_same])
          (fun x hx1 hx2 => by
            rw [cells_set_other]
            exact hp x (by omega) hx2)
          (fun hF1 x hx1 hx2 => by
            by_cases hxc : x = c
            · subst hxc; rw [cells_set_same]
            · rw [cells_set_ne _ _ _ _ _ hxc]
              by_cases hF : F ≤ hi
              · have e1 : (if W c ≤ k then (if F ≤ hi then F else c) else F) = F := by
                  split
                  · simp only [hF, if_true]
                  · rfl
                rw [e1] at hx1
                exact hm hF x hx1 (by omega)
              · have e1 : (if W c ≤ k then (if F ≤ hi then F else c) else F) = c := by
                  split
                  · simp only [hF, if_false]
                  · rename_i hwk
                    simp only [hwk, if_false] at hF1
                    omega
                rw [e1] at hx1
                have : x = c - 1 := by omega
                rw [this]
                exact hw)
          hev
        refine ⟨st, m3, log3, ?_, ?_, ?_, h4⟩
        · rw [hstep, h1]
        · rw [h2, ploop_run _ _ _ _ _ _ _ _ _ _ hrun]
          simp only [hcl, if_false]
        · exact (Frame.set m bk c _ (by omega) hrun.1).trans h3
    · have hcond : ¬ (c - lo ≤ (mkR q t k (la + 2) ai lo hi bk F Lst).length_b ∧ best > 0) := by
        simp only [mkR]; omega
      obtain ⟨m1, log1, h1, h2, h3⟩ := after_loop_band_log L call q t k N H la ai lo hi bk prev
        hcall hq hNL hL hL2 hH hai1 hN (by omega) hprev hrow hrowx hb hleft c F Lst best m log
        (by omega)
        hinv hrun hm hlog
      refine ⟨(mkR q t k (la + 2) ai lo hi bk F Lst, best, m, log), m1, log1, ?_, ?_, h2, h3⟩
      · conv_lhs => unfold process_range_loop_chk
        simp only [hcond, if_false]
      · rw [h1, ploop_stop _ _ _ _ _ _ _ _ _ _ (Or.inr hrun)]

theorem process_range_chk_succ (L fuel : Nat) (r : range) (m : Mem) :
    process_range_chk L (fuel + 1) r m
      = match m.store L r.row 0 (of_int r.a_index) with
        | none => none
        | some m1 =>
          match process_range_loop_chk L (process_range_chk L fuel) r.length_b 1 r UINT_MAX m1
              [Event.store r 0 (of_int r.a_index)] 0 with
          | none => none
          | some st => after_loop_log (process_range_chk L fuel) st := by
  conv_lhs => unfold process_range_chk
  rcases m.store L r.row 0 (of_int r.a_index) with _ | m1
  · rfl
  · simp only
    rcases process_range_loop_chk L (process_range_chk L fuel) r.length_b 1 r UINT_MAX m1
      [Event.store r 0 (of_int r.a_index)] 0 with _ | ⟨r1, best, m2, log⟩
    · rfl
    · simp only [after_loop_log]

/-- The function `process_range_chk` returns what the scan on rows that are functions
returns: the checks hold at every depth.  It writes inside its window
only, and every event of its record is an event of the scan: a write of `a_index` at the
column `0` of a window and of the cell of the matrix at every other column, or a call on
the window of a band. -/
theorem process_range_chk_spec (L : Nat) (q t : List Nat) (k N H : Nat)
    (hL2 : L + 2 ≤ 2147483648) (hq : N ≤ q.length) (hNL : N ≤ L) (hHL : H ≤ L)
    (hHt : H ≤ t.length) :
    ∀ fuel la, 1 ≤ la → la ≤ fuel → CallSpecLog q t k N H la (process_range_chk L fuel) := by
  intro fuel
  induction fuel with
  | zero => intro la h1 h2; omega
  | succ fuel ih =>
    intro la hla1 hla2 ai lo hi bk prev m hlohi hH hai hN hmem hprev hpx hb hc hleft
    rw [process_range_chk_succ]
    have hai0 : of_int (mkR q t k la ai lo hi bk (hi + 1) (hi + 1)).a_index = ai := by
      simp only [mkR]
      rw [of_int_natCast (by omega)]
    have hst : m.store L (mkR q t k la ai lo hi bk (hi + 1) (hi + 1)).row 0 ai
        = some (m.set bk lo ai) := by
      rw [store_eq _ _ _ _ (by simp only [mkR]; omega)]
      simp only [mkR, Nat.add_zero]
    simp only [hai0, hst]
    have hlen : (mkR q t k la ai lo hi bk (hi + 1) (hi + 1)).length_b = hi - lo := rfl
    have h1 : lo + 1 - lo = 1 := by omega
    rw [hlen]
    have hw0 : (m.set bk lo ai).cells bk (lo + 1 - 1)
        = prow (tolower (q.getD (ai - 1) 0)) t ai lo prev (lo + 1 - 1) := by
      rw [Nat.add_sub_cancel, cells_set_same, prow_of_le _ _ _ _ _ (le_refl _)]
    have hp0 : ∀ x, lo + 1 - 1 ≤ x → x ≤ hi → (m.set bk lo ai).cells (!bk) x = prev x := by
      intro x hx1 hx2
      rw [cells_set_other]
      exact hmem x (by omega) hx2
    have hfs : Frame lo hi m (m.set bk lo ai) := Frame.set m bk lo ai (le_refl _) (by omega)
    have hpok : ∀ c, lo ≤ c → c ≤ hi → Approx k (prev c) (Dtab q t (ai - 1) c) := by
      intro c hc1 hc2
      rw [hpx c hc1 hc2]
      exact Approx.same _ _
    have hrow := prow_approx q t k ai lo hi prev hai hpok (hleft ai (le_refl _) (by omega))
    have hrowx := prow_exact q t k ai lo hi prev hai hpx hb hc
    have hlog0 : ∀ e, e ∈ [Event.store (mkR q t k la ai lo hi bk (hi + 1) (hi + 1)) 0 ai] →
        EventOK q t k N hi e := by
      intro e he
      rw [List.mem_singleton.mp he]
      have h := event_store_mkR q t k N hi la ai lo hi bk (hi + 1) (hi + 1) lo ai hlohi
        (le_refl _) hla1 hai hN (le_refl _) (by omega) (hleft ai (le_refl _) (by omega))
        (fun _ => ⟨rfl, rfl⟩) (fun h => by omega) (fun _ => rfl)
      rw [Nat.sub_self] at h
      exact h
    rcases Nat.lt_or_ge la 2 with hlt | hge
    · have hla : la = 1 := by omega
      subst hla
      obtain ⟨m1, log1, hl, hf, hev⟩ := loop_last_chk L (process_range_chk L fuel) q t k N hi ai
        lo hi bk prev (by omega) (by omega) hL2 (by omega) hlohi (le_refl _) hai hN hprev hrow
        hrowx (hi - lo) (lo + 1) UINT_MAX (m.set bk lo ai) _ 0 (by omega) (by omega)
        (Nat.zero_le _) hw0 hp0 hlog0
      refine ⟨m1, log1, ?_, hfs.trans hf, hev⟩
      rw [h1] at hl
      rw [hl]
      simp only [after_loop_log]
      rw [has_subrange_mkR _ _ _ _ _ _ _ _ _ _ (by omega) (by omega), pscan_one]
      simp
    · obtain ⟨la1, hla⟩ : ∃ la1, la = la1 + 2 := ⟨la - 2, by omega⟩
      subst hla
      obtain ⟨st, m1, log1, hl, ha, hf, hev⟩ := loop_band_chk L (process_range_chk L fuel) q t k
        N H la1 ai lo hi bk prev (ih (la1 + 1) (by omega) (by omega)) hq hNL (by omega)
        (by omega) hL2 hH hai hN hlohi hprev hrow hrowx hb hleft
        (hi - lo) (lo + 1) (hi + 1) (hi + 1) UINT_MAX (m.set bk lo ai) _ 0 (by omega) (by omega)
        (Nat.zero_le _) (LoopInv.init _ _ _ _ _ _) hw0 hp0 (fun h => by omega) hlog0
      refine ⟨m1, log1, ?_, hfs.trans hf, hev⟩
      rw [h1] at hl
      rw [hl]
      simp only [ha, pscan_succ]

/-- The entry point with the record and the checks returns what the entry point on rows
that are functions returns, and every event of its record is an event of the scan of the
clamped text for the clamped query. -/
theorem match_chk_spec (L fuel : Nat) (m : Mem) (q : List Nat) (n : Nat) (t : List Nat)
    (lb k : Nat) (hL2 : L + 2 ≤ 2147483648) (hq : min n L ≤ q.length)
    (ht : min lb L ≤ t.length) (hfuel : min n L ≤ fuel) :
    ∃ log, levenshtein_substring_match_chk L fuel m q n t lb k
        = some (pmatch L q n t lb k, log) ∧
      ∀ e, e ∈ log → EventOK q t k (min n L) (min lb L) e := by
  unfold levenshtein_substring_match_chk pmatch
  have e1 : (if n > L then L else n) = min n L := by split <;> omega
  have e2 : (if lb > L then L else lb) = min lb L := by split <;> omega
  simp only [e1, e2]
  by_cases h1 : min n L = 0
  · simp only [h1, if_true]
    split
    · exact ⟨[], rfl, fun e he => absurd he (List.not_mem_nil e)⟩
    · exact ⟨[], rfl, fun e he => absurd he (List.not_mem_nil e)⟩
  · simp only [h1, if_false]
    by_cases h2 : min lb L = 0
    · simp only [h2, if_true]
      exact ⟨[], rfl, fun e he => absurd he (List.not_mem_nil e)⟩
    · simp only [h2, if_false]
      by_cases h3 : min n L > uadd (min lb L) k
      · simp only [h3, if_true]
        exact ⟨[], rfl, fun e he => absurd he (List.not_mem_nil e)⟩
      · simp only [h3, if_false]
        obtain ⟨m1, hs, hm1⟩ := setup_initial_range_eq L q (min n L) t (min lb L) k m (by omega)
          (by omega) hL2
        obtain ⟨m2, log, hp, _, hev⟩ := process_range_chk_spec L q t k (min n L) (min lb L) hL2
          hq (Nat.min_le_right _ _) (Nat.min_le_right _ _) ht fuel (min n L) (by omega) hfuel 1
          0 (min lb L) false (fun _ => 0) m1 (by omega) (le_refl _) (le_refl _) (by omega)
          (fun c _ hc => hm1 c hc) (fun c _ _ => Nat.zero_lt_one)
          (fun c _ _ => rfl) (fun h => absurd h (Nat.lt_irrefl 0))
          (fun h => absurd h (Nat.lt_irrefl 0))
          (fun i _ _ => by rw [Dtab_col_zero]; exact ⟨le_refl _, fun _ => rfl⟩)
        exact ⟨log, by simp only [hs, hp], hev⟩

/-! ## The checks change nothing: what the checked scan returns, the scan with the record
returns -/

theorem process_subrange_log_sim (cchk clog : range → Mem → Option (Nat × Mem × List Event))
    (h : ∀ r m, cchk r m = none ∨ cchk r m = clog r m) (r : range) (m : Mem) :
    process_subrange_log cchk r m = none ∨
      process_subrange_log cchk r m = process_subrange_log clog r m := by
  unfold process_subrange_log
  simp only
  rcases (r.a.drop 1)[0]? with _ | c
  · exact Or.inl rfl
  · simp only
    rcases h (setup_no_subrange
        { ch := tolower c, a := r.a.drop 1, length_a := usub r.length_a 1,
          b := r.b.drop (r.first_match - 1),
          length_b :=
            if uadd (usub r.last_match r.first_match) r.length_a
                > uadd (usub r.length_b r.first_match) 1 then
              uadd (usub r.length_b r.first_match) 1
            else uadd (usub r.last_match r.first_match) r.length_a,
          row := ⟨r.row_prev.bank, r.row_prev.off + r.first_match - 1⟩,
          row_prev := ⟨r.row.bank, r.row.off + r.first_match - 1⟩,
          max_distance := r.max_distance, a_index := r.a_index + 1,
          first_match := 0, last_match := 0 }) m with h1 | h1
    · rw [h1]; exact Or.inl rfl
    · rw [h1]; exact Or.inr rfl

theorem process_range_loop_chk_sim (L : Nat)
    (cchk clog : range → Mem → Option (Nat × Mem × List Event))
    (h : ∀ r m, cchk r m = none ∨ cchk r m = clog r m) :
    ∀ n i r best m log mark,
      process_range_loop_chk L cchk n i r best m log mark = none ∨
        process_range_loop_chk L cchk n i r best m log mark
          = process_range_loop_log L clog n i r best m log := by
  intro n
  induction n with
  | zero => intro i r best m log mark; exact Or.inr rfl
  | succ n ih =>
    intro i r best m log mark
    unfold process_range_loop_chk process_range_loop_log
    by_cases hc : i ≤ r.length_b ∧ best > 0
    · simp only [hc, and_self, if_true]
      by_cases hmk : mark ≤ r.row.off + usub i 1
      swap
      · simp only [hmk, if_false]
        exact Or.inl trivial
      simp only [hmk, if_true]
      rcases levenshtein_value L m r i with _ | v
      · exact Or.inl rfl
      · simp only
        rcases m.store L r.row i v with _ | m1
        · exact Or.inl rfl
        · simp only
          by_cases hl : is_in_last_row r = true
          · simp only [hl, if_true]
            rcases m1.load L r.row i with _ | x
            · exact Or.inl rfl
            · exact ih _ _ _ _ _ _
          · simp only [hl, Bool.false_eq_true, if_false]
            rcases update_subrange L m1 r i with _ | r1
            · exact Or.inl rfl
            · simp only
              by_cases hb : is_beyond_subrange r1 i = true
              · simp only [hb, if_true]
                rcases process_subrange_log_sim cchk clog h r1 m1 with h1 | h1
                · rw [h1]; exact Or.inl rfl
                · rw [h1]
                  rcases process_subrange_log clog r1 m1 with _ | ⟨sub, m2, log2⟩
                  · exact Or.inl rfl
                  · simp only
                    by_cases hk : writes_below (r1.row.off + i) log2 = true ∧
                        cells_kept L (r1.row.off + i) m1 m2 = true
                    · simp only [hk, and_self, if_true]
                      exact ih _ _ _ _ _ _
                    · simp only [hk, if_false]
                      exact Or.inl trivial
              · simp only [hb, Bool.false_eq_true, if_false]
                exact ih _ _ _ _ _ _
    · simp only [hc, if_false]
      exact Or.inr trivial

theorem process_range_chk_sim (L : Nat) :
    ∀ fuel r m, process_range_chk L fuel r m = none ∨
      process_range_chk L fuel r m = process_range_log L fuel r m := by
  intro fuel
  induction fuel with
  | zero => intro r m; exact Or.inl rfl
  | succ fuel ih =>
    intro r m
    unfold process_range_chk process_range_log
    rcases m.store L r.row 0 (of_int r.a_index) with _ | m1
    · exact Or.inl rfl
    · simp only
      rcases process_range_loop_chk_sim L (process_range_chk L fuel) (process_range_log L fuel) ih
        r.length_b 1 r UINT_MAX m1 [Event.store r 0 (of_int r.a_index)] 0 with h1 | h1
      · rw [h1]; exact Or.inl rfl
      · rw [h1]
        rcases process_range_loop_log L (process_range_log L fuel) r.length_b 1 r UINT_MAX m1
          [Event.store r 0 (of_int r.a_index)] with _ | ⟨r1, best, m2, log⟩
        · exact Or.inl rfl
        · simp only
          by_cases hh : has_subrange r1 = true
          · simp only [hh, if_true]
            rcases process_subrange_log_sim (process_range_chk L fuel) (process_range_log L fuel)
              ih r1 m2 with h2 | h2
            · rw [h2]; exact Or.inl rfl
            · rw [h2]; exact Or.inr rfl
          · simp only [hh, Bool.false_eq_true, if_false]
            exact Or.inr trivial

/-- The entry point with the record and the checks fails or returns what the entry point
with the record returns: it is the same scan, with the checks. -/
theorem match_chk_sim (L fuel : Nat) (m : Mem) (a : List Nat) (length_a : Nat)
    (b : List Nat) (length_b max_distance : Nat) :
    levenshtein_substring_match_chk L fuel m a length_a b length_b max_distance = none ∨
      levenshtein_substring_match_chk L fuel m a length_a b length_b max_distance
        = levenshtein_substring_match_log L fuel m a length_a b length_b max_distance := by
  unfold levenshtein_substring_match_chk levenshtein_substring_match_log
  simp only
  generalize (if length_a > L then L else length_a) = la
  generalize (if length_b > L then L else length_b) = lb
  by_cases h1 : la = 0
  · simp only [h1, if_true]
    exact Or.inr trivial
  · simp only [h1, if_false]
    by_cases h2 : lb = 0
    · simp only [h2, if_true]
      exact Or.inr trivial
    · simp only [h2, if_false]
      by_cases h3 : la > uadd lb max_distance
      · simp only [h3, if_true]
        exact Or.inr trivial
      · simp only [h3, if_false]
        rcases setup_initial_range L a la b lb max_distance m with _ | ⟨initial, m1⟩
        · exact Or.inl rfl
        · simp only
          rcases process_range_chk_sim L fuel initial m1 with hp | hp
          · rw [hp]; exact Or.inl rfl
          · rw [hp]; exact Or.inr rfl

/-- The entry point with the record returns what the entry point on rows that are
functions returns, and every event of its record is an event of the scan of the clamped
text for the clamped query. -/
theorem match_log_spec (L fuel : Nat) (m : Mem) (q : List Nat) (n : Nat) (t : List Nat)
    (lb k : Nat) (hL2 : L + 2 ≤ 2147483648) (hq : min n L ≤ q.length)
    (ht : min lb L ≤ t.length) (hfuel : min n L ≤ fuel) :
    ∃ log, levenshtein_substring_match_log L fuel m q n t lb k
        = some (pmatch L q n t lb k, log) ∧
      ∀ e, e ∈ log → EventOK q t k (min n L) (min lb L) e := by
  obtain ⟨log, h1, h2⟩ := match_chk_spec L fuel m q n t lb k hL2 hq ht hfuel
  refine ⟨log, ?_, h2⟩
  rcases match_chk_sim L fuel m q n t lb k with h | h
  · rw [h] at h1
    exact absurd h1 (by simp)
  · rw [← h]; exact h1

/-- The cell of the matrix is the least distance of the prefix of the query to a
substring of the text that ends at the column. -/
theorem Dtab_eq_dist_ending (q t : List Nat) (i c : Nat) (hi : i ≤ q.length)
    (hc : c ≤ t.length) : Dtab q t i c = dist_ending q t i c := by
  apply Nat.le_antisymm
  · unfold dist_ending
    rcases least_mem (lev (q.take i) [])
      ((List.range (c + 1)).map (fun s => lev (q.take i) ((t.take c).drop s))) with h | h
    · rw [h]
      have h1 := Dtab_le_lev q t i c c hi hc (le_refl _)
      have h2 : (t.take c).drop c = [] := by
        apply List.drop_eq_nil_of_le
        simp
      rw [h2] at h1
      exact h1
    · obtain ⟨s, hs, he⟩ := List.mem_map.mp h
      rw [← he]
      exact Dtab_le_lev q t i c s hi hc (by have := List.mem_range.mp hs; omega)
  · obtain ⟨s, hs, he⟩ := Dtab_attained q t i c hi hc
    rw [he]
    unfold dist_ending
    apply least_le_of_mem
    exact List.mem_map.mpr ⟨s, List.mem_range.mpr (by omega), rfl⟩

/-- What the invariant of the events says about a write, in the terms of the range. -/
theorem event_store_facts (q t : List Nat) (k N H : Nat) (r : range) (i v : Nat)
    (hq : N ≤ q.length) (hH : H ≤ t.length)
    (h : EventOK q t k N H (Event.store r i v)) :
    1 ≤ r.length_b ∧ i ≤ r.length_b ∧ r.row.off + r.length_b ≤ H ∧
      r.row_prev.off = r.row.off ∧ r.row_prev.bank = !r.row.bank ∧
      r.b = t.drop r.row.off ∧ r.length_b ≤ r.b.length ∧
      1 ≤ r.length_a ∧ r.length_a ≤ r.a.length ∧ 1 ≤ r.a_index ∧
      r.a_index + r.length_a = N + 1 ∧ r.a = q.drop (r.a_index - 1) ∧
      t.length - r.b.length + i = r.row.off + i ∧
      Approx k v (dist_ending q t r.a_index (r.row.off + i)) ∧
      (r.length_a = 1 → has_subrange r = false) := by
  obtain ⟨la, ai, lo, hi, bk, F, Lst, rfl, h1, h2, h3, h4, h5, h6, h7, h8, _, _⟩ := h
  have hlen : (t.drop lo).length = t.length - lo := List.length_drop lo t
  have hlenq : (q.drop (ai - 1)).length = q.length - (ai - 1) := List.length_drop _ q
  simp only [mkR, hlen, hlenq]
  refine ⟨by omega, h6, by omega, trivial, trivial, trivial, by omega, h3, by omega, h4, h5,
    trivial, by omega, ?_, ?_⟩
  · rw [← Dtab_eq_dist_ending q t ai (lo + i) (by omega) (by omega)]
    exact h7
  · intro hla
    obtain ⟨hF, _⟩ := h8 hla
    simp only [has_subrange, hF, decide_eq_false_iff_not]
    omega

/-- What the invariant of the events says about a call, in the terms of the two ranges. -/
theorem event_call_facts (q t : List Nat) (k N H : Nat) (p c : range)
    (hq : N ≤ q.length) (h : EventOK q t k N H (Event.call p c)) :
    1 ≤ p.first_match ∧ p.first_match ≤ p.last_match ∧ p.last_match ≤ p.length_b ∧
      p.first_match - 1 + c.length_b ≤ p.length_b ∧ 1 ≤ c.length_b ∧
      c.row.off = p.row_prev.off + (p.first_match - 1) ∧
      c.row_prev.off = p.row.off + (p.first_match - 1) ∧
      c.row.bank = p.row_prev.bank ∧ c.row_prev.bank = p.row.bank ∧
      c.length_a + 1 = p.length_a ∧ 1 ≤ c.length_a ∧ c.length_a ≤ c.a.length ∧
      p.length_a ≠ 1 ∧ c.a_index = p.a_index + 1 ∧ c.a_index ≤ N := by
  obtain ⟨la, ai, lo, hi, bk, F, Lst, rfl, rfl, h1, h2, h3, h4, h5, h6⟩ := h
  have hlenq : (q.drop (ai + 1 - 1)).length = q.length - (ai + 1 - 1) := List.length_drop _ q
  simp only [mkR, hlenq, Bool.not_not]
  exact ⟨by omega, by omega, by omega, by omega, by omega, by omega, by omega, trivial,
    trivial, trivial, by omega, by omega, by omega, trivial, by omega⟩

/-- What the invariant of the events says about the value of a write: it is `a_index` at
the column `0` of the window, and at every other column it is the least number of edits
that turn the first `a_index` bytes of the query into a substring of the text that ends
at the column. -/
theorem event_store_exact (q t : List Nat) (k N H : Nat) (r : range) (i v : Nat)
    (hq : N ≤ q.length) (hH : H ≤ t.length)
    (h : EventOK q t k N H (Event.store r i v)) :
    (i = 0 → v = r.a_index) ∧
      (1 ≤ i → v = dist_ending q t r.a_index (t.length - r.b.length + i)) := by
  obtain ⟨la, ai, lo, hi, bk, F, Lst, rfl, h1, h2, h3, h4, h5, h6, _, _, h9, h10⟩ := h
  have hlen : (t.drop lo).length = t.length - lo := List.length_drop lo t
  simp only [mkR, hlen]
  refine ⟨h10, ?_⟩
  intro hi1
  have e : t.length - (t.length - lo) + i = lo + i := by omega
  rw [e, ← Dtab_eq_dist_ending q t ai (lo + i) (by omega) (by omega)]
  exact h9 hi1

/-! ## The scan with the record is the scan of the source, on every input -/

theorem process_subrange_log_erase (call : range → Mem → Option (Nat × Mem))
    (clog : range → Mem → Option (Nat × Mem × List Event))
    (h : ∀ r m, (clog r m).map (fun x => (x.1, x.2.1)) = call r m) (r : range) (m : Mem) :
    (process_subrange_log clog r m).map (fun x => (x.1, x.2.1)) = process_subrange call r m := by
  unfold process_subrange_log process_subrange
  simp only
  rcases (r.a.drop 1)[0]? with _ | c
  · rfl
  · simp only
    rw [← h]
    generalize clog _ m = x
    rcases x with _ | ⟨res, m1, log⟩ <;> rfl

theorem process_range_loop_log_erase (L : Nat) (call : range → Mem → Option (Nat × Mem))
    (clog : range → Mem → Option (Nat × Mem × List Event))
    (h : ∀ r m, (clog r m).map (fun x => (x.1, x.2.1)) = call r m) :
    ∀ n i r best m log,
      (process_range_loop_log L clog n i r best m log).map (fun x => (x.1, x.2.1, x.2.2.1))
        = process_range_loop L call n i r best m := by
  intro n
  induction n with
  | zero => intro i r best m log; rfl
  | succ n ih =>
    intro i r best m log
    conv_lhs => unfold process_range_loop_log
    conv_rhs => unfold process_range_loop
    by_cases hc : i ≤ r.length_b ∧ best > 0
    · simp only [hc, and_self, if_true]
      rcases levenshtein_value L m r i with _ | v
      · rfl
      · simp only
        rcases m.store L r.row i v with _ | m1
        · rfl
        · simp only
          by_cases hl : is_in_last_row r = true
          · simp only [hl, if_true]
            rcases m1.load L r.row i with _ | x
            · rfl
            · exact ih _ _ _ _ _
          · simp only [hl, Bool.false_eq_true, if_false]
            rcases update_subrange L m1 r i with _ | r1
            · rfl
            · simp only
              by_cases hb : is_beyond_subrange r1 i = true
              · simp only [hb, if_true]
                have hs := process_subrange_log_erase call clog h r1 m1
                rcases hx : process_subrange_log clog r1 m1 with _ | ⟨sub, m2, log2⟩
                · rw [hx] at hs
                  rw [← hs]
                  rfl
                · rw [hx] at hs
                  rw [← hs]
                  exact ih _ _ _ _ _
              · simp only [hb, Bool.false_eq_true, if_false]
                exact ih _ _ _ _ _
    · simp only [hc, if_false]
      rfl

theorem process_range_log_erase (L : Nat) :
    ∀ fuel r m,
      (process_range_log L fuel r m).map (fun x => (x.1, x.2.1)) = process_range L fuel r m := by
  intro fuel
  induction fuel with
  | zero => intro r m; rfl
  | succ fuel ih =>
    intro r m
    conv_lhs => unfold process_range_log
    conv_rhs => unfold process_range
    rcases m.store L r.row 0 (of_int r.a_index) with _ | m1
    · rfl
    · simp only
      have hl := process_range_loop_log_erase L (process_range L fuel) (process_range_log L fuel)
        ih r.length_b 1 r UINT_MAX m1 [Event.store r 0 (of_int r.a_index)]
      rcases hx : process_range_loop_log L (process_range_log L fuel) r.length_b 1 r UINT_MAX m1
        [Event.store r 0 (of_int r.a_index)] with _ | ⟨r1, best, m2, log⟩
      · rw [hx] at hl
        rw [← hl]
        rfl
      · rw [hx] at hl
        rw [← hl]
        simp only [Option.map_some']
        by_cases hh : has_subrange r1 = true
        · simp only [hh, if_true]
          have hs := process_subrange_log_erase (process_range L fuel)
            (process_range_log L fuel) ih r1 m2
          rcases hy : process_subrange_log (process_range_log L fuel) r1 m2
            with _ | ⟨sub, m3, log3⟩
          · rw [hy] at hs
            rw [← hs]
            rfl
          · rw [hy] at hs
            rw [← hs]
            rfl
        · simp only [hh, Bool.false_eq_true, if_false]
          rfl

/-- The entry point with the record returns what the entry point of the source returns,
on every input: the record changes nothing. -/
theorem match_log_erase (L fuel : Nat) (m : Mem) (a : List Nat) (length_a : Nat)
    (b : List Nat) (length_b max_distance : Nat) :
    (levenshtein_substring_match_log L fuel m a length_a b length_b max_distance).map Prod.fst
      = levenshtein_substring_match L fuel m a length_a b length_b max_distance := by
  unfold levenshtein_substring_match_log levenshtein_substring_match
  simp only
  generalize (if length_a > L then L else length_a) = la
  generalize (if length_b > L then L else length_b) = lb
  by_cases h1 : la = 0
  · simp only [h1, if_true]
    by_cases h : lb ≤ max_distance
    · simp only [h, if_true, Option.map_some']
    · simp only [h, if_false, Option.map_some']
  · simp only [h1, if_false]
    by_cases h2 : lb = 0
    · simp only [h2, if_true, Option.map_some']
    · simp only [h2, if_false]
      by_cases h3 : la > uadd lb max_distance
      · simp only [h3, if_true, Option.map_some']
      · simp only [h3, if_false]
        rcases setup_initial_range L a la b lb max_distance m with _ | ⟨initial, m1⟩
        · rfl
        · simp only
          have hp := process_range_log_erase L fuel initial m1
          rcases hx : process_range_log L fuel initial m1 with _ | ⟨res, m2, log⟩
          · rw [hx] at hp
            rw [← hp]
            rfl
          · rw [hx] at hp
            rw [← hp]
            rfl

/-! ## The scan: the two rows, the windows, the bounds and the recursion -/

/-- Claim C11.  The result of `levenshtein_substring_match` does not depend on what the
two global rows hold when it is called: on buffers that hold the clamped lengths at
least, and with the clamped length of the query as fuel at least, the same arguments
give the same result `some r` from any two contents `m` and `m'` of the rows. -/
theorem match_scratch_independent (L fuel : Nat) (m m' : Mem) (q : List Nat) (n : Nat)
    (t : List Nat) (lb k : Nat) (hL2 : L + 2 ≤ 2147483648) (hq : min n L ≤ q.length)
    (ht : min lb L ≤ t.length) (hfuel : min n L ≤ fuel) :
    ∃ r, levenshtein_substring_match L fuel m q n t lb k = some r ∧
      levenshtein_substring_match L fuel m' q n t lb k = some r :=
  ⟨pmatch L q n t lb k, match_eq_pmatch L fuel m q n t lb k hL2 hq ht hfuel,
    match_eq_pmatch L fuel m' q n t lb k hL2 hq ht hfuel⟩

theorem match_scratch_independent_witness :
    ∃ r, levenshtein_substring_match 256 3 ⟨fun _ => 0, fun _ => 0⟩ [97, 98, 99] 3
          [120, 97, 98, 100, 121] 5 1 = some r ∧
      levenshtein_substring_match 256 3 ⟨fun x => x + 7, fun _ => 4000000000⟩ [97, 98, 99] 3
          [120, 97, 98, 100, 121] 5 1 = some r :=
  match_scratch_independent 256 3 ⟨fun _ => 0, fun _ => 0⟩ ⟨fun x => x + 7, fun _ => 4000000000⟩
    [97, 98, 99] 3 [120, 97, 98, 100, 121] 5 1 (by decide) (by decide) (by decide) (by decide)

/-- Claim C12.  The test `length_a > length_b + max_distance` of the entry point adds in
`unsigned`: with the query `abc`, the text `abc` and `max_distance = UINT_MAX` the sum
wraps to `2`, the entry point takes the branch "not found" and returns `UINT_MAX`, while
the scan of the initial range over the same query and text returns `0`. -/
theorem match_wraparound (m : Mem) :
    levenshtein_substring_match 256 3 m [97, 98, 99] 3 [97, 98, 99] 3 4294967295
        = some UINT_MAX ∧
      (3 : Nat) ≤ 3 + 4294967295 ∧
      (setup_initial_range 256 [97, 98, 99] 3 [97, 98, 99] 3 4294967295 m).bind
          (fun st => (process_range 256 3 st.1 st.2).map Prod.fst) = some 0 := by
  refine ⟨rfl, by decide, ?_⟩
  obtain ⟨m1, hs, hm1⟩ := setup_initial_range_eq 256 [97, 98, 99] 3 [97, 98, 99] 3 4294967295 m
    (by decide) (by decide) (by decide)
  obtain ⟨m2, hp, _⟩ := process_range_spec 256 [97, 98, 99] [97, 98, 99] 4294967295 (by decide)
    3 3 (by decide) (by decide) 1 0 3 false (fun _ => 0) m1 (by decide) (by decide)
    (by decide) (by decide) (by decide) (by decide) (fun c _ hc => hm1 c hc)
    (fun c _ _ => Nat.zero_lt_one)
  rw [hs]
  simp only [Option.some_bind, hp, Option.map_some']
  decide

/-- Claim C13.  The scan on the two shared rows, in which a child range gets the two
rows of its parent swapped and offset by `first_match - 1`, returns the same result
`some r` as the scan in which every recursive call gets a fresh current row and a private
copy of the slice of the current row of its parent as its previous row, and in which
nothing a child writes reaches its parent (`levenshtein_substring_match_fresh`).  The scan
on the two shared rows with the two checks returns `some r` as well
(`levenshtein_substring_match_chk`), so that no check fails: at every depth, after every
call that the loop of `process_range` makes at a column `i`, neither the child nor a call
below it has written a cell of the two rows at or after the cell `i` of the parent, and
the two rows hold from there on what they held before the call; and every later turn of
the loop of the parent, which reads `row_prev[i - 1]`, `row[i - 1]`, `row_prev[i]` and
`row[i]` at its column `i`, reads at or after that cell only. -/
theorem match_refines_fresh (L fuel : Nat) (m : Mem) (q : List Nat) (n : Nat) (t : List Nat)
    (lb k : Nat) (hL2 : L + 2 ≤ 2147483648) (hq : min n L ≤ q.length)
    (ht : min lb L ≤ t.length) (hfuel : min n L ≤ fuel) :
    ∃ r, levenshtein_substring_match L fuel m q n t lb k = some r ∧
      levenshtein_substring_match_fresh L fuel m q n t lb k = some r ∧
      (levenshtein_substring_match_chk L fuel m q n t lb k).map Prod.fst = some r := by
  obtain ⟨log, h1, _⟩ := match_chk_spec L fuel m q n t lb k hL2 hq ht hfuel
  refine ⟨pmatch L q n t lb k, match_eq_pmatch L fuel m q n t lb k hL2 hq ht hfuel,
    match_fresh_eq_pmatch L fuel m q n t lb k hL2 hq ht hfuel, ?_⟩
  rw [h1]
  rfl

theorem match_refines_fresh_witness :
    ∃ r, levenshtein_substring_match 256 6 ⟨fun _ => 0, fun _ => 0⟩
          [107, 105, 116, 116, 101, 110] 6 [120, 120, 107, 105, 116, 120, 101, 110, 121, 121]
          10 1 = some r ∧
      levenshtein_substring_match_fresh 256 6 ⟨fun _ => 0, fun _ => 0⟩
          [107, 105, 116, 116, 101, 110] 6 [120, 120, 107, 105, 116, 120, 101, 110, 121, 121]
          10 1 = some r ∧
      (levenshtein_substring_match_chk 256 6 ⟨fun _ => 0, fun _ => 0⟩
          [107, 105, 116, 116, 101, 110] 6 [120, 120, 107, 105, 116, 120, 101, 110, 121, 121]
          10 1).map Prod.fst = some r :=
  match_refines_fresh 256 6 ⟨fun _ => 0, fun _ => 0⟩ [107, 105, 116, 116, 101, 110] 6
    [120, 120, 107, 105, 116, 120, 101, 110, 121, 121] 10 1 (by decide) (by decide)
    (by decide) (by decide)

/-- Claim C14, as stated, fails.  In the scan of the text `ba` for the query `ab` with
`max_distance = 0` the writes are, latest first and as (row, column, value),
`(2, 2, 1)`, `(2, 1, 2)`, `(1, 2, 0)`, `(1, 1, 1)`, `(1, 0, 1)`: the child range of the
second row writes `row[0] = a_index = 2` for the column `1` of the text, while one
deletion turns `ab` into the substring `b` that ends at that column. -/
theorem row_value_counterexample :
    (levenshtein_substring_match_log 256 2 ⟨fun _ => 0, fun _ => 0⟩ [97, 98] 2 [98, 97] 2
        0).map (fun p => p.2.filterMap (Event.cell 2))
      = some [(2, 2, 1), (2, 1, 2), (1, 2, 0), (1, 1, 1), (1, 0, 1)] ∧
    dist_ending [97, 98] [98, 97] 2 1 = 1 := by
  constructor
  · decide
  · decide

/-- Claim C14, amended.  The scan with the record returns the result of the entry point,
and for every write `row[i] = v` of `process_range` on a range `r` of its record, at
every level of the recursion: `i` is a column `0 .. length_b` of the window and the range
is at a row `a_index` of the clamped query; at every column `i ≥ 1` the value `v` is the
least number of edits that turn the first `a_index` bytes of the query into a substring
of the text that ends at the column of the text that `i` stands for; at the column
`i = 0` it is `a_index`, which is not less than that number, and is that number whenever
that number is at most `max_distance`. -/
theorem row_value_invariant (L fuel : Nat) (m : Mem) (q : List Nat) (n : Nat) (t : List Nat)
    (lb k : Nat) (hL2 : L + 2 ≤ 2147483648) (hq : min n L ≤ q.length)
    (ht : min lb L ≤ t.length) (hfuel : min n L ≤ fuel) :
    ∃ res log, levenshtein_substring_match_log L fuel m q n t lb k = some (res, log) ∧
      levenshtein_substring_match L fuel m q n t lb k = some res ∧
      ∀ r i v, Event.store r i v ∈ log →
        i ≤ r.length_b ∧ 1 ≤ r.a_index ∧ r.a_index ≤ min n L ∧
        t.length - r.b.length + i ≤ min lb L ∧
        (1 ≤ i → v = dist_ending q t r.a_index (t.length - r.b.length + i)) ∧
        (i = 0 → v = r.a_index) ∧
        dist_ending q t r.a_index (t.length - r.b.length + i) ≤ v ∧
        (dist_ending q t r.a_index (t.length - r.b.length + i) ≤ k →
          v = dist_ending q t r.a_index (t.length - r.b.length + i)) := by
  obtain ⟨log, h1, h2⟩ := match_log_spec L fuel m q n t lb k hL2 hq ht hfuel
  refine ⟨_, log, h1, match_eq_pmatch L fuel m q n t lb k hL2 hq ht hfuel, ?_⟩
  intro r i v he
  obtain ⟨_, f2, f3, _, _, _, _, f8, _, f10, f11, _, f13, f14, _⟩ :=
    event_store_facts q t k (min n L) (min lb L) r i v hq ht (h2 _ he)
  obtain ⟨g1, g2⟩ := event_store_exact q t k (min n L) (min lb L) r i v hq ht (h2 _ he)
  rw [f13]
  rw [f13] at g2
  exact ⟨f2, f10, by omega, by omega, g2, g1, f14.1, f14.2⟩

theorem row_value_invariant_witness :
    ∃ res log, levenshtein_substring_match_log 256 2 ⟨fun _ => 0, fun _ => 0⟩ [97, 98] 2
          [98, 97] 2 0 = some (res, log) ∧
      levenshtein_substring_match 256 2 ⟨fun _ => 0, fun _ => 0⟩ [97, 98] 2 [98, 97] 2 0
        = some res ∧
      ∀ r i v, Event.store r i v ∈ log →
        i ≤ r.length_b ∧ 1 ≤ r.a_index ∧ r.a_index ≤ min 2 256 ∧
        [98, 97].length - r.b.length + i ≤ min 2 256 ∧
        (1 ≤ i →
          v = dist_ending [97, 98] [98, 97] r.a_index ([98, 97].length - r.b.length + i)) ∧
        (i = 0 → v = r.a_index) ∧
        dist_ending [97, 98] [98, 97] r.a_index ([98, 97].length - r.b.length + i) ≤ v ∧
        (dist_ending [97, 98] [98, 97] r.a_index ([98, 97].length - r.b.length + i) ≤ 0 →
          v = dist_ending [97, 98] [98, 97] r.a_index ([98, 97].length - r.b.length + i)) :=
  row_value_invariant 256 2 ⟨fun _ => 0, fun _ => 0⟩ [97, 98] 2 [98, 97] 2 0 (by decide)
    (by decide) (by decide) (by decide)

/-- Claim C15, as stated, fails.  The parent has two bytes of the query left and the band
`[2, 2]` in a window of six columns: the child that `process_subrange` builds has
`length_b = 2`, the columns `2 .. 3` of the parent, and not the `3` columns `2 .. 4`
that `min (last + length_a) length_b - first + 1` gives.  The callee of the call
returns the `length_b` it receives. -/
theorem child_window_counterexample :
    (process_subrange (fun sub m => some (sub.length_b, m))
        (mkR [97, 98] [120, 97, 120, 120, 120, 120] 0 2 1 0 6 false 2 2)
        ⟨fun _ => 0, fun _ => 0⟩).map Prod.fst = some 2 ∧
      min ((mkR [97, 98] [120, 97, 120, 120, 120, 120] 0 2 1 0 6 false 2 2).last_match
            + (mkR [97, 98] [120, 97, 120, 120, 120, 120] 0 2 1 0 6 false 2 2).length_a)
          (mkR [97, 98] [120, 97, 120, 120, 120, 120] 0 2 1 0 6 false 2 2).length_b
        - (mkR [97, 98] [120, 97, 120, 120, 120, 120] 0 2 1 0 6 false 2 2).first_match + 1
        = 3 := by
  constructor
  · decide
  · decide

/-- Claim C15, amended.  For a parent range with at least two bytes of the query left and
the band `[first_match, last_match]` in its window, `process_subrange` calls
`process_range` on a child range `sub` whose window starts at the column `first_match` of
the parent and ends at the column `min (last_match + length_a - 1) length_b` of the
parent: its `length_b` is `min (last_match + length_a - 1) length_b - first_match + 1`,
its text and its two rows start `first_match - 1` cells after those of the parent, the
rows swapped, and it has one byte of the query less. -/
theorem child_window (r : range) (h2 : 2 ≤ r.length_a) (hF : 1 ≤ r.first_match)
    (hFL : r.first_match ≤ r.last_match) (hLb : r.last_match ≤ r.length_b)
    (hbound : r.length_b + r.length_a < 4294967296) (ha : 2 ≤ r.a.length) :
    ∃ sub : range,
      (∀ (call : range → Mem → Option (Nat × Mem)) (m : Mem),
        process_subrange call r m
          = match call sub m with
            | none => none
            | some (res, m1) => some (of_int (to_int res), m1)) ∧
      sub.length_b = min (r.last_match + r.length_a - 1) r.length_b - r.first_match + 1 ∧
      r.first_match - 1 + sub.length_b = min (r.last_match + r.length_a - 1) r.length_b ∧
      sub.b = r.b.drop (r.first_match - 1) ∧
      sub.row = ⟨r.row_prev.bank, r.row_prev.off + (r.first_match - 1)⟩ ∧
      sub.row_prev = ⟨r.row.bank, r.row.off + (r.first_match - 1)⟩ ∧
      sub.length_a = r.length_a - 1 ∧ sub.a = r.a.drop 1 ∧ sub.a_index = r.a_index + 1 := by
  have e1 : usub r.last_match r.first_match = r.last_match - r.first_match :=
    usub_small (by omega) (by omega)
  have e2 : uadd (r.last_match - r.first_match) r.length_a
      = r.last_match - r.first_match + r.length_a := uadd_small (by omega)
  have e3 : usub r.length_b r.first_match = r.length_b - r.first_match :=
    usub_small (by omega) (by omega)
  have e4 : uadd (r.length_b - r.first_match) 1 = r.length_b - r.first_match + 1 :=
    uadd_small (by omega)
  have e5 : usub r.length_a 1 = r.length_a - 1 := usub_small (by omega) (by omega)
  have e6 : (if r.last_match - r.first_match + r.length_a > r.length_b - r.first_match + 1
      then r.length_b - r.first_match + 1 else r.last_match - r.first_match + r.length_a)
      = min (r.last_match + r.length_a - 1) r.length_b - r.first_match + 1 := by
    split <;> omega
  have e7 : (r.a.drop 1)[0]? = some (r.a.getD 1 0) := by
    rw [List.getElem?_drop, List.getD_eq_getElem?_getD, List.getElem?_eq_getElem (by omega)]
    rfl
  refine ⟨setup_no_subrange
    { ch := tolower (r.a.getD 1 0), a := r.a.drop 1, length_a := r.length_a - 1,
      b := r.b.drop (r.first_match - 1),
      length_b := min (r.last_match + r.length_a - 1) r.length_b - r.first_match + 1,
      row := ⟨r.row_prev.bank, r.row_prev.off + r.first_match - 1⟩,
      row_prev := ⟨r.row.bank, r.row.off + r.first_match - 1⟩,
      max_distance := r.max_distance, a_index := r.a_index + 1,
      first_match := 0, last_match := 0 }, ?_, rfl, ?_, rfl, ?_, ?_, rfl, rfl, rfl⟩
  · intro call m
    unfold process_subrange
    simp only [e1, e2, e3, e4, e5, e6, e7]
  · simp only [setup_no_subrange]; omega
  · simp only [setup_no_subrange]
    rw [Nat.add_sub_assoc hF]
  · simp only [setup_no_subrange]
    rw [Nat.add_sub_assoc hF]

theorem child_window_witness :
    ∃ sub : range,
      (∀ (call : range → Mem → Option (Nat × Mem)) (m : Mem),
        process_subrange call (mkR [97, 98] [120, 97, 120, 120, 120, 120] 0 2 1 0 6 false 2 2) m
          = match call sub m with
            | none => none
            | some (res, m1) => some (of_int (to_int res), m1)) ∧
      sub.length_b = min (2 + 2 - 1) 6 - 2 + 1 ∧
      2 - 1 + sub.length_b = min (2 + 2 - 1) 6 ∧
      sub.b = [97, 120, 120, 120, 120] ∧
      sub.row = ⟨true, 1⟩ ∧ sub.row_prev = ⟨false, 1⟩ ∧
      sub.length_a = 1 ∧ sub.a = [98] ∧ sub.a_index = 2 :=
  child_window (mkR [97, 98] [120, 97, 120, 120, 120, 120] 0 2 1 0 6 false 2 2) (by decide)
    (by decide) (by decide) (by decide) (by decide) (by decide)

/-- Claim C16.  On buffers that hold exactly the clamped numbers of bytes of the query
and of the text, so that a read past either of them fails as a load or a store outside
of the `L + 2` cells of a row does, the scan with the record returns the result of the
entry point, and in its record: every write `row[i]` is of a range with
`1 ≤ length_b`, at a column `i ≤ length_b`, whose window `row.off .. row.off + length_b`
lies in the first `min text_len L ≤ L` cells after the first of the two rows, whose text
pointer has at least `length_b` bytes left and whose query pointer has at least
`length_a ≥ 1` bytes left; every call is for a band with `first_match ≥ 1` on a child
whose window lies inside the window of the parent
(`first_match - 1 + child.length_b ≤ parent.length_b`), with `1 ≤ child.length_b` and at
least `child.length_a ≥ 1` bytes of the query left for the child. -/
theorem scan_index_safety (L fuel : Nat) (m : Mem) (q : List Nat) (n : Nat) (t : List Nat)
    (lb k : Nat) (hL2 : L + 2 ≤ 2147483648) (hq : q.length = min n L)
    (ht : t.length = min lb L) (hfuel : min n L ≤ fuel) :
    ∃ res log, levenshtein_substring_match_log L fuel m q n t lb k = some (res, log) ∧
      levenshtein_substring_match L fuel m q n t lb k = some res ∧
      (∀ r i v, Event.store r i v ∈ log →
        1 ≤ r.length_b ∧ i ≤ r.length_b ∧ r.row.off + r.length_b ≤ min lb L ∧
        min lb L ≤ L ∧ r.row_prev.off = r.row.off ∧ r.length_b ≤ r.b.length ∧
        1 ≤ r.length_a ∧ r.length_a ≤ r.a.length) ∧
      (∀ p c, Event.call p c ∈ log →
        1 ≤ p.first_match ∧ p.first_match - 1 + c.length_b ≤ p.length_b ∧ 1 ≤ c.length_b ∧
        c.row.off = p.row_prev.off + (p.first_match - 1) ∧
        c.row_prev.off = p.row.off + (p.first_match - 1) ∧
        1 ≤ c.length_a ∧ c.length_a ≤ c.a.length) := by
  obtain ⟨log, h1, h2⟩ := match_log_spec L fuel m q n t lb k hL2 (by omega) (by omega) hfuel
  refine ⟨_, log, h1,
    match_eq_pmatch L fuel m q n t lb k hL2 (by omega) (by omega) hfuel, ?_, ?_⟩
  · intro r i v he
    obtain ⟨f1, f2, f3, f4, _, _, f7, f8, f9, _⟩ :=
      event_store_facts q t k (min n L) (min lb L) r i v (by omega) (by omega) (h2 _ he)
    exact ⟨f1, f2, f3, Nat.min_le_right _ _, f4, f7, f8, f9⟩
  · intro p c he
    obtain ⟨f1, _, _, f4, f5, f6, f7, _, _, _, f11, f12, _⟩ :=
      event_call_facts q t k (min n L) (min lb L) p c (by omega) (h2 _ he)
    exact ⟨f1, f4, f5, f6, f7, f11, f12⟩

theorem scan_index_safety_witness :
    ∃ res log, levenshtein_substring_match_log 4 3 ⟨fun _ => 0, fun _ => 0⟩ [97, 98, 99] 3
          [120, 97, 98, 99] 9 1 = some (res, log) ∧
      levenshtein_substring_match 4 3 ⟨fun _ => 0, fun _ => 0⟩ [97, 98, 99] 3
          [120, 97, 98, 99] 9 1 = some res ∧
      (∀ r i v, Event.store r i v ∈ log →
        1 ≤ r.length_b ∧ i ≤ r.length_b ∧ r.row.off + r.length_b ≤ min 9 4 ∧
        min 9 4 ≤ 4 ∧ r.row_prev.off = r.row.off ∧ r.length_b ≤ r.b.length ∧
        1 ≤ r.length_a ∧ r.length_a ≤ r.a.length) ∧
      (∀ p c, Event.call p c ∈ log →
        1 ≤ p.first_match ∧ p.first_match - 1 + c.length_b ≤ p.length_b ∧ 1 ≤ c.length_b ∧
        c.row.off = p.row_prev.off + (p.first_match - 1) ∧
        c.row_prev.off = p.row.off + (p.first_match - 1) ∧
        1 ≤ c.length_a ∧ c.length_a ≤ c.a.length) :=
  scan_index_safety 4 3 ⟨fun _ => 0, fun _ => 0⟩ [97, 98, 99] 3 [120, 97, 98, 99] 9 1
    (by decide) (by decide) (by decide) (by decide)

/-- Claim C17.  With the clamped length of the query as fuel, which bounds the depth of
the recursion `process_range → process_subrange → process_range`, the scan returns: it
does not run out of fuel.  In its record every call is from a parent with
`length_a ≠ 1` on a child with `length_a` one less and at least `1`, at the row
`a_index` one more, which is at most the clamped length of the query; and every write of
a range with `length_a = 1` is of a range with no band open. -/
theorem scan_terminates (L : Nat) (m : Mem) (q : List Nat) (n : Nat) (t : List Nat)
    (lb k : Nat) (hL2 : L + 2 ≤ 2147483648) (hq : min n L ≤ q.length)
    (ht : min lb L ≤ t.length) :
    ∃ res log, levenshtein_substring_match_log L (min n L) m q n t lb k = some (res, log) ∧
      levenshtein_substring_match L (min n L) m q n t lb k = some res ∧
      (∀ p c, Event.call p c ∈ log →
        c.length_a + 1 = p.length_a ∧ 1 ≤ c.length_a ∧ p.length_a ≠ 1 ∧
        c.a_index = p.a_index + 1 ∧ c.a_index ≤ min n L) ∧
      (∀ r i v, Event.store r i v ∈ log →
        1 ≤ r.a_index ∧ r.a_index + r.length_a = min n L + 1 ∧
        (r.length_a = 1 → has_subrange r = false)) := by
  obtain ⟨log, h1, h2⟩ := match_log_spec L (min n L) m q n t lb k hL2 hq ht (le_refl _)
  refine ⟨_, log, h1, match_eq_pmatch L (min n L) m q n t lb k hL2 hq ht (le_refl _), ?_, ?_⟩
  · intro p c he
    obtain ⟨_, _, _, _, _, _, _, _, _, f10, f11, _, f13, f14, f15⟩ :=
      event_call_facts q t k (min n L) (min lb L) p c hq (h2 _ he)
    exact ⟨f10, f11, f13, f14, f15⟩
  · intro r i v he
    obtain ⟨_, _, _, _, _, _, _, _, _, f10, f11, _, _, _, f15⟩ :=
      event_store_facts q t k (min n L) (min lb L) r i v hq ht (h2 _ he)
    exact ⟨f10, f11, f15⟩

theorem scan_terminates_witness :
    ∃ res log, levenshtein_substring_match_log 256 (min 3 256) ⟨fun _ => 0, fun _ => 0⟩
          [97, 98, 99] 3 [120, 97, 98, 100, 121] 5 1 = some (res, log) ∧
      levenshtein_substring_match 256 (min 3 256) ⟨fun _ => 0, fun _ => 0⟩ [97, 98, 99] 3
          [120, 97, 98, 100, 121] 5 1 = some res ∧
      (∀ p c, Event.call p c ∈ log →
        c.length_a + 1 = p.length_a ∧ 1 ≤ c.length_a ∧ p.length_a ≠ 1 ∧
        c.a_index = p.a_index + 1 ∧ c.a_index ≤ min 3 256) ∧
      (∀ r i v, Event.store r i v ∈ log →
        1 ≤ r.a_index ∧ r.a_index + r.length_a = min 3 256 + 1 ∧
        (r.length_a = 1 → has_subrange r = false)) :=
  scan_terminates 256 ⟨fun _ => 0, fun _ => 0⟩ [97, 98, 99] 3 [120, 97, 98, 100, 121] 5 1
    (by decide) (by decide) (by decide)

/-- Claim C18.  For a query and a text of at least one and at most `L` bytes and every
`max_distance`, the entry point returns a value `r`, and when `r` is not `UINT_MAX` it
is at least the distance `dstar q t` of the query to the nearest contiguous substring of
the text, it is the cost of an edit script that turns the query into a contiguous
substring of the text, and `r = 0` only if the query occurs in the text, bytes
compared after lower-casing. -/
theorem match_never_under (L fuel : Nat) (m : Mem) (q t : List Nat) (k : Nat)
    (hL2 : L + 2 ≤ 2147483648) (hq1 : 1 ≤ q.length) (hqL : q.length ≤ L)
    (ht1 : 1 ≤ t.length) (htL : t.length ≤ L) (hfuel : q.length ≤ fuel) :
    ∃ r, levenshtein_substring_match L fuel m q q.length t t.length k = some r ∧
      (r ≠ UINT_MAX →
        dstar q t ≤ r ∧ (∃ u, u <:+: t ∧ Align q u r) ∧
        (r = 0 → q.map tolower <:+: t.map tolower)) := by
  have e1 : min q.length L = q.length := Nat.min_eq_left hqL
  have e2 : min t.length L = t.length := Nat.min_eq_left htL
  refine ⟨pmatch L q q.length t t.length k,
    match_eq_pmatch L fuel m q q.length t t.length k hL2 (by omega) (by omega) (by omega), ?_⟩
  intro hne
  by_cases h3 : min q.length L ≤ uadd (min t.length L) k
  · rw [pmatch_scan L q q.length t t.length k (by omega) (by omega) h3, e1, e2] at hne ⊢
    have htop := pscan_top q t k hq1 ht1 (by unfold UINT_MAX; omega)
    refine ⟨htop.1, ?_, ?_⟩
    · rcases pscan_top_scripted q t k hq1 with h | h
      · exact absurd h hne
      · exact h
    · intro h0
      exact (dstar_eq_zero_iff q t).mp (by rw [h0] at htop; exact Nat.le_zero.mp htop.1)
  · exact absurd (pmatch_not_found L q q.length t t.length k (by omega) (Or.inr (by omega))) hne

theorem match_never_under_witness :
    ∃ r, levenshtein_substring_match 256 3 ⟨fun _ => 0, fun _ => 0⟩ [97, 98, 99] 3
          [120, 65, 98, 100, 121] 5 1 = some r ∧
      (r ≠ UINT_MAX →
        dstar [97, 98, 99] [120, 65, 98, 100, 121] ≤ r ∧
        (∃ u, u <:+: [120, 65, 98, 100, 121] ∧ Align [97, 98, 99] u r) ∧
        (r = 0 → [97, 98, 99].map tolower <:+: [120, 65, 98, 100, 121].map tolower)) :=
  match_never_under 256 3 ⟨fun _ => 0, fun _ => 0⟩ [97, 98, 99] [120, 65, 98, 100, 121] 1
    (by decide) (by decide) (by decide) (by decide) (by decide) (by decide)


end Pick
